import Mathlib

/-!
# real_malloc/malloc.c: a free-list allocator with three placement policies

Shallow embedding of `src/real_malloc/malloc.c`.

* Memory is a map from byte addresses to the 64-bit word stored there.  A
  `simple_metadata_t` at address `m` keeps `size` in the word at `m` and `next`
  in the word at `m + 8`, so `sizeof(simple_metadata_t) = 16` (LP64).
* Pointers are natural numbers and `NULL` is `0`.
* `size_t` subtraction is taken modulo `2 ^ 64`.
* The loops and the retry after a page acquisition are bounded by a fuel
  argument; running out of fuel is reported as `Fault.out_of_fuel`.
* `assert` aborts: a failed assertion is reported as `Fault.assert_failed`.
* `mmap_from_system` is external: the environment gives the address returned
  by the n-th call, and the heap counts the calls made so far.
* The field `simple_heap.free_head` is a variable of its own, outside the
  memory map: no slot header overlaps it.  The field `simple_heap.dummy` is in
  the memory map, since the free list links to it.
-/

namespace RealMalloc

/-! ## Data model -/

/-- The null pointer. -/
def NULL : Nat := 0

/-- The value of `sizeof(simple_metadata_t)`: one `size_t` and one pointer. -/
def header_size : Nat := 16

/-- The modulus of `size_t` arithmetic. -/
def size_t_mod : Nat := 2 ^ 64

/-- The local constant `buffer_size` of the three allocation functions. -/
def buffer_size : Nat := 4096

/-- Unsigned subtraction on `size_t`. -/
def size_t_sub (a b : Nat) : Nat := (a + (size_t_mod - b % size_t_mod)) % size_t_mod

/-- Writing the word `v` at address `a`. -/
def store (mem : Nat → Nat) (a v : Nat) : Nat → Nat :=
  fun x => if x = a then v else mem x

/-- The ways a call can fail to return. -/
inductive Fault where
  | assert_failed
  | out_of_fuel
  deriving DecidableEq, Repr

/-- The global `simple_heap` together with the memory it points into.
`free_head` is the field of that name; the field `dummy` lives in memory at
the address `Env.dummy`.  `mmap_calls` counts the calls of `mmap_from_system`. -/
structure simple_heap_t where
  mem : Nat → Nat
  free_head : Nat
  mmap_calls : Nat

/-- What the surroundings fix: the address of `simple_heap.dummy` and the
address returned by each call of `mmap_from_system`. -/
structure Env where
  dummy : Nat
  mmap_from_system : Nat → Nat

/-! ## Free-list store -/

/-- Source: `add_to_free_list` (lines 54-58). -/
def add_to_free_list (h : simple_heap_t) (metadata : Nat) : Except Fault simple_heap_t :=
  if h.mem (metadata + 8) ≠ NULL then
    Except.error Fault.assert_failed
  else
    Except.ok { h with mem := store h.mem (metadata + 8) h.free_head, free_head := metadata }

/-- Source: `remove_from_free_list` (lines 61-69). -/
def remove_from_free_list (h : simple_heap_t) (metadata prev : Nat) : simple_heap_t :=
  let h1 : simple_heap_t :=
    if prev ≠ NULL then
      { h with mem := store h.mem (prev + 8) (h.mem (metadata + 8)) }
    else
      { h with free_head := h.mem (metadata + 8) }
  { h1 with mem := store h1.mem (metadata + 8) NULL }

/-- Source: `my_initialize` (lines 72-76). -/
def my_initialize (env : Env) (h : simple_heap_t) : simple_heap_t :=
  { h with
    free_head := env.dummy
    mem := store (store h.mem env.dummy 0) (env.dummy + 8) NULL }

/-! ## The three scans -/

/-- The loop of `first_fit_malloc` (lines 86-90); returns `(metadata, prev)`. -/
def first_fit_scan (mem : Nat → Nat) (size : Nat) : Nat → Nat → Nat → Option (Nat × Nat)
  | 0, _, _ => none
  | fuel + 1, metadata, prev =>
    if metadata ≠ NULL ∧ mem metadata < size then
      first_fit_scan mem size fuel (mem (metadata + 8)) metadata
    else
      some (metadata, prev)

/-- The loop of `best_fit_malloc` (lines 129-139); returns `(metadata, prev)`. -/
def best_fit_scan (mem : Nat → Nat) (size : Nat) :
    Nat → Nat → Nat → Nat → Nat → Nat → Option (Nat × Nat)
  | 0, _, _, _, _, _ => none
  | fuel + 1, metadata, prev, metadata_now, metadata_now_prev, min_size =>
    if metadata_now ≠ NULL then
      if mem metadata_now ≥ size ∧ mem metadata_now < min_size then
        best_fit_scan mem size fuel metadata_now metadata_now_prev
          (mem (metadata_now + 8)) metadata_now (mem metadata_now)
      else
        best_fit_scan mem size fuel metadata prev
          (mem (metadata_now + 8)) metadata_now min_size
    else
      some (metadata, prev)

/-- The loop of `worst_fit_malloc` (lines 195-204); returns `(metadata, prev)`. -/
def worst_fit_scan (mem : Nat → Nat) (size : Nat) :
    Nat → Nat → Nat → Nat → Nat → Nat → Option (Nat × Nat)
  | 0, _, _, _, _, _ => none
  | fuel + 1, metadata, prev, metadata_now, metadata_now_prev, max_size =>
    if metadata_now ≠ NULL then
      if mem metadata_now ≥ size ∧ mem metadata_now > max_size then
        worst_fit_scan mem size fuel metadata_now metadata_now_prev
          (mem (metadata_now + 8)) metadata_now (mem metadata_now)
      else
        worst_fit_scan mem size fuel metadata prev
          (mem (metadata_now + 8)) metadata_now max_size
    else
      some (metadata, prev)

/-! ## Shared blocks of the three allocation functions -/

/-- The body of `if (!metadata)` up to the retry (lines 93-99, 150-156,
215-221): map a page, format it as one free slot and put it on the list. -/
def new_region (env : Env) (h : simple_heap_t) : Except Fault simple_heap_t :=
  let metadata := env.mmap_from_system h.mmap_calls
  let h1 : simple_heap_t := { h with mmap_calls := h.mmap_calls + 1 }
  let h2 : simple_heap_t :=
    { h1 with mem := store h1.mem metadata (size_t_sub buffer_size header_size) }
  let h3 : simple_heap_t := { h2 with mem := store h2.mem (metadata + 8) NULL }
  add_to_free_list h3 metadata

/-- The tail of the three allocation functions once a slot is chosen (lines
104-116, 166-186, 231-251): shrink, unlink, split off the rest, return `ptr`. -/
def take_slot (h : simple_heap_t) (size metadata prev : Nat) :
    Except Fault (Nat × simple_heap_t) :=
  let ptr := metadata + header_size
  let remaining_size := size_t_sub (h.mem metadata) size
  let h1 : simple_heap_t := { h with mem := store h.mem metadata size }
  let h2 := remove_from_free_list h1 metadata prev
  if remaining_size > header_size then
    let new_metadata := ptr + size
    let h3 : simple_heap_t :=
      { h2 with mem := store h2.mem new_metadata (size_t_sub remaining_size header_size) }
    let h4 : simple_heap_t := { h3 with mem := store h3.mem (new_metadata + 8) NULL }
    match add_to_free_list h4 new_metadata with
    | Except.error e => Except.error e
    | Except.ok h5 => Except.ok (ptr, h5)
  else
    Except.ok (ptr, h2)

/-! ## Allocation and release -/

/-- Source: `first_fit_malloc` (lines 82-117). -/
def first_fit_malloc (env : Env) : Nat → Nat → simple_heap_t → Except Fault (Nat × simple_heap_t)
  | 0, _, _ => Except.error Fault.out_of_fuel
  | fuel + 1, size, h =>
    match first_fit_scan h.mem size fuel h.free_head NULL with
    | none => Except.error Fault.out_of_fuel
    | some (metadata, prev) =>
      if metadata = NULL then
        match new_region env h with
        | Except.error e => Except.error e
        | Except.ok h1 => first_fit_malloc env fuel size h1
      else
        take_slot h size metadata prev

/-- Source: `best_fit_malloc` (lines 119-187). -/
def best_fit_malloc (env : Env) : Nat → Nat → simple_heap_t → Except Fault (Nat × simple_heap_t)
  | 0, _, _ => Except.error Fault.out_of_fuel
  | fuel + 1, size, h =>
    match best_fit_scan h.mem size fuel NULL NULL h.free_head NULL 5000 with
    | none => Except.error Fault.out_of_fuel
    | some (metadata, prev) =>
      if metadata = NULL then
        match new_region env h with
        | Except.error e => Except.error e
        | Except.ok h1 => best_fit_malloc env fuel size h1
      else
        take_slot h size metadata prev

/-- Source: `worst_fit_malloc` (lines 189-252). -/
def worst_fit_malloc (env : Env) : Nat → Nat → simple_heap_t → Except Fault (Nat × simple_heap_t)
  | 0, _, _ => Except.error Fault.out_of_fuel
  | fuel + 1, size, h =>
    match worst_fit_scan h.mem size fuel NULL NULL h.free_head NULL 0 with
    | none => Except.error Fault.out_of_fuel
    | some (metadata, prev) =>
      if metadata = NULL then
        match new_region env h with
        | Except.error e => Except.error e
        | Except.ok h1 => worst_fit_malloc env fuel size h1
      else
        take_slot h size metadata prev

/-- Source: `my_malloc` (lines 254-256). -/
def my_malloc (env : Env) (fuel size : Nat) (h : simple_heap_t) :
    Except Fault (Nat × simple_heap_t) :=
  worst_fit_malloc env fuel size h

/-- Source: `my_free` (lines 260-269). -/
def my_free (h : simple_heap_t) (ptr : Nat) : Except Fault simple_heap_t :=
  let metadata := ptr - header_size
  add_to_free_list h metadata

/-! ## Policies, sessions and reachable states -/

/-- The placement policy a build uses. -/
inductive Policy where
  | first_fit
  | best_fit
  | worst_fit
  deriving DecidableEq, Repr

/-- The scan of a policy, started the way its allocation function starts it. -/
def scan (pol : Policy) (mem : Nat → Nat) (size fuel head : Nat) : Option (Nat × Nat) :=
  match pol with
  | Policy.first_fit => first_fit_scan mem size fuel head NULL
  | Policy.best_fit => best_fit_scan mem size fuel NULL NULL head NULL 5000
  | Policy.worst_fit => worst_fit_scan mem size fuel NULL NULL head NULL 0

/-- The allocation function of a policy. -/
def allocate (env : Env) (pol : Policy) (fuel size : Nat) (h : simple_heap_t) :
    Except Fault (Nat × simple_heap_t) :=
  match pol with
  | Policy.first_fit => first_fit_malloc env fuel size h
  | Policy.best_fit => best_fit_malloc env fuel size h
  | Policy.worst_fit => worst_fit_malloc env fuel size h

/-- The contract on a request: `8 <= size <= 4000` and a multiple of 8. -/
def ValidSize (size : Nat) : Prop := 8 ≤ size ∧ size ≤ 4000 ∧ size % 8 = 0

instance (size : Nat) : Decidable (ValidSize size) := by
  unfold ValidSize; infer_instance

/-- A heap together with the objects handed out and not yet released, each as
`(pointer, requested size)`. -/
structure Session where
  heap : simple_heap_t
  live : List (Nat × Nat)

/-- The states a session can be in: `my_initialize` once (no page mapped yet),
then allocations of valid sizes and releases of live pointers. -/
inductive Reachable (env : Env) (pol : Policy) : Session → Prop where
  | init (h0 : simple_heap_t) (hz : h0.mmap_calls = 0) :
      Reachable env pol ⟨ my_initialize env h0, []⟩
  | malloc (s : Session) (fuel size ptr : Nat) (h1 : simple_heap_t)
      (hs : Reachable env pol s) (hv : ValidSize size)
      (hr : allocate env pol fuel size s.heap = Except.ok (ptr, h1)) :
      Reachable env pol ⟨h1, (ptr, size) :: s.live⟩
  | free (s : Session) (ptr size : Nat) (h1 : simple_heap_t)
      (hs : Reachable env pol s) (hl : (ptr, size) ∈ s.live)
      (hr : my_free s.heap ptr = Except.ok h1) :
      Reachable env pol ⟨h1, s.live.erase (ptr, size)⟩

/-- What is assumed of the surroundings: `simple_heap.dummy` has a non-null
address, every mapped page has a non-null address, the pages are 4096 bytes
each and pairwise disjoint, and none overlaps `simple_heap.dummy`. -/
structure Env.Sound (env : Env) : Prop where
  dummy_ne : env.dummy ≠ NULL
  page_ne : ∀ i, env.mmap_from_system i ≠ NULL
  page_disj : ∀ i j, i ≠ j →
    env.mmap_from_system i + 4096 ≤ env.mmap_from_system j ∨
    env.mmap_from_system j + 4096 ≤ env.mmap_from_system i
  dummy_disj : ∀ i,
    env.dummy + 16 ≤ env.mmap_from_system i ∨ env.mmap_from_system i + 4096 ≤ env.dummy

/-! ## Linked lists in memory -/

/-- The cells `next` link `p` to `q` through exactly the slots of the list. -/
def IsSeg (mem : Nat → Nat) : Nat → List Nat → Nat → Prop
  | p, [], q => p = q
  | p, m :: L, q => p = m ∧ m ≠ NULL ∧ IsSeg mem (mem (m + 8)) L q

/-- The free list starting at `p` is exactly `L`, ending in the none-marker. -/
def IsList (mem : Nat → Nat) (p : Nat) (L : List Nat) : Prop := IsSeg mem p L NULL

instance IsSeg.decide (mem : Nat → Nat) : (p : Nat) → (L : List Nat) → (q : Nat) →
    Decidable (IsSeg mem p L q)
  | p, [], q => by unfold IsSeg; infer_instance
  | p, m :: L, q => by
    unfold IsSeg
    have := IsSeg.decide mem (mem (m + 8)) L q
    infer_instance

instance (mem : Nat → Nat) (p : Nat) (L : List Nat) : Decidable (IsList mem p L) := by
  unfold IsList; infer_instance

/-! ## What a scan may choose -/

/-- A slot the scan of the policy can take for a request of `size`: large
enough, and on the right side of the bound the scan starts from (`5000` for
best fit, `0` for worst fit). -/
def Eligible (pol : Policy) (mem : Nat → Nat) (size x : Nat) : Prop :=
  match pol with
  | Policy.first_fit => size ≤ mem x
  | Policy.best_fit => size ≤ mem x ∧ mem x < 5000
  | Policy.worst_fit => size ≤ mem x ∧ 0 < mem x

/-- The slot `m`, with `L1` before it and `L2` after it on the list, is the
choice of the policy for a request of `size`. -/
def Picks (pol : Policy) (mem : Nat → Nat) (size : Nat) (L1 : List Nat) (m : Nat)
    (L2 : List Nat) : Prop :=
  match pol with
  | Policy.first_fit => size ≤ mem m ∧ ∀ x ∈ L1, mem x < size
  | Policy.best_fit =>
      size ≤ mem m ∧ mem m < 5000 ∧ (∀ x ∈ L1, size ≤ mem x → mem m < mem x) ∧
        (∀ x ∈ L2, size ≤ mem x → mem m ≤ mem x)
  | Policy.worst_fit =>
      size ≤ mem m ∧ 0 < mem m ∧ (∀ x ∈ L1, size ≤ mem x → mem x < mem m) ∧
        (∀ x ∈ L2, size ≤ mem x → mem x ≤ mem m)

/-- What a scan over the list `L` hands to the rest of the function: either the
none-marker, when no slot is eligible, or the chosen slot with its predecessor
on the list (the none-marker when the slot is the head). -/
def ScanResult (pol : Policy) (mem : Nat → Nat) (size : Nat) (L : List Nat)
    (metadata prev : Nat) : Prop :=
  (metadata = NULL ∧ ∀ x ∈ L, ¬ Eligible pol mem size x) ∨
  (metadata ≠ NULL ∧ ∃ L1 L2, L = L1 ++ metadata :: L2 ∧ prev = L1.getLastD NULL ∧
    Picks pol mem size L1 metadata L2)

/-! ## Blocks -/

/-- Two blocks, each given as `(header address, recorded size)`, do not
overlap: the header and payload of one end before the header of the other. -/
def Apart (a b : Nat × Nat) : Prop := a.1 + 16 + a.2 ≤ b.1 ∨ b.1 + 16 + b.2 ≤ a.1

instance (a b : Nat × Nat) : Decidable (Apart a b) := by
  unfold Apart; infer_instance

/-- The blocks of the slots of a free list, with the sizes memory records. -/
def free_blocks (mem : Nat → Nat) (L : List Nat) : List (Nat × Nat) :=
  L.map (fun m => (m, mem m))

/-- The blocks of the live objects: the header lies 16 bytes before the pointer. -/
def live_blocks (live : List (Nat × Nat)) : List (Nat × Nat) :=
  live.map (fun o => (o.1 - header_size, o.2))

/-- A well-formed free list: the `next` cells link `head` through exactly the
slots of `L` to the none-marker, the slots do not overlap, and every recorded
size is a `size_t` value. -/
structure FreeList (mem : Nat → Nat) (head : Nat) (L : List Nat) : Prop where
  linked : IsList mem head L
  apart : (free_blocks mem L).Pairwise Apart
  sizes : ∀ x ∈ L, mem x < size_t_mod

/-! ## The invariant of a session -/

/-- The block lies inside one of the first `n` pages mapped. -/
def InPage (env : Env) (n : Nat) (b : Nat × Nat) : Prop :=
  ∃ i, i < n ∧ env.mmap_from_system i ≤ b.1 ∧
    b.1 + 16 + b.2 ≤ env.mmap_from_system i + 4096

/-- What holds of every state of a session.  `FL` lists the slots on the free
list in order, without the dummy slot that ends the list. -/
structure Inv (env : Env) (s : Session) (FL : List Nat) : Prop where
  linked : IsList s.heap.mem s.heap.free_head (FL ++ [env.dummy])
  dummy_size : s.heap.mem env.dummy = 0
  free_apart : (free_blocks s.heap.mem (FL ++ [env.dummy])).Pairwise Apart
  live_apart : (live_blocks s.live).Pairwise Apart
  free_live_apart : ∀ x ∈ FL ++ [env.dummy], ∀ o ∈ s.live,
    Apart (x, s.heap.mem x) (o.1 - 16, o.2)
  free_in_page : ∀ x ∈ FL, InPage env s.heap.mmap_calls (x, s.heap.mem x)
  live_in_page : ∀ o ∈ s.live, InPage env s.heap.mmap_calls (o.1 - 16, o.2)
  free_size : ∀ x ∈ FL, s.heap.mem x % 8 = 0 ∧ 8 ≤ s.heap.mem x ∧ s.heap.mem x ≤ 4080
  live_hdr : ∀ o ∈ s.live, 16 ≤ o.1 ∧ s.heap.mem (o.1 - 16) = o.2 ∧
    s.heap.mem (o.1 - 16 + 8) = NULL ∧ ValidSize o.2

/-! ## Concrete sessions -/

/-- A concrete environment: `simple_heap.dummy` at address 64 and the n-th
page at `4096 * (n + 1)`. -/
def demo_env : Env := ⟨64, fun i => 4096 * (i + 1)⟩

/-- A heap before `my_initialize`: memory holds arbitrary words, no page is mapped. -/
def demo_boot : simple_heap_t := ⟨fun a => a + 7, 12345, 0⟩

/-- One allocation in a session; the session is left as it is when the call
does not return. -/
def Session.malloc (env : Env) (pol : Policy) (fuel size : Nat) (s : Session) : Session :=
  match allocate env pol fuel size s.heap with
  | Except.ok (ptr, h1) => ⟨h1, (ptr, size) :: s.live⟩
  | Except.error _ => s

/-- One release in a session; the session is left as it is when the call does
not return. -/
def Session.free (o : Nat × Nat) (s : Session) : Session :=
  match my_free s.heap o.1 with
  | Except.ok h1 => ⟨h1, s.live.erase o⟩
  | Except.error _ => s

/-- The session right after `my_initialize`. -/
def demo_init : Session := ⟨ my_initialize demo_env demo_boot, []⟩

/-- After `allocate(24)`: the object is at 4112, the rest of the page is free. -/
def demo_s1 (pol : Policy) : Session := Session.malloc demo_env pol 10 24 demo_init

/-- After a further `allocate(4000)`: the object is at 4152, 24 bytes stay free. -/
def demo_s2 (pol : Policy) : Session := Session.malloc demo_env pol 10 4000 (demo_s1 pol)

/-- After releasing the first object: the free list is 4096, 8152, dummy. -/
def demo_s3 (pol : Policy) : Session := Session.free (4112, 24) (demo_s2 pol)

/-! ## Statements about sessions -/

/-- The layout of the blocks of a session, `FL` being the free list without
the dummy slot that ends it. -/
structure Layout (env : Env) (s : Session) (FL : List Nat) : Prop where
  /-- the free list is `FL` followed by the dummy slot -/
  linked : IsList s.heap.mem s.heap.free_head (FL ++ [env.dummy])
  /-- a live object records the size it was requested with -/
  recorded : ∀ o ∈ s.live, header_size ≤ o.1 ∧ s.heap.mem (o.1 - header_size) = o.2
  /-- the byte ranges `[p, p + size)` of the live objects are pairwise disjoint -/
  payloads : s.live.Pairwise (fun a b => a.1 + a.2 ≤ b.1 ∨ b.1 + b.2 ≤ a.1)
  /-- the payload of a live object is disjoint from header and payload of
  every other live object -/
  live_live : s.live.Pairwise (fun a b =>
    a.1 + a.2 ≤ b.1 - header_size ∨ b.1 + b.2 ≤ a.1 - header_size)
  /-- the payload of a live object is disjoint from header and payload of
  every slot on the free list, the dummy slot included -/
  live_free : ∀ o ∈ s.live, ∀ x ∈ FL ++ [env.dummy],
    o.1 + o.2 ≤ x ∨ x + header_size + s.heap.mem x ≤ o.1 - header_size
  /-- every live object lies, header included, inside one mapped page -/
  live_in_page : ∀ o ∈ s.live, ∃ i, i < s.heap.mmap_calls ∧
    env.mmap_from_system i + header_size ≤ o.1 ∧ o.1 + o.2 ≤ env.mmap_from_system i + 4096
  /-- every free slot but the dummy lies inside one mapped page -/
  free_in_page : ∀ x ∈ FL, ∃ i, i < s.heap.mmap_calls ∧
    env.mmap_from_system i ≤ x ∧
    x + header_size + s.heap.mem x ≤ env.mmap_from_system i + 4096

/-! ## Concrete free lists -/

/-- A heap whose free list holds slots of sizes 16, 64 and 32, at 4096, 4128
and 4208, followed by the dummy slot at 64. -/
def demo_three : simple_heap_t :=
  ⟨store (store (store (store (store (store (store (store (fun a => a + 7)
      4096 16) 4104 4128) 4128 64) 4136 4208) 4208 32) 4216 64) 64 0) 72 0, 4096, 1⟩

/-- A heap whose free list holds slots of sizes 64, 16 and 32, at 4096, 4176
and 4208, followed by the dummy slot at 64. -/
def demo_three_ff : simple_heap_t :=
  ⟨store (store (store (store (store (store (store (store (fun a => a + 7)
      4096 64) 4104 4176) 4176 16) 4184 4208) 4208 32) 4216 64) 64 0) 72 0, 4096, 1⟩

/-- A heap whose free list holds one slot of size 5000, at 65536, followed by
the dummy slot at 64; no page is mapped yet. -/
def demo_big : simple_heap_t :=
  ⟨store (store (store (store (fun a => a + 7) 65536 5000) 65544 64) 64 0) 72 0, 65536, 0⟩

/-! ## Statements about one allocation -/

/-- The allocation function `malloc`, called for `size` on the heap `h` whose
free list is `L`, takes the slot `m` that stands between `L1` and `L2` on the
list and leaves the heap `h1`. -/
structure Takes (malloc : Nat → Nat → simple_heap_t → Except Fault (Nat × simple_heap_t))
    (h : simple_heap_t) (L : List Nat) (size : Nat)
    (L1 : List Nat) (m : Nat) (L2 : List Nat) (h1 : simple_heap_t) : Prop where
  /-- the slot is on the list, after `L1` and before `L2` -/
  split : L = L1 ++ m :: L2
  /-- the slot is large enough -/
  fits : size ≤ h.mem m
  /-- the call returns the address right after the header of the slot -/
  returns : ∀ fuel, L.length + 2 ≤ fuel → malloc fuel size h = Except.ok (m + header_size, h1)
  /-- no page is mapped -/
  no_page : h1.mmap_calls = h.mmap_calls
  /-- the slot is detached: the list keeps the other slots in their order,
  behind the split remainder when there is one -/
  detached : IsList h1.mem h1.free_head
    ((if header_size < h.mem m - size then [m + header_size + size] else []) ++ (L1 ++ L2))
  /-- the slot is not on the list any more -/
  gone : m ∉ (if header_size < h.mem m - size then [m + header_size + size] else []) ++ (L1 ++ L2)
  /-- the slot records the requested size -/
  slot_size : h1.mem m = size
  /-- the link of the slot is the none-marker -/
  slot_next : h1.mem (m + 8) = NULL
  /-- the split remainder records what is left after its own header -/
  rest_size : header_size < h.mem m - size →
    h1.mem (m + header_size + size) = h.mem m - size - header_size
  /-- the other slots keep their sizes -/
  others : ∀ x ∈ L1 ++ L2, h1.mem x = h.mem x

/-- How `allocate(size)` uses the page supplier in the state `s`, whose free
list is `L`, once the fuel is at least `N`: with a slot that fits it maps no
page; with none it maps one page, formats it as one free slot of size
`buffer_size - header_size` at the head of the list, and the retry returns an
object of that page without mapping another. -/
structure PageUse (env : Env) (pol : Policy) (s : Session) (size : Nat)
    (L : List Nat) (N : Nat) : Prop where
  /-- the free list of the state -/
  linked : IsList s.heap.mem s.heap.free_head L
  /-- the call returns, and maps at most one page -/
  returns : ∃ ptr h1, (∀ fuel, N ≤ fuel → allocate env pol fuel size s.heap = Except.ok (ptr, h1)) ∧
    h1.mmap_calls ≤ s.heap.mmap_calls + 1
  /-- a slot fits: no page is mapped -/
  fit : (∃ x ∈ L, size ≤ s.heap.mem x) →
    ∃ ptr h1, (∀ fuel, N ≤ fuel → allocate env pol fuel size s.heap = Except.ok (ptr, h1)) ∧
      h1.mmap_calls = s.heap.mmap_calls
  /-- no slot fits: one page is mapped and the retry returns -/
  grow : (∀ x ∈ L, s.heap.mem x < size) →
    ∃ hg ptr h1, new_region env s.heap = Except.ok hg ∧
      hg.mmap_calls = s.heap.mmap_calls + 1 ∧
      hg.free_head = env.mmap_from_system s.heap.mmap_calls ∧
      hg.mem hg.free_head = buffer_size - header_size ∧
      IsList hg.mem hg.free_head (env.mmap_from_system s.heap.mmap_calls :: L) ∧
      (∀ x ∈ L, hg.mem x = s.heap.mem x) ∧
      (∀ fuel, N ≤ fuel →
        allocate env pol fuel size s.heap = allocate env pol (fuel - 1) size hg ∧
        allocate env pol (fuel - 1) size hg = Except.ok (ptr, h1)) ∧
      ptr = env.mmap_from_system s.heap.mmap_calls + header_size ∧
      h1.mmap_calls = s.heap.mmap_calls + 1

/-! ## Further concrete heaps and statements -/

/-- The heap `demo_three` with a second page mapped, holding at 8192 a slot
that is on no list: its link is the none-marker. -/
def demo_loose : simple_heap_t := ⟨store demo_three.mem 8200 0, 4096, 2⟩

/-- The headers of the slots of a list do not overlap one another. -/
def HeadersApart (L : List Nat) : Prop :=
  L.Pairwise (fun a b => a + header_size ≤ b ∨ b + header_size ≤ a)

instance (L : List Nat) : Decidable (HeadersApart L) := by
  unfold HeadersApart; infer_instance

/-- The session `demo_s1` after a further `allocate(24)`: the object is at 4152
and the free list is 4176, dummy. -/
def demo_s4 (pol : Policy) : Session := Session.malloc demo_env pol 10 24 (demo_s1 pol)

/-! ## The slots a session has formatted -/

/-- The slots one allocation call formats, that is, the addresses at which it
writes a fresh `simple_metadata_t`: the slot of a page it maps (lines 94-97,
151-154, 216-219) and the remainder it splits off (lines 110-112, 180-182,
245-247).  The control flow is that of the allocation function. -/
def created_slots (env : Env) (pol : Policy) : Nat → Nat → simple_heap_t → List Nat
  | 0, _, _ => []
  | fuel + 1, size, h =>
    match scan pol h.mem size fuel h.free_head with
    | none => []
    | some (metadata, _) =>
      if metadata = NULL then
        match new_region env h with
        | Except.error _ => []
        | Except.ok h1 => env.mmap_from_system h.mmap_calls :: created_slots env pol fuel size h1
      else if size_t_sub (h.mem metadata) size > header_size then
        [metadata + header_size + size]
      else
        []

/-- A reachable state together with all the slots formatted on the way to it:
`my_initialize` formats the dummy slot (lines 73-75), an allocation adds the
slots it formats, a release formats none.  Slots are never destroyed. -/
inductive Ledger (env : Env) (pol : Policy) : Session → List Nat → Prop where
  | init (h0 : simple_heap_t) (hz : h0.mmap_calls = 0) :
      Ledger env pol ⟨ my_initialize env h0, []⟩ [env.dummy]
  | malloc (s : Session) (slots : List Nat) (fuel size ptr : Nat) (h1 : simple_heap_t)
      (hs : Ledger env pol s slots) (hv : ValidSize size)
      (hr : allocate env pol fuel size s.heap = Except.ok (ptr, h1)) :
      Ledger env pol ⟨h1, (ptr, size) :: s.live⟩
        (created_slots env pol fuel size s.heap ++ slots)
  | free (s : Session) (slots : List Nat) (ptr size : Nat) (h1 : simple_heap_t)
      (hs : Ledger env pol s slots) (hl : (ptr, size) ∈ s.live)
      (hr : my_free s.heap ptr = Except.ok h1) :
      Ledger env pol ⟨h1, s.live.erase (ptr, size)⟩ slots

/-! # Lemmas on memory and list segments -/

theorem store_same (mem : Nat → Nat) (a v : Nat) : store mem a v a = v := by
  simp [store]

theorem store_other (mem : Nat → Nat) (a v x : Nat) (h : x ≠ a) : store mem a v x = mem x := by
  simp [store, h]

theorem IsSeg_nil (mem : Nat → Nat) (p q : Nat) : IsSeg mem p [] q ↔ p = q := Iff.rfl

theorem IsSeg_cons (mem : Nat → Nat) (p m q : Nat) (L : List Nat) :
    IsSeg mem p (m :: L) q ↔ p = m ∧ m ≠ NULL ∧ IsSeg mem (mem (m + 8)) L q := Iff.rfl

/-- A segment over an appended list splits at the address where the second part starts. -/
theorem IsSeg_append (mem : Nat → Nat) (A B : List Nat) (p q : Nat) :
    IsSeg mem p (A ++ B) q ↔ ∃ r, IsSeg mem p A r ∧ IsSeg mem r B q := by
  induction A generalizing p with
  | nil => simp [IsSeg_nil]
  | cons a A ih =>
    rw [List.cons_append, IsSeg_cons, ih]
    constructor
    · rintro ⟨h1, h2, r, h3, h4⟩
      exact ⟨r, ⟨h1, h2, h3⟩, h4⟩
    · rintro ⟨r, ⟨h1, h2, h3⟩, h4⟩
      exact ⟨h1, h2, r, h3, h4⟩

/-- A segment only depends on the link cells of its own slots. -/
theorem IsSeg_congr (mem mem1 : Nat → Nat) (L : List Nat) (p q : Nat)
    (hf : ∀ x ∈ L, mem1 (x + 8) = mem (x + 8)) (h : IsSeg mem p L q) : IsSeg mem1 p L q := by
  induction L generalizing p with
  | nil => exact h
  | cons a A ih =>
    obtain ⟨h1, h2, h3⟩ := h
    refine ⟨h1, h2, ?_⟩
    rw [hf a (List.mem_cons_self a A)]
    exact ih _ (fun x hx => hf x (List.mem_cons_of_mem a hx)) h3

theorem IsSeg_ne_null (mem : Nat → Nat) (L : List Nat) (p q : Nat) (h : IsSeg mem p L q) :
    ∀ x ∈ L, x ≠ NULL := by
  induction L generalizing p with
  | nil => simp
  | cons a A ih =>
    obtain ⟨_, h2, h3⟩ := h
    intro x hx
    rcases List.mem_cons.1 hx with rfl | hx
    · exact h2
    · exact ih _ h3 x hx

/-- The free list from a given head is determined by memory. -/
theorem IsList_unique (mem : Nat → Nat) (L L1 : List Nat) (p : Nat)
    (h : IsList mem p L) (h1 : IsList mem p L1) : L = L1 := by
  unfold IsList at h h1
  induction L generalizing p L1 with
  | nil =>
    cases L1 with
    | nil => rfl
    | cons b B =>
      obtain ⟨e, hb, _⟩ := h1
      exact absurd (e.symm.trans h) hb
  | cons a A ih =>
    cases L1 with
    | nil =>
      obtain ⟨e, ha, _⟩ := h
      exact absurd (e.symm.trans h1) ha
    | cons b B =>
      obtain ⟨e, _, h3⟩ := h
      obtain ⟨e1, _, h4⟩ := h1
      have hab : a = b := e.symm.trans e1
      subst hab
      rw [ih _ _ h3 h4]

/-- The head of a list segment. -/
theorem IsSeg_head (mem : Nat → Nat) (L : List Nat) (p q : Nat) (h : IsSeg mem p L q) :
    p = (L ++ [q]).headI := by
  cases L with
  | nil => exact h
  | cons a A => exact h.1

/-- What the first-fit loop returns on a list, for any starting `prev`. -/
theorem first_fit_scan_gen (mem : Nat → Nat) (size : Nat) (L : List Nat) (p prev fuel : Nat)
    (hl : IsList mem p L) (hf : L.length < fuel) :
    (first_fit_scan mem size fuel p prev = some (NULL, L.getLastD prev) ∧
      ∀ x ∈ L, mem x < size) ∨
    (∃ L1 m L2, L = L1 ++ m :: L2 ∧
      first_fit_scan mem size fuel p prev = some (m, L1.getLastD prev) ∧
      size ≤ mem m ∧ ∀ x ∈ L1, mem x < size) := by
  induction L generalizing p prev fuel with
  | nil =>
    left
    obtain ⟨f, rfl⟩ : ∃ f, fuel = f + 1 := ⟨fuel - 1, by simp at hf; omega⟩
    have hp : p = NULL := hl
    subst hp
    simp [first_fit_scan]
  | cons a A ih =>
    obtain ⟨f, rfl⟩ : ∃ f, fuel = f + 1 := ⟨fuel - 1, by simp at hf; omega⟩
    obtain ⟨hp, ha, hA⟩ := hl
    subst hp
    by_cases hlt : mem p < size
    · have hstep : first_fit_scan mem size (f + 1) p prev =
          first_fit_scan mem size f (mem (p + 8)) p := by
        simp [first_fit_scan, ha, hlt]
      rw [hstep, List.getLastD_cons]
      rcases ih (mem (p + 8)) p f hA (by simp at hf; omega) with ⟨h1, h2⟩ | ⟨L1, m, L2, e, h1, h2, h3⟩
      · left
        refine ⟨h1, ?_⟩
        intro x hx
        rcases List.mem_cons.1 hx with rfl | hx
        · exact hlt
        · exact h2 x hx
      · right
        refine ⟨p :: L1, m, L2, by rw [e]; rfl, ?_, h2, ?_⟩
        · rw [List.getLastD_cons]; exact h1
        · intro x hx
          rcases List.mem_cons.1 hx with rfl | hx
          · exact hlt
          · exact h3 x hx
    · right
      refine ⟨[], p, A, rfl, ?_, by omega, by simp⟩
      simp [first_fit_scan, hlt]

/-- The loop invariant of the best-fit scan: `P` is the part of the list already visited. -/
theorem best_fit_scan_gen (mem : Nat → Nat) (size : Nat) (R P : List Nat)
    (now fuel metadata prev min_size : Nat)
    (hl : IsList mem now R) (hf : R.length < fuel)
    (hinv : ScanResult Policy.best_fit mem size P metadata prev)
    (hmin : min_size = if metadata = NULL then 5000 else mem metadata) :
    ∃ r rp, best_fit_scan mem size fuel metadata prev now (P.getLastD NULL) min_size = some (r, rp) ∧
      ScanResult Policy.best_fit mem size (P ++ R) r rp := by
  induction R generalizing P now fuel metadata prev min_size with
  | nil =>
    obtain ⟨f, rfl⟩ : ∃ f, fuel = f + 1 := ⟨fuel - 1, by simp at hf; omega⟩
    have hp : now = NULL := hl
    subst hp
    refine ⟨metadata, prev, by simp [best_fit_scan], ?_⟩
    simpa using hinv
  | cons a A ih =>
    obtain ⟨f, rfl⟩ : ∃ f, fuel = f + 1 := ⟨fuel - 1, by simp at hf; omega⟩
    obtain ⟨hp, ha, hA⟩ := hl
    subst hp
    have hf1 : A.length < f := by simp at hf; omega
    have hlast : (P ++ [now]).getLastD NULL = now := List.getLastD_concat _ _ _
    have happ : P ++ now :: A = (P ++ [now]) ++ A := by simp
    by_cases hc : mem now ≥ size ∧ mem now < min_size
    · have hstep : best_fit_scan mem size (f + 1) metadata prev now (P.getLastD NULL) min_size =
          best_fit_scan mem size f now (P.getLastD NULL) (mem (now + 8)) now (mem now) := by
        simp [best_fit_scan, ha, hc]
      rw [hstep, happ]
      have := ih (P ++ [now]) (mem (now + 8)) f now (P.getLastD NULL) (mem now) hA hf1 ?_ (by simp [ha])
      · rwa [hlast] at this
      · right
        refine ⟨ha, P, [], rfl, rfl, ?_⟩
        rcases hinv with ⟨h1, h2⟩ | ⟨h1, P1, P2, e, _, h3⟩
        · simp only [h1, if_true] at hmin
          refine ⟨hc.1, by omega, ?_, by simp⟩
          intro x hx hsx
          have := h2 x hx
          simp only [Eligible] at this
          omega
        · simp only [h1, if_false] at hmin
          obtain ⟨h4, h5, h6, h7⟩ := h3
          refine ⟨hc.1, by omega, ?_, by simp⟩
          intro x hx hsx
          rw [e] at hx
          rcases List.mem_append.1 hx with hx | hx
          · have := h6 x hx hsx; omega
          · rcases List.mem_cons.1 hx with rfl | hx
            · omega
            · have := h7 x hx hsx; omega
    · have hstep : best_fit_scan mem size (f + 1) metadata prev now (P.getLastD NULL) min_size =
          best_fit_scan mem size f metadata prev (mem (now + 8)) now min_size := by
        simp only [best_fit_scan, ha, ne_eq, not_false_eq_true, if_true, hc, if_false]
      rw [hstep, happ]
      have := ih (P ++ [now]) (mem (now + 8)) f metadata prev min_size hA hf1 ?_ hmin
      · rwa [hlast] at this
      · rcases hinv with ⟨h1, h2⟩ | ⟨h1, P1, P2, e, h3, h4⟩
        · left
          simp only [h1, if_true] at hmin
          refine ⟨h1, ?_⟩
          intro x hx
          rcases List.mem_append.1 hx with hx | hx
          · exact h2 x hx
          · simp only [List.mem_singleton] at hx
            subst hx
            simp only [Eligible]
            omega
        · right
          simp only [h1, if_false] at hmin
          obtain ⟨h5, h6, h7, h8⟩ := h4
          refine ⟨h1, P1, P2 ++ [now], by rw [e]; simp, h3, h5, h6, h7, ?_⟩
          intro x hx hsx
          rcases List.mem_append.1 hx with hx | hx
          · exact h8 x hx hsx
          · simp only [List.mem_singleton] at hx
            subst hx
            omega

/-- The loop invariant of the worst-fit scan: `P` is the part of the list already visited. -/
theorem worst_fit_scan_gen (mem : Nat → Nat) (size : Nat) (R P : List Nat)
    (now fuel metadata prev max_size : Nat)
    (hl : IsList mem now R) (hf : R.length < fuel)
    (hinv : ScanResult Policy.worst_fit mem size P metadata prev)
    (hmin : max_size = if metadata = NULL then 0 else mem metadata) :
    ∃ r rp, worst_fit_scan mem size fuel metadata prev now (P.getLastD NULL) max_size = some (r, rp) ∧
      ScanResult Policy.worst_fit mem size (P ++ R) r rp := by
  induction R generalizing P now fuel metadata prev max_size with
  | nil =>
    obtain ⟨f, rfl⟩ : ∃ f, fuel = f + 1 := ⟨fuel - 1, by simp at hf; omega⟩
    have hp : now = NULL := hl
    subst hp
    refine ⟨metadata, prev, by simp [worst_fit_scan], ?_⟩
    simpa using hinv
  | cons a A ih =>
    obtain ⟨f, rfl⟩ : ∃ f, fuel = f + 1 := ⟨fuel - 1, by simp at hf; omega⟩
    obtain ⟨hp, ha, hA⟩ := hl
    subst hp
    have hf1 : A.length < f := by simp at hf; omega
    have hlast : (P ++ [now]).getLastD NULL = now := List.getLastD_concat _ _ _
    have happ : P ++ now :: A = (P ++ [now]) ++ A := by simp
    by_cases hc : mem now ≥ size ∧ mem now > max_size
    · have hstep : worst_fit_scan mem size (f + 1) metadata prev now (P.getLastD NULL) max_size =
          worst_fit_scan mem size f now (P.getLastD NULL) (mem (now + 8)) now (mem now) := by
        simp [worst_fit_scan, ha, hc]
      rw [hstep, happ]
      have := ih (P ++ [now]) (mem (now + 8)) f now (P.getLastD NULL) (mem now) hA hf1 ?_ (by simp [ha])
      · rwa [hlast] at this
      · right
        refine ⟨ha, P, [], rfl, rfl, ?_⟩
        rcases hinv with ⟨h1, h2⟩ | ⟨h1, P1, P2, e, _, h3⟩
        · simp only [h1, if_true] at hmin
          refine ⟨hc.1, by omega, ?_, by simp⟩
          intro x hx hsx
          have := h2 x hx
          simp only [Eligible] at this
          omega
        · simp only [h1, if_false] at hmin
          obtain ⟨h4, h5, h6, h7⟩ := h3
          refine ⟨hc.1, by omega, ?_, by simp⟩
          intro x hx hsx
          rw [e] at hx
          rcases List.mem_append.1 hx with hx | hx
          · have := h6 x hx hsx; omega
          · rcases List.mem_cons.1 hx with rfl | hx
            · omega
            · have := h7 x hx hsx; omega
    · have hstep : worst_fit_scan mem size (f + 1) metadata prev now (P.getLastD NULL) max_size =
          worst_fit_scan mem size f metadata prev (mem (now + 8)) now max_size := by
        simp only [worst_fit_scan, ha, ne_eq, not_false_eq_true, if_true, hc, if_false]
      rw [hstep, happ]
      have := ih (P ++ [now]) (mem (now + 8)) f metadata prev max_size hA hf1 ?_ hmin
      · rwa [hlast] at this
      · rcases hinv with ⟨h1, h2⟩ | ⟨h1, P1, P2, e, h3, h4⟩
        · left
          simp only [h1, if_true] at hmin
          refine ⟨h1, ?_⟩
          intro x hx
          rcases List.mem_append.1 hx with hx | hx
          · exact h2 x hx
          · simp only [List.mem_singleton] at hx
            subst hx
            simp only [Eligible]
            omega
        · right
          simp only [h1, if_false] at hmin
          obtain ⟨h5, h6, h7, h8⟩ := h4
          refine ⟨h1, P1, P2 ++ [now], by rw [e]; simp, h3, h5, h6, h7, ?_⟩
          intro x hx hsx
          rcases List.mem_append.1 hx with hx | hx
          · exact h8 x hx hsx
          · simp only [List.mem_singleton] at hx
            subst hx
            omega


/-- With fuel beyond the length of the list, the scan of each policy returns, and what it returns is described by `ScanResult`. -/
theorem scan_spec (pol : Policy) (mem : Nat → Nat) (size : Nat) (L : List Nat) (p fuel : Nat)
    (hl : IsList mem p L) (hf : L.length < fuel) :
    ∃ r rp, scan pol mem size fuel p = some (r, rp) ∧ ScanResult pol mem size L r rp := by
  cases pol with
  | first_fit =>
    rcases first_fit_scan_gen mem size L p NULL fuel hl hf with ⟨h1, h2⟩ | ⟨L1, m, L2, e, h1, h2, h3⟩
    · refine ⟨_, _, h1, Or.inl ⟨rfl, ?_⟩⟩
      intro x hx
      have := h2 x hx
      simp only [Eligible]
      omega
    · refine ⟨_, _, h1, Or.inr ⟨?_, L1, L2, e, rfl, h2, h3⟩⟩
      exact IsSeg_ne_null mem L p NULL hl m (by rw [e]; simp)
  | best_fit =>
    have := best_fit_scan_gen mem size L [] p fuel NULL NULL 5000 hl hf
      (Or.inl ⟨rfl, by simp⟩) (by simp)
    simpa [scan] using this
  | worst_fit =>
    have := worst_fit_scan_gen mem size L [] p fuel NULL NULL 0 hl hf
      (Or.inl ⟨rfl, by simp⟩) (by simp)
    simpa [scan] using this

theorem allocate_zero (env : Env) (pol : Policy) (size : Nat) (h : simple_heap_t) :
    allocate env pol 0 size h = Except.error Fault.out_of_fuel := by
  cases pol <;> rfl

/-- One unfolding of the allocation function of a policy. -/
theorem allocate_succ (env : Env) (pol : Policy) (fuel size : Nat) (h : simple_heap_t) :
    allocate env pol (fuel + 1) size h =
      match scan pol h.mem size fuel h.free_head with
      | none => Except.error Fault.out_of_fuel
      | some (metadata, prev) =>
        if metadata = NULL then
          match new_region env h with
          | Except.error e => Except.error e
          | Except.ok h1 => allocate env pol fuel size h1
        else
          take_slot h size metadata prev := by
  cases pol <;> rfl

/-- The `size_t` subtraction does not wrap when the subtrahend is the smaller one. -/
theorem size_t_sub_of_le (a b : Nat) (hb : b ≤ a) (ha : a < size_t_mod) :
    size_t_sub a b = a - b := by
  unfold size_t_sub
  unfold size_t_mod at *
  have hb1 : b % 2 ^ 64 = b := Nat.mod_eq_of_lt (by omega)
  rw [hb1]
  have : a + (2 ^ 64 - b) = (a - b) + 2 ^ 64 := by omega
  rw [this, Nat.add_mod_right]
  exact Nat.mod_eq_of_lt (by omega)

theorem free_blocks_nodup (mem : Nat → Nat) (L : List Nat)
    (h : (free_blocks mem L).Pairwise Apart) : L.Nodup := by
  have h1 : (free_blocks mem L).Nodup := by
    refine List.Pairwise.imp ?_ h
    intro a b hab e
    subst e
    unfold Apart at hab
    omega
  exact List.Nodup.of_map _ h1

theorem free_blocks_apart (mem : Nat → Nat) (L1 L2 : List Nat) (m : Nat)
    (h : (free_blocks mem (L1 ++ m :: L2)).Pairwise Apart) :
    ∀ x ∈ L1 ++ L2, Apart (m, mem m) (x, mem x) := by
  unfold free_blocks at h
  rw [List.map_append, List.map_cons, List.pairwise_append] at h
  obtain ⟨_, h2, h3⟩ := h
  rw [List.pairwise_cons] at h2
  intro x hx
  rcases List.mem_append.1 hx with hx | hx
  · have := h3 (x, mem x) (List.mem_map.2 ⟨x, hx, rfl⟩) (m, mem m) (List.mem_cons_self _ _)
    unfold Apart at this ⊢
    omega
  · exact h2.1 (x, mem x) (List.mem_map.2 ⟨x, hx, rfl⟩)

/-- Unlinking the slot `m`, given its predecessor, leaves the list without `m` and touches only link cells. -/
theorem remove_from_free_list_spec (h : simple_heap_t) (L1 L2 : List Nat) (m prev : Nat)
    (hl : IsList h.mem h.free_head (L1 ++ m :: L2)) (hnd : (L1 ++ m :: L2).Nodup)
    (hprev : prev = L1.getLastD NULL) :
    IsList (remove_from_free_list h m prev).mem (remove_from_free_list h m prev).free_head
        (L1 ++ L2) ∧
      (remove_from_free_list h m prev).mem (m + 8) = NULL ∧
      (remove_from_free_list h m prev).mmap_calls = h.mmap_calls ∧
      (∀ x, x ≠ m + 8 → (∀ y ∈ L1, x ≠ y + 8) →
        (remove_from_free_list h m prev).mem x = h.mem x) := by
  rcases List.eq_nil_or_concat L1 with e | ⟨L0, pv, e⟩
  · subst e
    simp only [List.getLastD_nil] at hprev
    subst hprev
    obtain ⟨hh, hm, hrest⟩ := hl
    have hnot : m ∉ L2 := by
      simp only [List.nil_append, List.nodup_cons] at hnd
      exact hnd.1
    refine ⟨?_, ?_, ?_, ?_⟩
    · simp only [remove_from_free_list, ne_eq, not_true_eq_false, if_false, List.nil_append]
      refine IsSeg_congr h.mem _ L2 _ _ ?_ hrest
      intro x hx
      apply store_other
      intro e
      exact hnot (by have : x = m := by omega
                     rwa [this] at hx)
    · simp [remove_from_free_list, store]
    · simp [remove_from_free_list]
    · intro x hx _
      simp [remove_from_free_list, store, hx]
  · subst e
    rw [List.concat_eq_append] at hl hnd hprev ⊢
    rw [List.getLastD_concat] at hprev
    subst hprev
    rw [List.append_assoc] at hl hnd
    unfold IsList at hl
    rw [IsSeg_append] at hl
    obtain ⟨r, hs0, hr, hpv, hm0, hm, hrest⟩ := hl
    subst hr
    have hnd1 := hnd
    rw [List.nodup_append] at hnd1
    obtain ⟨_, hnd2, hdisj⟩ := hnd1
    simp only [List.singleton_append, List.nodup_cons, List.mem_cons, not_or] at hnd2
    obtain ⟨⟨hrm, hr2⟩, hm2, _⟩ := hnd2
    have hpvn : r ≠ NULL := hpv
    have hmem : (remove_from_free_list h m r).mem =
        store (store h.mem (r + 8) (h.mem (m + 8))) (m + 8) NULL := by
      simp [remove_from_free_list, hpvn]
    have hhead : (remove_from_free_list h m r).free_head = h.free_head := by
      simp [remove_from_free_list, hpvn]
    have hcalls : (remove_from_free_list h m r).mmap_calls = h.mmap_calls := by
      simp [remove_from_free_list, hpvn]
    rw [hmem, hhead, hcalls]
    refine ⟨?_, store_same _ _ _, rfl, ?_⟩
    · rw [List.append_assoc]
      unfold IsList
      rw [IsSeg_append]
      refine ⟨r, ?_, rfl, hpv, ?_⟩
      · refine IsSeg_congr h.mem _ L0 _ _ ?_ hs0
        intro x hx
        have hx1 : x ≠ r := fun e => hdisj hx (by rw [e]; simp)
        have hx2 : x ≠ m := fun e => hdisj hx (by rw [e]; simp)
        rw [store_other _ _ _ _ (by omega), store_other _ _ _ _ (by omega)]
      · have e1 : store (store h.mem (r + 8) (h.mem (m + 8))) (m + 8) NULL (r + 8) =
            h.mem (m + 8) := by
          rw [store_other _ _ _ _ (by omega), store_same]
        rw [e1]
        refine IsSeg_congr h.mem _ L2 _ _ ?_ hrest
        intro x hx
        have hx1 : x ≠ r := fun e => hr2 (by rwa [e] at hx)
        have hx2 : x ≠ m := fun e => hm2 (by rwa [e] at hx)
        rw [store_other _ _ _ _ (by omega), store_other _ _ _ _ (by omega)]
    · intro x hx hy
      have := hy r (by simp)
      rw [store_other _ _ _ _ hx, store_other _ _ _ _ this]

theorem add_to_free_list_ok (h : simple_heap_t) (m : Nat) (hn : h.mem (m + 8) = NULL) :
    add_to_free_list h m =
      Except.ok { h with mem := store h.mem (m + 8) h.free_head, free_head := m } := by
  simp [add_to_free_list, hn]

theorem IsList_push (mem : Nat → Nat) (head m : Nat) (L : List Nat)
    (hl : IsList mem head L) (hm : m ≠ NULL) (hnot : m ∉ L) :
    IsList (store mem (m + 8) head) m (m :: L) := by
  refine ⟨rfl, hm, ?_⟩
  rw [store_same]
  refine IsSeg_congr mem _ L _ _ ?_ hl
  intro x hx
  apply store_other
  intro e
  have : x = m := by omega
  exact hnot (by rwa [this] at hx)

/-- The tail of the allocation functions on a well-formed free list from which `m` was chosen. -/
theorem take_slot_spec (h : simple_heap_t) (size m prev : Nat) (L1 L2 : List Nat)
    (hfl : FreeList h.mem h.free_head (L1 ++ m :: L2)) (hprev : prev = L1.getLastD NULL)
    (hsz : size ≤ h.mem m) :
    ∃ h1, take_slot h size m prev = Except.ok (m + 16, h1) ∧
      h1.mmap_calls = h.mmap_calls ∧ h1.mem m = size ∧ h1.mem (m + 8) = NULL ∧
      (∀ x, (x < m ∨ m + 16 + h.mem m ≤ x) → (∀ y ∈ L1, x ≠ y + 8) → h1.mem x = h.mem x) ∧
      (h.mem m - size ≤ 16 → IsList h1.mem h1.free_head (L1 ++ L2)) ∧
      (16 < h.mem m - size →
        IsList h1.mem h1.free_head ((m + 16 + size) :: (L1 ++ L2)) ∧
        h1.mem (m + 16 + size) = h.mem m - size - 16) := by
  obtain ⟨hl, hap, hsizes⟩ := hfl
  have hnd := free_blocks_nodup _ _ hap
  have hapart := free_blocks_apart _ _ _ _ hap
  have hapart1 : ∀ x ∈ L1 ++ L2, h.mem m + 16 + m ≤ x ∨ x + 16 + h.mem x ≤ m := by
    intro x hx
    have := hapart x hx
    unfold Apart at this
    simp only at this
    omega
  have hSlt : h.mem m < size_t_mod := hsizes m (by simp)
  have hrem : size_t_sub (h.mem m) size = h.mem m - size := size_t_sub_of_le _ _ hsz hSlt
  -- the heap after the size field is written
  have hl1 : IsList (store h.mem m size) h.free_head (L1 ++ m :: L2) := by
    refine IsSeg_congr h.mem _ _ _ _ ?_ hl
    intro x hx
    apply store_other
    rcases List.mem_append.1 hx with hx | hx
    · have := hapart1 x (List.mem_append_left _ hx); omega
    · rcases List.mem_cons.1 hx with rfl | hx
      · omega
      · have := hapart1 x (List.mem_append_right _ hx); omega
  obtain ⟨r1, r2, r3, r4⟩ := remove_from_free_list_spec
    { h with mem := store h.mem m size } L1 L2 m prev hl1 hnd hprev
  have hm2 : (remove_from_free_list { h with mem := store h.mem m size } m prev).mem m = size := by
    rw [r4 m (by omega)]
    · exact store_same _ _ _
    · intro y hy
      have := hapart1 y (List.mem_append_left _ hy); omega
  have hframe2 : ∀ x, (x < m ∨ m + 16 + h.mem m ≤ x) → (∀ y ∈ L1, x ≠ y + 8) →
      (remove_from_free_list { h with mem := store h.mem m size } m prev).mem x = h.mem x := by
    intro x hx hy
    rw [r4 x (by omega) hy]
    exact store_other _ _ _ _ (by omega)
  by_cases hsplit : 16 < h.mem m - size
  · have hrem2 : size_t_sub (h.mem m - size) 16 = h.mem m - size - 16 :=
      size_t_sub_of_le _ _ (by omega) (by omega)
    generalize hh2 : remove_from_free_list { h with mem := store h.mem m size } m prev = h2
      at r1 r2 r3 r4 hm2 hframe2
    have hadd := add_to_free_list_ok
      ⟨store (store h2.mem (m + 16 + size) (h.mem m - size - 16)) (m + 16 + size + 8) NULL,
        h2.free_head, h2.mmap_calls⟩ (m + 16 + size) (store_same _ _ _)
    refine ⟨⟨store (store (store h2.mem (m + 16 + size) (h.mem m - size - 16))
        (m + 16 + size + 8) NULL) (m + 16 + size + 8) h2.free_head, m + 16 + size,
        h2.mmap_calls⟩, ?_, ?_, ?_, ?_, ?_, fun hc => absurd hsplit (by omega), fun _ => ⟨?_, ?_⟩⟩
    · simp only [take_slot, hrem, header_size, gt_iff_lt, hsplit, if_true, hh2, hrem2]
      rw [hadd]
    · exact r3
    · show store _ _ _ m = size
      rw [store_other _ _ _ _ (by omega), store_other _ _ _ _ (by omega),
        store_other _ _ _ _ (by omega)]
      exact hm2
    · show store _ _ _ (m + 8) = NULL
      rw [store_other _ _ _ _ (by omega), store_other _ _ _ _ (by omega),
        store_other _ _ _ _ (by omega)]
      exact r2
    · intro x hx hy
      show store _ _ _ x = h.mem x
      rw [store_other _ _ _ _ (by omega), store_other _ _ _ _ (by omega),
        store_other _ _ _ _ (by omega)]
      exact hframe2 x hx hy
    · show IsList (store _ _ _) (m + 16 + size) _
      refine ⟨rfl, by unfold NULL; omega, ?_⟩
      rw [store_same]
      refine IsSeg_congr h2.mem _ _ _ _ ?_ r1
      intro x hx
      have := hapart1 x hx
      rw [store_other _ _ _ _ (by omega), store_other _ _ _ _ (by omega),
        store_other _ _ _ _ (by omega)]
    · show store _ _ _ (m + 16 + size) = _
      rw [store_other _ _ _ _ (by omega), store_other _ _ _ _ (by omega), store_same]
  · refine ⟨remove_from_free_list { h with mem := store h.mem m size } m prev, ?_, r3, hm2, r2,
      hframe2, fun _ => r1, fun hc => absurd hc hsplit⟩
    simp only [take_slot, hrem, header_size, gt_iff_lt, hsplit, if_false]

theorem page_slot_size : size_t_sub buffer_size header_size = 4080 := by
  unfold size_t_sub buffer_size header_size size_t_mod
  norm_num

/-- Mapping a page puts one slot of size 4080 in front of the list. -/
theorem new_region_spec (env : Env) (h : simple_heap_t) (L : List Nat)
    (hl : IsList h.mem h.free_head L)
    (hpg : env.mmap_from_system h.mmap_calls ≠ NULL)
    (hfar : ∀ x ∈ L, x + 8 ≠ env.mmap_from_system h.mmap_calls ∧
      x ≠ env.mmap_from_system h.mmap_calls) :
    ∃ h1, new_region env h = Except.ok h1 ∧
      h1.free_head = env.mmap_from_system h.mmap_calls ∧
      h1.mmap_calls = h.mmap_calls + 1 ∧
      h1.mem (env.mmap_from_system h.mmap_calls) = 4080 ∧
      IsList h1.mem h1.free_head (env.mmap_from_system h.mmap_calls :: L) ∧
      ∀ x, x ≠ env.mmap_from_system h.mmap_calls →
        x ≠ env.mmap_from_system h.mmap_calls + 8 → h1.mem x = h.mem x := by
  generalize hp : env.mmap_from_system h.mmap_calls = pg at hpg hfar ⊢
  have hadd := add_to_free_list_ok
    ⟨store (store h.mem pg 4080) (pg + 8) NULL, h.free_head, h.mmap_calls + 1⟩ pg
    (store_same _ _ _)
  refine ⟨⟨store (store (store h.mem pg 4080) (pg + 8) NULL) (pg + 8) h.free_head, pg,
    h.mmap_calls + 1⟩, ?_, rfl, rfl, ?_, ?_, ?_⟩
  · simp only [new_region, hp, page_slot_size]
    rw [hadd]
  · show store _ _ _ pg = 4080
    rw [store_other _ _ _ _ (by omega), store_other _ _ _ _ (by omega), store_same]
  · show IsList (store _ _ _) pg (pg :: L)
    refine ⟨rfl, hpg, ?_⟩
    rw [store_same]
    refine IsSeg_congr h.mem _ _ _ _ ?_ hl
    intro x hx
    have := hfar x hx
    rw [store_other _ _ _ _ (by omega), store_other _ _ _ _ (by omega),
      store_other _ _ _ _ (by omega)]
  · intro x h1 h2
    show store _ _ _ x = h.mem x
    rw [store_other _ _ _ _ h2, store_other _ _ _ _ h2, store_other _ _ _ _ h1]

theorem InPage.mono (env : Env) (n k : Nat) (b : Nat × Nat) (hnk : n ≤ k)
    (h : InPage env n b) : InPage env k b := by
  obtain ⟨i, hi, h1, h2⟩ := h
  exact ⟨i, by omega, h1, h2⟩

/-- A block inside an earlier page lies apart from a later page. -/
theorem InPage.apart_page (env : Env) (hs : env.Sound) (n : Nat) (b : Nat × Nat)
    (h : InPage env n b) :
    b.1 + 16 + b.2 ≤ env.mmap_from_system n ∨ env.mmap_from_system n + 4096 ≤ b.1 := by
  obtain ⟨i, hi, h1, h2⟩ := h
  have := hs.page_disj i n (by omega)
  omega

/-- The invariant holds right after `my_initialize`. -/
theorem inv_init (env : Env) (hs : env.Sound) (h0 : simple_heap_t) :
    Inv env ⟨ my_initialize env h0, []⟩ [] := by
  have hd := hs.dummy_ne
  refine ⟨?_, ?_, ?_, ?_, ?_, ?_, ?_, ?_, ?_⟩
  · show IsList (store _ _ _) env.dummy [env.dummy]
    exact ⟨rfl, hd, store_same _ _ _⟩
  · show store _ _ _ env.dummy = 0
    rw [store_other _ _ _ _ (by omega), store_same]
  · simp [free_blocks]
  · simp [live_blocks]
  · simp
  · simp
  · simp
  · simp
  · simp

/-- Mapping a page keeps the invariant. -/
theorem inv_grow (env : Env) (hs : env.Sound) (s : Session) (FL : List Nat)
    (hinv : Inv env s FL) :
    ∃ h1, new_region env s.heap = Except.ok h1 ∧
      h1.free_head = env.mmap_from_system s.heap.mmap_calls ∧
      h1.mmap_calls = s.heap.mmap_calls + 1 ∧
      h1.mem (env.mmap_from_system s.heap.mmap_calls) = 4080 ∧
      (∀ x, x ≠ env.mmap_from_system s.heap.mmap_calls →
        x ≠ env.mmap_from_system s.heap.mmap_calls + 8 → h1.mem x = s.heap.mem x) ∧
      (∀ x ∈ FL ++ [env.dummy], h1.mem x = s.heap.mem x) ∧
      Inv env ⟨h1, s.live⟩ (env.mmap_from_system s.heap.mmap_calls :: FL) := by
  obtain ⟨s_heap, live⟩ := s
  obtain ⟨l1, l2, l3, l4, l5, l6, l7, l8, l9⟩ := hinv
  simp only at l1 l2 l3 l4 l5 l6 l7 l8 l9 ⊢
  have hdd := hs.dummy_disj s_heap.mmap_calls
  have hfree : ∀ x ∈ FL, x + 16 + s_heap.mem x ≤ env.mmap_from_system s_heap.mmap_calls ∨
      env.mmap_from_system s_heap.mmap_calls + 4096 ≤ x := fun x hx =>
    InPage.apart_page env hs _ _ (l6 x hx)
  have hlive : ∀ o ∈ live, o.1 - 16 + 16 + o.2 ≤ env.mmap_from_system s_heap.mmap_calls ∨
      env.mmap_from_system s_heap.mmap_calls + 4096 ≤ o.1 - 16 := fun o ho =>
    InPage.apart_page env hs _ _ (l7 o ho)
  have hall : ∀ x ∈ FL ++ [env.dummy],
      x + 16 + s_heap.mem x ≤ env.mmap_from_system s_heap.mmap_calls ∨
      env.mmap_from_system s_heap.mmap_calls + 4096 ≤ x := by
    intro x hx
    rcases List.mem_append.1 hx with hx | hx
    · exact hfree x hx
    · simp only [List.mem_singleton] at hx
      subst hx
      rw [l2]; omega
  obtain ⟨h1, e1, e2, e3, e4, e5, e6⟩ := new_region_spec env s_heap (FL ++ [env.dummy]) l1
    (hs.page_ne _) (fun x hx => by have := hall x hx; omega)
  generalize hp : env.mmap_from_system s_heap.mmap_calls = pg at *
  have hsame : ∀ x ∈ FL ++ [env.dummy], h1.mem x = s_heap.mem x := fun x hx => by
    have := hall x hx
    exact e6 x (by omega) (by omega)
  have hfb : free_blocks h1.mem (FL ++ [env.dummy]) = free_blocks s_heap.mem (FL ++ [env.dummy]) := by
    unfold free_blocks
    exact List.map_congr_left (fun x hx => by rw [hsame x hx])
  refine ⟨h1, e1, e2, e3, e4, e6, hsame, ?_, ?_, ?_, ?_, ?_, ?_, ?_, ?_, ?_⟩
  · rw [e2] at e5; rw [e2]; exact e5
  · show h1.mem env.dummy = 0
    rw [hsame _ (by simp)]; exact l2
  · show (free_blocks h1.mem (pg :: FL ++ [env.dummy])).Pairwise Apart
    have : free_blocks h1.mem (pg :: FL ++ [env.dummy]) =
        (pg, h1.mem pg) :: free_blocks h1.mem (FL ++ [env.dummy]) := rfl
    rw [this, hfb, List.pairwise_cons]
    refine ⟨?_, l3⟩
    intro b hb
    obtain ⟨x, hx, rfl⟩ := List.mem_map.1 hb
    have := hall x hx
    unfold Apart
    simp only [e4]
    omega
  · exact l4
  · intro x hx o ho
    have ho1 := hlive o ho
    rcases List.mem_cons.1 hx with rfl | hx
    · unfold Apart
      simp only [e4]
      omega
    · show Apart (x, h1.mem x) _
      rw [hsame x hx]
      exact l5 x hx o ho
  · intro x hx
    show InPage env h1.mmap_calls (x, h1.mem x)
    rw [e3]
    rcases List.mem_cons.1 hx with rfl | hx
    · exact ⟨s_heap.mmap_calls, by omega, by simp [hp], by simp [hp, e4]⟩
    · rw [hsame x (List.mem_append_left _ hx)]
      exact InPage.mono env _ _ _ (by omega) (l6 x hx)
  · intro o ho
    show InPage env h1.mmap_calls _
    rw [e3]
    exact InPage.mono env _ _ _ (by omega) (l7 o ho)
  · intro x hx
    show h1.mem x % 8 = 0 ∧ 8 ≤ h1.mem x ∧ h1.mem x ≤ 4080
    rcases List.mem_cons.1 hx with rfl | hx
    · rw [e4]; omega
    · rw [hsame x (List.mem_append_left _ hx)]
      exact l8 x hx
  · intro o ho
    have ho1 := hlive o ho
    obtain ⟨a, b, c, d⟩ := l9 o ho
    refine ⟨a, ?_, ?_, d⟩
    · show h1.mem (o.1 - 16) = o.2
      rw [e6 _ (by omega) (by omega)]; exact b
    · show h1.mem (o.1 - 16 + 8) = NULL
      rw [e6 _ (by omega) (by omega)]; exact c

theorem Apart.symm {a b : Nat × Nat} (h : Apart a b) : Apart b a := by
  unfold Apart at *; omega

theorem pairwise_erase {R : (Nat × Nat) → (Nat × Nat) → Prop} (hsym : ∀ a b, R a b → R b a)
    (f : Nat × Nat → Nat × Nat) (live : List (Nat × Nat)) (o : Nat × Nat) (ho : o ∈ live)
    (h : (live.map f).Pairwise R) :
    ((live.erase o).map f).Pairwise R ∧ ∀ o1 ∈ live.erase o, R (f o) (f o1) := by
  induction live with
  | nil => simp at ho
  | cons b l ih =>
    rw [List.map_cons, List.pairwise_cons] at h
    obtain ⟨h1, h2⟩ := h
    by_cases hb : b = o
    · subst hb
      rw [List.erase_cons_head]
      exact ⟨h2, fun o1 ho1 => h1 _ (List.mem_map.2 ⟨o1, ho1, rfl⟩)⟩
    · have hbeq : ¬ (b == o) = true := by simpa using hb
      rw [List.erase_cons_tail hbeq]
      have ho2 : o ∈ l := by
        rcases List.mem_cons.1 ho with e | e
        · exact absurd e.symm hb
        · exact e
      obtain ⟨i1, i2⟩ := ih ho2 h2
      refine ⟨?_, ?_⟩
      · rw [List.map_cons, List.pairwise_cons]
        refine ⟨?_, i1⟩
        intro c hc
        obtain ⟨x, hx, rfl⟩ := List.mem_map.1 hc
        exact h1 _ (List.mem_map.2 ⟨x, List.mem_of_mem_erase hx, rfl⟩)
      · intro o1 ho1
        rcases List.mem_cons.1 ho1 with e | e
        · subst e
          exact hsym _ _ (h1 _ (List.mem_map.2 ⟨o, ho2, rfl⟩))
        · exact i2 o1 e

theorem live_blocks_erase (live : List (Nat × Nat)) (o : Nat × Nat) (ho : o ∈ live)
    (h : (live_blocks live).Pairwise Apart) :
    (live_blocks (live.erase o)).Pairwise Apart ∧
      ∀ o1 ∈ live.erase o, Apart (o.1 - 16, o.2) (o1.1 - 16, o1.2) :=
  pairwise_erase (fun _ _ hab => Apart.symm hab) _ live o ho h

/-- Releasing a live object keeps the invariant, and the assertion of `add_to_free_list` holds. -/
theorem inv_free (env : Env) (hs : env.Sound) (s : Session) (FL : List Nat) (hinv : Inv env s FL)
    (o : Nat × Nat) (ho : o ∈ s.live) :
    my_free s.heap o.1 = Except.ok
        ⟨store s.heap.mem (o.1 - 16 + 8) s.heap.free_head, o.1 - 16, s.heap.mmap_calls⟩ ∧
      Inv env ⟨⟨store s.heap.mem (o.1 - 16 + 8) s.heap.free_head, o.1 - 16,
        s.heap.mmap_calls⟩, s.live.erase o⟩ ((o.1 - 16) :: FL) := by
  obtain ⟨h, live⟩ := s
  obtain ⟨l1, l2, l3, l4, l5, l6, l7, l8, l9⟩ := hinv
  simp only at l1 l2 l3 l4 l5 l6 l7 l8 l9 ho ⊢
  obtain ⟨a1, a2, a3, a4⟩ := l9 o ho
  obtain ⟨le1, le2⟩ := live_blocks_erase live o ho l4
  have hfar : ∀ x ∈ FL ++ [env.dummy], x + 16 + h.mem x ≤ o.1 - 16 ∨ o.1 - 16 + 16 + o.2 ≤ x := by
    intro x hx
    have := l5 x hx o ho
    unfold Apart at this
    simpa using this
  have hsame : ∀ x ∈ FL ++ [env.dummy], store h.mem (o.1 - 16 + 8) h.free_head x = h.mem x := by
    intro x hx
    have := hfar x hx
    exact store_other _ _ _ _ (by omega)
  have hfb : free_blocks (store h.mem (o.1 - 16 + 8) h.free_head) (FL ++ [env.dummy]) =
      free_blocks h.mem (FL ++ [env.dummy]) := by
    unfold free_blocks
    exact List.map_congr_left (fun x hx => by rw [hsame x hx])
  have hselfsz : store h.mem (o.1 - 16 + 8) h.free_head (o.1 - 16) = o.2 := by
    rw [store_other _ _ _ _ (by omega)]; exact a2
  refine ⟨?_, ?_, ?_, ?_, ?_, ?_, ?_, ?_, ?_, ?_⟩
  · unfold my_free header_size
    exact add_to_free_list_ok h (o.1 - 16) a3
  · show IsList (store _ _ _) (o.1 - 16) ((o.1 - 16) :: FL ++ [env.dummy])
    refine IsList_push h.mem h.free_head (o.1 - 16) (FL ++ [env.dummy]) l1 ?_ ?_
    · obtain ⟨i, _, hi, _⟩ := l7 o ho
      have := hs.page_ne i
      unfold NULL at *
      simp only at hi
      omega
    · intro hx
      have := hfar _ hx
      omega
  · show store _ _ _ env.dummy = 0
    rw [hsame _ (by simp)]; exact l2
  · show (free_blocks _ ((o.1 - 16) :: FL ++ [env.dummy])).Pairwise Apart
    have : free_blocks (store h.mem (o.1 - 16 + 8) h.free_head) ((o.1 - 16) :: FL ++ [env.dummy]) =
        (o.1 - 16, store h.mem (o.1 - 16 + 8) h.free_head (o.1 - 16)) ::
          free_blocks (store h.mem (o.1 - 16 + 8) h.free_head) (FL ++ [env.dummy]) := rfl
    rw [this, hfb, hselfsz, List.pairwise_cons]
    refine ⟨?_, l3⟩
    intro b hb
    obtain ⟨x, hx, rfl⟩ := List.mem_map.1 hb
    exact (l5 x hx o ho).symm
  · exact le1
  · intro x hx o1 ho1
    show Apart (x, store _ _ _ x) _
    rcases List.mem_cons.1 hx with rfl | hx
    · rw [hselfsz]; exact le2 o1 ho1
    · rw [hsame x hx]
      exact l5 x hx o1 (List.mem_of_mem_erase ho1)
  · intro x hx
    show InPage env h.mmap_calls (x, store _ _ _ x)
    rcases List.mem_cons.1 hx with rfl | hx
    · rw [hselfsz]; exact l7 o ho
    · rw [hsame x (List.mem_append_left _ hx)]
      exact l6 x hx
  · intro o1 ho1
    exact l7 o1 (List.mem_of_mem_erase ho1)
  · intro x hx
    show store _ _ _ x % 8 = 0 ∧ 8 ≤ store _ _ _ x ∧ store _ _ _ x ≤ 4080
    rcases List.mem_cons.1 hx with rfl | hx
    · rw [hselfsz]
      obtain ⟨b1, b2, b3⟩ := a4
      omega
    · rw [hsame x (List.mem_append_left _ hx)]
      exact l8 x hx
  · intro o1 ho1
    have hap := le2 o1 ho1
    unfold Apart at hap
    simp only at hap
    obtain ⟨b1, b2, b3, b4⟩ := l9 o1 (List.mem_of_mem_erase ho1)
    refine ⟨b1, ?_, ?_, b4⟩
    · show store _ _ _ _ = _
      rw [store_other _ _ _ _ (by omega)]; exact b2
    · show store _ _ _ _ = _
      rw [store_other _ _ _ _ (by omega)]; exact b3

theorem split_last (A L1 L2 : List Nat) (d m : Nat) (h : A ++ [d] = L1 ++ m :: L2)
    (hne : m ≠ d) : ∃ L3, L2 = L3 ++ [d] ∧ A = L1 ++ m :: L3 := by
  rcases List.eq_nil_or_concat L2 with e | ⟨L3, x, e⟩
  · subst e
    have h1 : A ++ [d] = L1 ++ [m] := h
    have := List.append_inj' h1 rfl
    simp only [List.cons.injEq, and_true] at this
    exact absurd this.2.symm hne
  · subst e
    rw [List.concat_eq_append] at h
    have h1 : A ++ [d] = (L1 ++ m :: L3) ++ [x] := by rw [h]; simp
    have := List.append_inj' h1 rfl
    simp only [List.cons.injEq, and_true] at this
    refine ⟨L3, ?_, this.1⟩
    rw [List.concat_eq_append, this.2]

theorem free_blocks_sep (mem : Nat → Nat) (L : List Nat)
    (h : (free_blocks mem L).Pairwise Apart) :
    ∀ x ∈ L, ∀ y ∈ L, x ≠ y → Apart (x, mem x) (y, mem y) := by
  intro x hx y hy hxy
  have hsym : Symmetric Apart := fun _ _ hab => Apart.symm hab
  refine List.Pairwise.forall hsym h (List.mem_map.2 ⟨x, hx, rfl⟩)
    (List.mem_map.2 ⟨y, hy, rfl⟩) ?_
  intro e
  exact hxy (congrArg Prod.fst e)

theorem free_blocks_sublist (mem : Nat → Nat) (L1 L2 : List Nat) (m : Nat)
    (h : (free_blocks mem (L1 ++ m :: L2)).Pairwise Apart) :
    (free_blocks mem (L1 ++ L2)).Pairwise Apart := by
  refine List.Pairwise.sublist ?_ h
  unfold free_blocks
  refine List.Sublist.map _ ?_
  exact List.Sublist.append (List.Sublist.refl L1) (List.sublist_cons_self m L2)

/-- Taking a slot of the free list for a valid request keeps the invariant: the
slot becomes a live object and the split remainder, when there is one, heads
the list. -/
theorem inv_take (env : Env) (s : Session) (FL : List Nat) (hinv : Inv env s FL)
    (size : Nat) (hv : ValidSize size) (L1 L2 : List Nat) (m prev : Nat)
    (hsplit : FL ++ [env.dummy] = L1 ++ m :: L2) (hprev : prev = L1.getLastD NULL)
    (hsz : size ≤ s.heap.mem m) :
    ∃ h1 L3, L2 = L3 ++ [env.dummy] ∧ FL = L1 ++ m :: L3 ∧
      take_slot s.heap size m prev = Except.ok (m + 16, h1) ∧
      h1.mmap_calls = s.heap.mmap_calls ∧
      h1.mem m = size ∧ h1.mem (m + 8) = NULL ∧
      (16 < s.heap.mem m - size → h1.mem (m + 16 + size) = s.heap.mem m - size - 16) ∧
      (∀ x ∈ L1 ++ L3, h1.mem x = s.heap.mem x) ∧
      Inv env ⟨h1, (m + 16, size) :: s.live⟩
        ((if 16 < s.heap.mem m - size then [m + 16 + size] else []) ++ (L1 ++ L3)) := by
  obtain ⟨h, live⟩ := s
  obtain ⟨l1, l2, l3, l4, l5, l6, l7, l8, l9⟩ := hinv
  obtain ⟨v1, v2, v3⟩ := hv
  simp only at l1 l2 l3 l4 l5 l6 l7 l8 l9 hsz ⊢
  have hmd : m ≠ env.dummy := by
    intro e
    rw [e, l2] at hsz
    omega
  obtain ⟨L3, e2, eFL⟩ := split_last FL L1 L2 env.dummy m hsplit hmd
  have hmFL : m ∈ FL := by rw [eFL]; simp
  obtain ⟨s1, s2, s3⟩ := l8 m hmFL
  have hfl : FreeList h.mem h.free_head (L1 ++ m :: L2) := by
    rw [← hsplit]
    refine ⟨l1, l3, ?_⟩
    intro x hx
    unfold size_t_mod
    rcases List.mem_append.1 hx with hx | hx
    · have := (l8 x hx).2.2; omega
    · simp only [List.mem_singleton] at hx
      rw [hx, l2]; omega
  obtain ⟨h1, t1, t2, t3, t4, t5, t6, t7⟩ := take_slot_spec h size m prev L1 L2 hfl hprev hsz
  have hrest : ∀ x ∈ L1 ++ L2, x ∈ FL ++ [env.dummy] := by
    intro x hx
    rw [hsplit]
    rcases List.mem_append.1 hx with hx | hx
    · exact List.mem_append_left _ hx
    · exact List.mem_append_right _ (List.mem_cons_of_mem _ hx)
  have hL3 : ∀ x ∈ L1 ++ L3, x ∈ FL := by
    intro x hx
    rw [eFL]
    rcases List.mem_append.1 hx with hx | hx
    · exact List.mem_append_left _ hx
    · exact List.mem_append_right _ (List.mem_cons_of_mem _ hx)
  have hL12 : L1 ++ L2 = (L1 ++ L3) ++ [env.dummy] := by rw [e2]; simp
  have hmF : m ∈ FL ++ [env.dummy] := List.mem_append_left _ hmFL
  have hsep := free_blocks_sep _ _ l3
  have hnd : (L1 ++ m :: L2).Nodup := free_blocks_nodup _ _ hfl.apart
  have hmnot : ∀ x ∈ L1 ++ L2, x ≠ m := by
    intro x hx e
    subst e
    have := List.nodup_middle.1 hnd
    exact (List.nodup_cons.1 this).1 hx
  -- every other slot of the list lies apart from the chosen one
  have hother : ∀ x ∈ L1 ++ L2, x + 16 + h.mem x ≤ m ∨ m + 16 + h.mem m ≤ x := by
    intro x hx
    have := hsep x (hrest x hx) m hmF (hmnot x hx)
    unfold Apart at this
    simpa using this
  have hnotnext : ∀ x ∈ L1 ++ L2, ∀ y ∈ L1, x ≠ y + 8 := by
    intro x hx y hy
    by_cases e : x = y
    · omega
    · have := hsep x (hrest x hx) y (hrest y (List.mem_append_left _ hy)) e
      unfold Apart at this
      simp only at this
      omega
  have hsame : ∀ x ∈ L1 ++ L2, h1.mem x = h.mem x := by
    intro x hx
    have := hother x hx
    exact t5 x (by omega) (hnotnext x hx)
  have hlive : ∀ o ∈ live, o.1 - 16 + 16 + o.2 ≤ m ∨ m + 16 + h.mem m ≤ o.1 - 16 := by
    intro o ho
    have := l5 m hmF o ho
    unfold Apart at this
    simp only at this
    omega
  have hlivecell : ∀ o ∈ live, h1.mem (o.1 - 16) = h.mem (o.1 - 16) ∧
      h1.mem (o.1 - 16 + 8) = h.mem (o.1 - 16 + 8) := by
    intro o ho
    have h1o := hlive o ho
    have h2o : ∀ y ∈ L1, y + 16 + h.mem y ≤ o.1 - 16 ∨ o.1 - 16 + 16 + o.2 ≤ y := by
      intro y hy
      have := l5 y (hrest y (List.mem_append_left _ hy)) o ho
      unfold Apart at this
      simpa using this
    constructor
    · exact t5 _ (by omega) (fun y hy => by have := h2o y hy; omega)
    · exact t5 _ (by omega) (fun y hy => by have := h2o y hy; omega)
  have hfb : free_blocks h1.mem (L1 ++ L2) = free_blocks h.mem (L1 ++ L2) := by
    unfold free_blocks
    exact List.map_congr_left (fun x hx => by rw [hsame x hx])
  have hpage : InPage env h.mmap_calls (m, h.mem m) := l6 m hmFL
  -- the remainder, when there is one
  generalize hrem : (if 16 < h.mem m - size then [m + 16 + size] else []) = rem
  have hremlist : IsList h1.mem h1.free_head (rem ++ (L1 ++ L2)) := by
    by_cases hc : 16 < h.mem m - size
    · rw [← hrem, if_pos hc]; exact (t7 hc).1
    · rw [← hrem, if_neg hc]; exact t6 (by omega)
  have hremmem : ∀ x ∈ rem, x = m + 16 + size ∧ 16 < h.mem m - size ∧
      h1.mem x = h.mem m - size - 16 := by
    intro x hx
    by_cases hc : 16 < h.mem m - size
    · rw [← hrem, if_pos hc] at hx
      simp only [List.mem_singleton] at hx
      subst hx
      exact ⟨rfl, hc, (t7 hc).2⟩
    · rw [← hrem, if_neg hc] at hx
      simp at hx
  have hremfb : free_blocks h1.mem rem =
      rem.map (fun _ => (m + 16 + size, h.mem m - size - 16)) := by
    unfold free_blocks
    refine List.map_congr_left ?_
    intro x hx
    obtain ⟨a, _, c⟩ := hremmem x hx
    rw [c, a]
  have hrempair : (rem.map (fun _ => (m + 16 + size, h.mem m - size - 16))).Pairwise Apart := by
    by_cases hc : 16 < h.mem m - size
    · rw [← hrem, if_pos hc]; simp
    · rw [← hrem, if_neg hc]; simp
  refine ⟨h1, L3, e2, eFL, t1, t2, t3, t4, fun hc => (t7 hc).2,
    fun x hx => hsame x (by rw [hL12]; exact List.mem_append_left _ hx), ?_⟩
  refine ⟨?_, ?_, ?_, ?_, ?_, ?_, ?_, ?_, ?_⟩
  · show IsList h1.mem h1.free_head (rem ++ (L1 ++ L3) ++ [env.dummy])
    rw [List.append_assoc, ← hL12]
    exact hremlist
  · show h1.mem env.dummy = 0
    rw [hsame env.dummy (by rw [hL12]; simp)]
    exact l2
  · show (free_blocks h1.mem (rem ++ (L1 ++ L3) ++ [env.dummy])).Pairwise Apart
    rw [List.append_assoc, ← hL12]
    unfold free_blocks
    rw [List.map_append]
    change (free_blocks h1.mem rem ++ free_blocks h1.mem (L1 ++ L2)).Pairwise Apart
    rw [hfb, hremfb, List.pairwise_append]
    refine ⟨hrempair, ?_, ?_⟩
    · have := hfl.apart
      exact free_blocks_sublist _ _ _ _ this
    · intro a ha b hb
      obtain ⟨x, hx, rfl⟩ := List.mem_map.1 ha
      obtain ⟨y, hy, rfl⟩ := List.mem_map.1 hb
      obtain ⟨_, c, _⟩ := hremmem x hx
      have := hother y hy
      unfold Apart
      simp only
      omega
  · show (live_blocks ((m + 16, size) :: live)).Pairwise Apart
    have : live_blocks ((m + 16, size) :: live) = (m, size) :: live_blocks live := by
      simp [live_blocks, header_size]
    rw [this, List.pairwise_cons]
    refine ⟨?_, l4⟩
    intro b hb
    obtain ⟨o, ho, rfl⟩ := List.mem_map.1 hb
    have := hlive o ho
    unfold Apart header_size
    simp only
    omega
  · intro x hx o ho
    show Apart (x, h1.mem x) (o.1 - 16, o.2)
    rw [List.append_assoc, ← hL12] at hx
    rcases List.mem_append.1 hx with hx | hx
    · obtain ⟨a, c, d⟩ := hremmem x hx
      rw [d, a]
      rcases List.mem_cons.1 ho with rfl | ho
      · unfold Apart; simp only; omega
      · have := hlive o ho
        unfold Apart; simp only; omega
    · rw [hsame x hx]
      rcases List.mem_cons.1 ho with rfl | ho
      · have := hother x hx
        unfold Apart; simp only; omega
      · exact l5 x (hrest x hx) o ho
  · intro x hx
    show InPage env h1.mmap_calls (x, h1.mem x)
    rw [t2]
    rcases List.mem_append.1 hx with hx | hx
    · obtain ⟨a, c, d⟩ := hremmem x hx
      rw [d, a]
      obtain ⟨i, hi, p1, p2⟩ := hpage
      simp only at p1 p2
      exact ⟨i, hi, by simp only; omega, by simp only; omega⟩
    · rw [hsame x (by rw [hL12]; exact List.mem_append_left _ hx)]
      exact l6 x (hL3 x hx)
  · intro o ho
    show InPage env h1.mmap_calls (o.1 - 16, o.2)
    rw [t2]
    rcases List.mem_cons.1 ho with rfl | ho
    · obtain ⟨i, hi, p1, p2⟩ := hpage
      simp only at p1 p2
      exact ⟨i, hi, by simp only; omega, by simp only; omega⟩
    · exact l7 o ho
  · intro x hx
    show h1.mem x % 8 = 0 ∧ 8 ≤ h1.mem x ∧ h1.mem x ≤ 4080
    rcases List.mem_append.1 hx with hx | hx
    · obtain ⟨a, c, d⟩ := hremmem x hx
      rw [d]
      omega
    · rw [hsame x (by rw [hL12]; exact List.mem_append_left _ hx)]
      exact l8 x (hL3 x hx)
  · intro o ho
    show 16 ≤ o.1 ∧ h1.mem (o.1 - 16) = o.2 ∧ h1.mem (o.1 - 16 + 8) = NULL ∧ ValidSize o.2
    rcases List.mem_cons.1 ho with rfl | ho
    · refine ⟨by simp, ?_, ?_, v1, v2, v3⟩
      · simpa using t3
      · simpa using t4
    · obtain ⟨a, b, c, d⟩ := l9 o ho
      obtain ⟨c1, c2⟩ := hlivecell o ho
      exact ⟨a, by rw [c1]; exact b, by rw [c2]; exact c, d⟩

theorem Picks.size_le {pol : Policy} {mem : Nat → Nat} {size : Nat} {L1 L2 : List Nat} {m : Nat}
    (h : Picks pol mem size L1 m L2) : size ≤ mem m := by
  cases pol <;> exact h.1

/-- In a session a slot that is large enough is eligible under every policy. -/
theorem eligible_of_le (pol : Policy) (mem : Nat → Nat) (size x : Nat) (h0 : 0 < size)
    (h1 : size ≤ mem x) (h2 : mem x < 5000) : Eligible pol mem size x := by
  cases pol
  · exact h1
  · exact ⟨h1, h2⟩
  · exact ⟨h1, by omega⟩

theorem allocate_of_scan (env : Env) (pol : Policy) (fuel size : Nat) (h : simple_heap_t)
    (r rp : Nat) (hscan : scan pol h.mem size fuel h.free_head = some (r, rp)) (hr : r ≠ NULL) :
    allocate env pol (fuel + 1) size h = take_slot h size r rp := by
  rw [allocate_succ, hscan]
  simp only [hr, if_false]

theorem allocate_of_scan_null (env : Env) (pol : Policy) (fuel size : Nat) (h h1 : simple_heap_t)
    (rp : Nat) (hscan : scan pol h.mem size fuel h.free_head = some (NULL, rp))
    (hnew : new_region env h = Except.ok h1) :
    allocate env pol (fuel + 1) size h = allocate env pol fuel size h1 := by
  rw [allocate_succ, hscan]
  simp only [if_true, hnew]

/-- The allocation in a state of a session where some slot is large enough. -/
theorem allocate_found (env : Env) (pol : Policy) (s : Session) (FL : List Nat)
    (hinv : Inv env s FL) (size : Nat) (hv : ValidSize size) (fuel : Nat)
    (hfuel : FL.length + 3 ≤ fuel) (hex : ∃ x ∈ FL, size ≤ s.heap.mem x) :
    ∃ L1 m L3 h1, FL = L1 ++ m :: L3 ∧
      Picks pol s.heap.mem size L1 m (L3 ++ [env.dummy]) ∧
      scan pol s.heap.mem size (fuel - 1) s.heap.free_head = some (m, L1.getLastD NULL) ∧
      allocate env pol fuel size s.heap = Except.ok (m + 16, h1) ∧
      h1.mmap_calls = s.heap.mmap_calls ∧
      h1.mem m = size ∧ h1.mem (m + 8) = NULL ∧
      (16 < s.heap.mem m - size → h1.mem (m + 16 + size) = s.heap.mem m - size - 16) ∧
      (∀ x ∈ L1 ++ L3, h1.mem x = s.heap.mem x) ∧
      Inv env ⟨h1, (m + 16, size) :: s.live⟩
        ((if 16 < s.heap.mem m - size then [m + 16 + size] else []) ++ (L1 ++ L3)) := by
  obtain ⟨f, rfl⟩ : ∃ f, fuel = f + 1 := ⟨fuel - 1, by omega⟩
  obtain ⟨r, rp, hscan, hres⟩ := scan_spec pol s.heap.mem size (FL ++ [env.dummy])
    s.heap.free_head f hinv.linked (by simp; omega)
  obtain ⟨x, hx, hxs⟩ := hex
  rcases hres with ⟨_, hnone⟩ | ⟨hr, L1, L2, e, hrp, hp⟩
  · exfalso
    refine hnone x (List.mem_append_left _ hx) ?_
    have := (hinv.free_size x hx).2.2
    exact eligible_of_le pol _ _ _ (by have := hv.1; omega) hxs (by omega)
  · obtain ⟨h1, L3, e2, eFL, t1, t2, t3, t4, t5, t6, t7⟩ :=
      inv_take env s FL hinv size hv L1 L2 r rp e hrp hp.size_le
    refine ⟨L1, r, L3, h1, eFL, ?_, ?_, ?_, t2, t3, t4, t5, t6, t7⟩
    · rw [← e2]; exact hp
    · simpa [hrp] using hscan
    · rw [allocate_of_scan env pol f size s.heap r rp hscan hr]
      exact t1

/-- The allocation in a state of a session where no slot is large enough. -/
theorem allocate_grow (env : Env) (hs : env.Sound) (pol : Policy) (s : Session) (FL : List Nat)
    (hinv : Inv env s FL) (size : Nat) (hv : ValidSize size) (fuel : Nat)
    (hfuel : FL.length + 5 ≤ fuel) (hno : ∀ x ∈ FL, s.heap.mem x < size) :
    ∃ h1 h2 rp, new_region env s.heap = Except.ok h1 ∧
      scan pol s.heap.mem size (fuel - 1) s.heap.free_head = some (NULL, rp) ∧
      h1.free_head = env.mmap_from_system s.heap.mmap_calls ∧
      h1.mmap_calls = s.heap.mmap_calls + 1 ∧
      h1.mem (env.mmap_from_system s.heap.mmap_calls) = 4080 ∧
      Inv env ⟨h1, s.live⟩ (env.mmap_from_system s.heap.mmap_calls :: FL) ∧
      allocate env pol fuel size s.heap = allocate env pol (fuel - 1) size h1 ∧
      scan pol h1.mem size (fuel - 2) h1.free_head =
        some (env.mmap_from_system s.heap.mmap_calls, NULL) ∧
      allocate env pol (fuel - 1) size h1 =
        Except.ok (env.mmap_from_system s.heap.mmap_calls + 16, h2) ∧
      h2.mmap_calls = s.heap.mmap_calls + 1 ∧
      h2.mem (env.mmap_from_system s.heap.mmap_calls) = size ∧
      h2.mem (env.mmap_from_system s.heap.mmap_calls + 8) = NULL ∧
      h2.mem (env.mmap_from_system s.heap.mmap_calls + 16 + size) = 4080 - size - 16 ∧
      (∀ x ∈ FL, h2.mem x = s.heap.mem x) ∧
      Inv env ⟨h2, (env.mmap_from_system s.heap.mmap_calls + 16, size) :: s.live⟩
        ((env.mmap_from_system s.heap.mmap_calls + 16 + size) :: FL) := by
  obtain ⟨f, rfl⟩ : ∃ f, fuel = f + 1 := ⟨fuel - 1, by omega⟩
  obtain ⟨r, rp, hscan, hres⟩ := scan_spec pol s.heap.mem size (FL ++ [env.dummy])
    s.heap.free_head f hinv.linked (by simp; omega)
  have hr : r = NULL := by
    rcases hres with ⟨hr, _⟩ | ⟨hr, L1, L2, e, hrp, hp⟩
    · exact hr
    · exfalso
      have hsz := hp.size_le
      have hmem : r ∈ FL ++ [env.dummy] := by rw [e]; simp
      rcases List.mem_append.1 hmem with hx | hx
      · have := hno r hx; omega
      · simp only [List.mem_singleton] at hx
        rw [hx, hinv.dummy_size] at hsz
        have := hv.1; omega
  subst hr
  obtain ⟨h1, g1, g2, g3, g4, g5, g6, g7⟩ := inv_grow env hs s FL hinv
  generalize hpg : env.mmap_from_system s.heap.mmap_calls = pg at *
  have hpgsz : size ≤ h1.mem pg := by rw [g4]; have := hv.2.1; omega
  obtain ⟨L1, m, L3, h2, a1, a2, a3, a4, a5, a6, a7, a8, a9, a10⟩ :=
    allocate_found env pol ⟨h1, s.live⟩ (pg :: FL) g7 size hv f
      (by simp; omega) ⟨pg, by simp, hpgsz⟩
  simp only at a2 a3 a4 a5 a6 a7 a8 a9 a10
  have hm : L1 = [] ∧ m = pg ∧ L3 = FL := by
    cases L1 with
    | nil =>
      simp only [List.nil_append, List.cons.injEq] at a1
      exact ⟨rfl, a1.1.symm, a1.2.symm⟩
    | cons b L1 =>
      exfalso
      simp only [List.cons_append, List.cons.injEq] at a1
      have hmFL : m ∈ FL := by rw [a1.2]; simp
      have := a2.size_le
      rw [g6 m (List.mem_append_left _ hmFL)] at this
      have := hno m hmFL
      omega
  obtain ⟨rfl, rfl, rfl⟩ := hm
  have hbig : 16 < h1.mem m - size := by rw [g4]; have := hv.2.1; omega
  rw [if_pos hbig] at a10
  refine ⟨h1, h2, rp, g1, by simpa using hscan, g2, g3, g4, g7, ?_, ?_, ?_, ?_, a6, a7, ?_, ?_, ?_⟩
  · exact allocate_of_scan_null env pol f size s.heap h1 rp hscan g1
  · simpa using a3
  · simpa using a4
  · rw [a5, g3]
  · rw [a8 hbig, g4]
  · intro x hx
    rw [a9 x (by simpa using hx), g6 x (List.mem_append_left _ hx)]
  · simpa using a10

theorem first_fit_scan_mono (mem : Nat → Nat) (size fuel a b : Nat) (r : Nat × Nat)
    (h : first_fit_scan mem size fuel a b = some r) :
    first_fit_scan mem size (fuel + 1) a b = some r := by
  induction fuel generalizing a b with
  | zero => simp [first_fit_scan] at h
  | succ n ih =>
    rw [first_fit_scan] at h ⊢
    by_cases hc : a ≠ NULL ∧ mem a < size
    · rw [if_pos hc] at h ⊢
      exact ih _ _ h
    · rw [if_neg hc] at h ⊢
      exact h

theorem best_fit_scan_mono (mem : Nat → Nat) (size fuel a b c d e : Nat) (r : Nat × Nat)
    (h : best_fit_scan mem size fuel a b c d e = some r) :
    best_fit_scan mem size (fuel + 1) a b c d e = some r := by
  induction fuel generalizing a b c d e with
  | zero => simp [best_fit_scan] at h
  | succ n ih =>
    rw [best_fit_scan] at h ⊢
    by_cases hc : c ≠ NULL
    · rw [if_pos hc] at h ⊢
      by_cases hd : mem c ≥ size ∧ mem c < e
      · rw [if_pos hd] at h ⊢
        exact ih _ _ _ _ _ h
      · rw [if_neg hd] at h ⊢
        exact ih _ _ _ _ _ h
    · rw [if_neg hc] at h ⊢
      exact h

theorem worst_fit_scan_mono (mem : Nat → Nat) (size fuel a b c d e : Nat) (r : Nat × Nat)
    (h : worst_fit_scan mem size fuel a b c d e = some r) :
    worst_fit_scan mem size (fuel + 1) a b c d e = some r := by
  induction fuel generalizing a b c d e with
  | zero => simp [worst_fit_scan] at h
  | succ n ih =>
    rw [worst_fit_scan] at h ⊢
    by_cases hc : c ≠ NULL
    · rw [if_pos hc] at h ⊢
      by_cases hd : mem c ≥ size ∧ mem c > e
      · rw [if_pos hd] at h ⊢
        exact ih _ _ _ _ _ h
      · rw [if_neg hd] at h ⊢
        exact ih _ _ _ _ _ h
    · rw [if_neg hc] at h ⊢
      exact h

theorem scan_mono (pol : Policy) (mem : Nat → Nat) (size fuel head : Nat) (r : Nat × Nat)
    (h : scan pol mem size fuel head = some r) : scan pol mem size (fuel + 1) head = some r := by
  cases pol
  · exact first_fit_scan_mono _ _ _ _ _ _ h
  · exact best_fit_scan_mono _ _ _ _ _ _ _ _ _ h
  · exact worst_fit_scan_mono _ _ _ _ _ _ _ _ _ h

/-- More fuel does not change a result. -/
theorem allocate_mono (env : Env) (pol : Policy) (fuel size : Nat) (h : simple_heap_t)
    (r : Nat × simple_heap_t) (hr : allocate env pol fuel size h = Except.ok r) :
    allocate env pol (fuel + 1) size h = Except.ok r := by
  induction fuel generalizing h with
  | zero => rw [allocate_zero] at hr; cases hr
  | succ n ih =>
    rw [allocate_succ] at hr ⊢
    cases hsc : scan pol h.mem size n h.free_head with
    | none => rw [hsc] at hr; cases hr
    | some mp =>
      obtain ⟨m, p⟩ := mp
      rw [hsc] at hr
      rw [scan_mono pol _ _ _ _ _ hsc]
      simp only at hr ⊢
      by_cases hm : m = NULL
      · rw [if_pos hm] at hr ⊢
        cases hnew : new_region env h with
        | error e => rw [hnew] at hr; cases hr
        | ok h1 =>
          rw [hnew] at hr
          simp only at hr ⊢
          exact ih h1 hr
      · rw [if_neg hm] at hr ⊢
        exact hr

theorem allocate_mono_le (env : Env) (pol : Policy) (fuel fuel1 size : Nat) (h : simple_heap_t)
    (r : Nat × simple_heap_t) (hle : fuel ≤ fuel1)
    (hr : allocate env pol fuel size h = Except.ok r) :
    allocate env pol fuel1 size h = Except.ok r := by
  induction hle with
  | refl => exact hr
  | step _ ih => exact allocate_mono env pol _ size h r ih

/-- Every result of an allocation in a state of a session is one of the two cases, and the invariant holds afterwards. -/
theorem allocate_cases (env : Env) (hs : env.Sound) (pol : Policy) (s : Session) (FL : List Nat)
    (hinv : Inv env s FL) (size : Nat) (hv : ValidSize size) (fuel ptr : Nat)
    (h1 : simple_heap_t) (hr : allocate env pol fuel size s.heap = Except.ok (ptr, h1)) :
    (∃ L1 m L3, FL = L1 ++ m :: L3 ∧
      Picks pol s.heap.mem size L1 m (L3 ++ [env.dummy]) ∧
      ptr = m + 16 ∧ h1.mmap_calls = s.heap.mmap_calls ∧
      h1.mem m = size ∧ h1.mem (m + 8) = NULL ∧
      (16 < s.heap.mem m - size → h1.mem (m + 16 + size) = s.heap.mem m - size - 16) ∧
      (∀ x ∈ L1 ++ L3, h1.mem x = s.heap.mem x) ∧
      Inv env ⟨h1, (ptr, size) :: s.live⟩
        ((if 16 < s.heap.mem m - size then [m + 16 + size] else []) ++ (L1 ++ L3))) ∨
    ((∀ x ∈ FL, s.heap.mem x < size) ∧
      ptr = env.mmap_from_system s.heap.mmap_calls + 16 ∧
      h1.mmap_calls = s.heap.mmap_calls + 1 ∧
      h1.mem (env.mmap_from_system s.heap.mmap_calls) = size ∧
      h1.mem (env.mmap_from_system s.heap.mmap_calls + 8) = NULL ∧
      h1.mem (env.mmap_from_system s.heap.mmap_calls + 16 + size) = 4080 - size - 16 ∧
      (∀ x ∈ FL, h1.mem x = s.heap.mem x) ∧
      Inv env ⟨h1, (ptr, size) :: s.live⟩
        ((env.mmap_from_system s.heap.mmap_calls + 16 + size) :: FL)) := by
  have hbig := allocate_mono_le env pol fuel (max fuel (FL.length + 5)) size s.heap _
    (le_max_left _ _) hr
  by_cases hex : ∃ x ∈ FL, size ≤ s.heap.mem x
  · left
    obtain ⟨L1, m, L3, h2, a1, a2, _, a4, a5, a6, a7, a8, a9, a10⟩ :=
      allocate_found env pol s FL hinv size hv (max fuel (FL.length + 5))
        (by have := le_max_right fuel (FL.length + 5); omega) hex
    rw [hbig] at a4
    injection a4 with a4
    injection a4 with e1 e2
    subst e1 e2
    exact ⟨L1, m, L3, a1, a2, rfl, a5, a6, a7, a8, a9, a10⟩
  · right
    have hno : ∀ x ∈ FL, s.heap.mem x < size := by
      intro x hx
      by_contra hc
      exact hex ⟨x, hx, by omega⟩
    obtain ⟨hg, h2, rp, g1, g2, g3, g4, g5, g6, g7, g8, g9, g10, g11, g12, g13, g14, g15⟩ :=
      allocate_grow env hs pol s FL hinv size hv (max fuel (FL.length + 5))
        (le_max_right _ _) hno
    rw [g7, g9] at hbig
    injection hbig with a4
    injection a4 with e1 e2
    subst e1 e2
    exact ⟨hno, rfl, g10, g11, g12, g13, g14, g15⟩

theorem allocate_inv (env : Env) (hs : env.Sound) (pol : Policy) (s : Session) (FL : List Nat)
    (hinv : Inv env s FL) (size : Nat) (hv : ValidSize size) (fuel ptr : Nat)
    (h1 : simple_heap_t) (hr : allocate env pol fuel size s.heap = Except.ok (ptr, h1)) :
    ∃ FL1, Inv env ⟨h1, (ptr, size) :: s.live⟩ FL1 := by
  rcases allocate_cases env hs pol s FL hinv size hv fuel ptr h1 hr with
    ⟨L1, m, L3, _, _, _, _, _, _, _, _, h⟩ | ⟨_, _, _, _, _, _, _, h⟩
  · exact ⟨_, h⟩
  · exact ⟨_, h⟩

/-- Every reachable state satisfies the invariant. -/
theorem reachable_inv (env : Env) (hs : env.Sound) (pol : Policy) (s : Session)
    (hr : Reachable env pol s) : ∃ FL, Inv env s FL := by
  induction hr with
  | init h0 _ => exact ⟨[], inv_init env hs h0⟩
  | malloc s fuel size ptr h1 _ hv hr ih =>
    obtain ⟨FL, hinv⟩ := ih
    exact allocate_inv env hs pol s FL hinv size hv fuel ptr h1 hr
  | free s ptr size h1 _ hl hr ih =>
    obtain ⟨FL, hinv⟩ := ih
    obtain ⟨e, hinv1⟩ := inv_free env hs s FL hinv (ptr, size) hl
    simp only at e hinv1
    rw [e] at hr
    injection hr with hr
    subst hr
    exact ⟨_, hinv1⟩

/-- The allocation returns whenever the fuel covers the scan and one retry. -/
theorem allocate_total (env : Env) (hs : env.Sound) (pol : Policy) (s : Session) (FL : List Nat)
    (hinv : Inv env s FL) (size : Nat) (hv : ValidSize size) (fuel : Nat)
    (hfuel : FL.length + 5 ≤ fuel) :
    ∃ ptr h1, allocate env pol fuel size s.heap = Except.ok (ptr, h1) := by
  by_cases hex : ∃ x ∈ FL, size ≤ s.heap.mem x
  · obtain ⟨L1, m, L3, h2, _, _, _, a4, _⟩ :=
      allocate_found env pol s FL hinv size hv fuel (by omega) hex
    exact ⟨_, _, a4⟩
  · have hno : ∀ x ∈ FL, s.heap.mem x < size := by
      intro x hx
      by_contra hc
      exact hex ⟨x, hx, by omega⟩
    obtain ⟨hg, h2, rp, _, _, _, _, _, _, g7, _, g9, _⟩ :=
      allocate_grow env hs pol s FL hinv size hv fuel hfuel hno
    exact ⟨_, _, by rw [g7, g9]⟩

/-! # Concrete sessions -/

theorem demo_env_sound : demo_env.Sound := by
  refine ⟨by decide, ?_, ?_, ?_⟩
  · intro i
    show 4096 * (i + 1) ≠ 0
    omega
  · intro i j hij
    show 4096 * (i + 1) + 4096 ≤ 4096 * (j + 1) ∨ 4096 * (j + 1) + 4096 ≤ 4096 * (i + 1)
    omega
  · intro i
    show 64 + 16 ≤ 4096 * (i + 1) ∨ 4096 * (i + 1) + 4096 ≤ 64
    omega

theorem Session.malloc_reachable (env : Env) (pol : Policy) (fuel size : Nat) (s : Session)
    (hs : Reachable env pol s) (hv : ValidSize size)
    (hok : (allocate env pol fuel size s.heap).toBool = true) :
    Reachable env pol (Session.malloc env pol fuel size s) := by
  unfold Session.malloc
  cases h : allocate env pol fuel size s.heap with
  | error e => rw [h] at hok; cases hok
  | ok r =>
    obtain ⟨ptr, h1⟩ := r
    exact Reachable.malloc s fuel size ptr h1 hs hv h

theorem Session.free_reachable (env : Env) (pol : Policy) (o : Nat × Nat) (s : Session)
    (hs : Reachable env pol s) (hl : o ∈ s.live)
    (hok : (my_free s.heap o.1).toBool = true) :
    Reachable env pol (Session.free o s) := by
  unfold Session.free
  cases h : my_free s.heap o.1 with
  | error e => rw [h] at hok; cases hok
  | ok h1 => exact Reachable.free s o.1 o.2 h1 hs hl h

theorem demo_init_reachable (pol : Policy) : Reachable demo_env pol demo_init :=
  Reachable.init demo_boot rfl

theorem demo_s1_reachable (pol : Policy) : Reachable demo_env pol (demo_s1 pol) :=
  Session.malloc_reachable _ _ _ _ _ (demo_init_reachable pol) (by decide)
    (by cases pol <;> decide)

theorem demo_s2_reachable (pol : Policy) : Reachable demo_env pol (demo_s2 pol) :=
  Session.malloc_reachable _ _ _ _ _ (demo_s1_reachable pol) (by decide)
    (by cases pol <;> decide)

theorem demo_s3_reachable (pol : Policy) : Reachable demo_env pol (demo_s3 pol) :=
  Session.free_reachable _ _ _ _ (demo_s2_reachable pol) (by cases pol <;> decide)
    (by cases pol <;> decide)

/-! # C1 -/

/-- C1, as amended: in every state a session reaches, under each policy, the
byte ranges of the live objects are pairwise disjoint, the payload of a live
object is disjoint from header and payload of every other slot, live or free,
and every slot other than the dummy slot of `simple_heap` lies inside one
mapped 4096-byte page. -/
theorem C1_layout (env : Env) (hs : env.Sound) (pol : Policy) (s : Session)
    (hr : Reachable env pol s) : ∃ FL, Layout env s FL := by
  obtain ⟨FL, l1, l2, l3, l4, l5, l6, l7, l8, l9⟩ := reachable_inv env hs pol s hr
  have hl4 : ∀ a ∈ s.live, ∀ b ∈ s.live, a ≠ b →
      a.1 - 16 + 16 + a.2 ≤ b.1 - 16 ∨ b.1 - 16 + 16 + b.2 ≤ a.1 - 16 := by
    intro a ha b hb hab
    have := List.Pairwise.forall (fun _ _ h => Apart.symm h) l4
      (List.mem_map.2 ⟨a, ha, rfl⟩) (List.mem_map.2 ⟨b, hb, rfl⟩)
    by_cases e : (a.1 - header_size, a.2) = (b.1 - header_size, b.2)
    · exfalso
      have e1 := congrArg Prod.fst e
      have e2 := congrArg Prod.snd e
      simp only [header_size] at e1 e2
      have := (l9 a ha).1
      have := (l9 b hb).1
      exact hab (Prod.ext (by omega) e2)
    · exact this e
  have hnd : s.live.Nodup := by
    have h1 : (live_blocks s.live).Nodup := by
      refine List.Pairwise.imp ?_ l4
      intro a b hab e
      subst e
      unfold Apart at hab
      omega
    exact List.Nodup.of_map _ h1
  have hpair : ∀ (R : Nat × Nat → Nat × Nat → Prop),
      (∀ a ∈ s.live, ∀ b ∈ s.live, a ≠ b → R a b) → s.live.Pairwise R := by
    intro R hR
    refine List.Pairwise.imp_of_mem ?_ hnd
    intro a b ha hb hab
    exact hR a ha b hb hab
  refine ⟨FL, l1, ?_, ?_, ?_, ?_, ?_, ?_⟩
  · intro o ho
    exact ⟨(l9 o ho).1, (l9 o ho).2.1⟩
  · apply hpair
    intro a ha b hb hab
    have := hl4 a ha b hb hab
    have := (l9 a ha).1
    have := (l9 b hb).1
    omega
  · apply hpair
    intro a ha b hb hab
    have := hl4 a ha b hb hab
    have := (l9 a ha).1
    have := (l9 b hb).1
    unfold header_size
    omega
  · intro o ho x hx
    have := l5 x hx o ho
    have := (l9 o ho).1
    unfold Apart at *
    unfold header_size
    simp only at *
    omega
  · intro o ho
    obtain ⟨i, hi, h1, h2⟩ := l7 o ho
    have := (l9 o ho).1
    simp only at h1 h2
    exact ⟨i, hi, by unfold header_size; omega, by omega⟩
  · intro x hx
    obtain ⟨i, hi, h1, h2⟩ := l6 x hx
    exact ⟨i, hi, h1, h2⟩

/-- C1 at a concrete session: two allocations and one release under worst fit. -/
theorem C1_layout_witness :
    demo_env.Sound ∧ Reachable demo_env Policy.worst_fit (demo_s3 Policy.worst_fit) ∧
      ∃ FL, Layout demo_env (demo_s3 Policy.worst_fit) FL :=
  ⟨demo_env_sound, demo_s3_reachable _,
    C1_layout demo_env demo_env_sound _ _ (demo_s3_reachable _)⟩

/-- C1 as stated fails for the dummy slot: in a reachable state it is on the
free list (here as its third entry) and lies inside no mapped page. -/
theorem C1_counterexample :
    Reachable demo_env Policy.worst_fit (demo_s3 Policy.worst_fit) ∧
      IsList (demo_s3 Policy.worst_fit).heap.mem (demo_s3 Policy.worst_fit).heap.free_head
        [4096, 8152, demo_env.dummy] ∧
      ¬ ∃ i, i < (demo_s3 Policy.worst_fit).heap.mmap_calls ∧
        demo_env.mmap_from_system i ≤ demo_env.dummy ∧
        demo_env.dummy + header_size +
          (demo_s3 Policy.worst_fit).heap.mem demo_env.dummy ≤
            demo_env.mmap_from_system i + 4096 := by
  refine ⟨demo_s3_reachable _, by decide, ?_⟩
  rintro ⟨i, _, h1, _⟩
  have h2 : 4096 * (i + 1) ≤ 64 := h1
  omega

/-! # Allocation on an arbitrary well-formed free list -/

theorem allocate_on_list (env : Env) (pol : Policy) (h : simple_heap_t) (L : List Nat)
    (size fuel : Nat) (hfl : FreeList h.mem h.free_head L) (hfuel : L.length + 2 ≤ fuel)
    (hex : ∃ x ∈ L, Eligible pol h.mem size x) :
    ∃ L1 m L2 h1, L = L1 ++ m :: L2 ∧ Picks pol h.mem size L1 m L2 ∧
      scan pol h.mem size (fuel - 1) h.free_head = some (m, L1.getLastD NULL) ∧
      allocate env pol fuel size h = Except.ok (m + 16, h1) ∧
      h1.mmap_calls = h.mmap_calls ∧ h1.mem m = size ∧ h1.mem (m + 8) = NULL ∧
      (∀ x ∈ L1 ++ L2, h1.mem x = h.mem x) ∧
      (h.mem m - size ≤ 16 → IsList h1.mem h1.free_head (L1 ++ L2)) ∧
      (16 < h.mem m - size →
        IsList h1.mem h1.free_head ((m + 16 + size) :: (L1 ++ L2)) ∧
        h1.mem (m + 16 + size) = h.mem m - size - 16) := by
  obtain ⟨f, rfl⟩ : ∃ f, fuel = f + 1 := ⟨fuel - 1, by omega⟩
  obtain ⟨r, rp, hscan, hres⟩ := scan_spec pol h.mem size L h.free_head f hfl.linked (by omega)
  obtain ⟨x, hx, hxe⟩ := hex
  rcases hres with ⟨_, hnone⟩ | ⟨hr, L1, L2, e, hrp, hp⟩
  · exact absurd hxe (hnone x hx)
  · subst e
    obtain ⟨h1, t1, t2, t3, t4, t5, t6, t7⟩ :=
      take_slot_spec h size r rp L1 L2 hfl hrp hp.size_le
    have hsep := free_blocks_sep _ _ hfl.apart
    have hnd := free_blocks_nodup _ _ hfl.apart
    have hrmem : r ∈ L1 ++ r :: L2 := by simp
    have hsub : ∀ y ∈ L1 ++ L2, y ∈ L1 ++ r :: L2 := by
      intro y hy
      rcases List.mem_append.1 hy with hy | hy
      · exact List.mem_append_left _ hy
      · exact List.mem_append_right _ (List.mem_cons_of_mem _ hy)
    have hne : ∀ y ∈ L1 ++ L2, y ≠ r := by
      intro y hy e
      subst e
      exact (List.nodup_cons.1 (List.nodup_middle.1 hnd)).1 hy
    refine ⟨L1, r, L2, h1, rfl, hp, by simpa [hrp] using hscan, ?_, t2, t3, t4, ?_, t6, t7⟩
    · rw [allocate_of_scan env pol f size h r rp hscan hr]
      exact t1
    · intro y hy
      have h1y := hsep y (hsub y hy) r hrmem (hne y hy)
      unfold Apart at h1y
      simp only at h1y
      refine t5 y (by omega) ?_
      intro z hz
      by_cases e : y = z
      · omega
      · have := hsep y (hsub y hy) z (List.mem_append_left _ hz) e
        unfold Apart at this
        simp only at this
        omega

/-- The allocation on any well-formed free list with an eligible slot, for every fuel from a bound on. -/
theorem allocate_takes (env : Env) (pol : Policy) (h : simple_heap_t) (L : List Nat)
    (size : Nat) (hfl : FreeList h.mem h.free_head L)
    (hex : ∃ x ∈ L, Eligible pol h.mem size x) :
    ∃ L1 m L2 h1, Takes (allocate env pol) h L size L1 m L2 h1 ∧
      Picks pol h.mem size L1 m L2 := by
  obtain ⟨L1, m, L2, h1, a1, a2, _, a4, a5, a6, a7, a8, a9, a10⟩ :=
    allocate_on_list env pol h L size (L.length + 2) hfl (le_refl _) hex
  have hnd := free_blocks_nodup _ _ hfl.apart
  rw [a1] at hnd
  have hmnot : m ∉ L1 ++ L2 := (List.nodup_cons.1 (List.nodup_middle.1 hnd)).1
  refine ⟨L1, m, L2, h1, ⟨a1, a2.size_le, ?_, a5, ?_, ?_, a6, a7, ?_, a8⟩, a2⟩
  · intro fuel hf
    exact allocate_mono_le env pol _ fuel size h _ hf a4
  · unfold header_size
    by_cases hc : 16 < h.mem m - size
    · rw [if_pos hc]; exact (a10 hc).1
    · rw [if_neg hc]; exact a9 (by omega)
  · unfold header_size
    by_cases hc : 16 < h.mem m - size
    · rw [if_pos hc]
      intro hm
      rcases List.mem_append.1 hm with hm | hm
      · simp only [List.mem_singleton] at hm
        omega
      · exact hmnot hm
    · rw [if_neg hc]
      simpa using hmnot
  · unfold header_size
    intro hc
    exact (a10 hc).2

/-! # C2 -/

/-- C2, as amended: on every well-formed free list and for every valid size,
if some free slot has `size <= slot.size < 5000` then `best_fit_malloc` detaches
and returns the slot of least size among the slots with `slot.size >= size`,
and among several slots of that size the first in scan order. -/
theorem C2_best_fit_selects (env : Env) (h : simple_heap_t) (L : List Nat) (size : Nat)
    (hfl : FreeList h.mem h.free_head L) (hv : ValidSize size)
    (hex : ∃ x ∈ L, size ≤ h.mem x ∧ h.mem x < 5000) :
    ∃ L1 m L2 h1, Takes (best_fit_malloc env) h L size L1 m L2 h1 ∧
      (∀ x ∈ L, size ≤ h.mem x → h.mem m ≤ h.mem x) ∧
      (∀ x ∈ L1, size ≤ h.mem x → h.mem m < h.mem x) := by
  have _ := hv
  obtain ⟨L1, m, L2, h1, ht, hp⟩ := allocate_takes env Policy.best_fit h L size hfl hex
  obtain ⟨p1, _, p3, p4⟩ := hp
  refine ⟨L1, m, L2, h1, ht, ?_, p3⟩
  intro x hx hsx
  rw [ht.split] at hx
  rcases List.mem_append.1 hx with hx | hx
  · exact Nat.le_of_lt (p3 x hx hsx)
  · rcases List.mem_cons.1 hx with rfl | hx
    · exact le_refl _
    · exact p4 x hx hsx

/-- C2 on the free list of sizes 16, 64, 32: a request of 24 gets the
32-byte slot at 4208. -/
theorem C2_best_fit_selects_witness :
    FreeList demo_three.mem demo_three.free_head [4096, 4128, 4208, 64] ∧ ValidSize 24 ∧
      (∃ x ∈ [4096, 4128, 4208, 64], 24 ≤ demo_three.mem x ∧ demo_three.mem x < 5000) ∧
      (∃ L1 m L2 h1, Takes (best_fit_malloc demo_env) demo_three [4096, 4128, 4208, 64] 24
          L1 m L2 h1 ∧
        (∀ x ∈ [4096, 4128, 4208, 64], 24 ≤ demo_three.mem x →
          demo_three.mem m ≤ demo_three.mem x) ∧
        (∀ x ∈ L1, 24 ≤ demo_three.mem x → demo_three.mem m < demo_three.mem x)) ∧
      (best_fit_malloc demo_env 6 24 demo_three).toOption.map Prod.fst = some (4208 + 16) :=
  ⟨⟨by decide, by decide, by decide⟩, by decide, by decide,
    C2_best_fit_selects demo_env demo_three [4096, 4128, 4208, 64] 24
      ⟨by decide, by decide, by decide⟩ (by decide) (by decide),
    by decide⟩

/-- C2 as stated fails when the only slot that fits has size 5000: for every
fuel `best_fit_malloc` does not return that slot, and with fuel enough it maps
a page and returns an object inside it. -/
theorem C2_counterexample :
    FreeList demo_big.mem demo_big.free_head [65536, 64] ∧ ValidSize 8 ∧
      (∃ x ∈ [65536, 64], 8 ≤ demo_big.mem x) ∧
      (∀ fuel, (best_fit_malloc demo_env fuel 8 demo_big).toOption.map Prod.fst ≠
        some (65536 + header_size)) ∧
      (best_fit_malloc demo_env 6 8 demo_big).toOption.map
        (fun r => (r.1, r.2.mmap_calls)) = some (4096 + header_size, 1) := by
  refine ⟨⟨by decide, by decide, by decide⟩, by decide, by decide, ?_, by decide⟩
  intro fuel
  by_cases hf : 6 ≤ fuel
  · cases hr : best_fit_malloc demo_env 6 8 demo_big with
    | error e =>
      have : (best_fit_malloc demo_env 6 8 demo_big).toBool = true := by decide
      rw [hr] at this
      cases this
    | ok r =>
      have hp : (best_fit_malloc demo_env 6 8 demo_big).toOption.map Prod.fst = some 4112 := by
        decide
      rw [hr] at hp
      have hbig : best_fit_malloc demo_env fuel 8 demo_big = Except.ok r :=
        allocate_mono_le demo_env Policy.best_fit 6 fuel 8 demo_big r hf hr
      rw [hbig]
      intro e
      rw [hp] at e
      revert e
      decide
  · have : fuel = 0 ∨ fuel = 1 ∨ fuel = 2 ∨ fuel = 3 ∨ fuel = 4 ∨ fuel = 5 := by omega
    rcases this with rfl | rfl | rfl | rfl | rfl | rfl <;> decide

/-! # C3 -/

/-- C3: on every well-formed free list and for every valid size, if some free
slot has `slot.size >= size` then `worst_fit_malloc`, which is what `my_malloc`
calls, detaches and returns the slot of greatest size among the slots with
`slot.size >= size`, and among several slots of that size the first in scan
order. -/
theorem C3_worst_fit_selects (env : Env) (h : simple_heap_t) (L : List Nat) (size : Nat)
    (hfl : FreeList h.mem h.free_head L) (hv : ValidSize size)
    (hex : ∃ x ∈ L, size ≤ h.mem x) :
    ∃ L1 m L2 h1, Takes (worst_fit_malloc env) h L size L1 m L2 h1 ∧
      Takes (my_malloc env) h L size L1 m L2 h1 ∧
      (∀ x ∈ L, size ≤ h.mem x → h.mem x ≤ h.mem m) ∧
      (∀ x ∈ L1, size ≤ h.mem x → h.mem x < h.mem m) := by
  have hex1 : ∃ x ∈ L, Eligible Policy.worst_fit h.mem size x := by
    obtain ⟨x, hx, hxs⟩ := hex
    exact ⟨x, hx, hxs, by have := hv.1; omega⟩
  obtain ⟨L1, m, L2, h1, ht, hp⟩ := allocate_takes env Policy.worst_fit h L size hfl hex1
  obtain ⟨p1, _, p3, p4⟩ := hp
  refine ⟨L1, m, L2, h1, ht, ht, ?_, p3⟩
  intro x hx hsx
  rw [ht.split] at hx
  rcases List.mem_append.1 hx with hx | hx
  · exact Nat.le_of_lt (p3 x hx hsx)
  · rcases List.mem_cons.1 hx with rfl | hx
    · exact le_refl _
    · exact p4 x hx hsx

/-- C3 on the free list of sizes 16, 64, 32: a request of 24 gets the
64-byte slot at 4128. -/
theorem C3_worst_fit_selects_witness :
    FreeList demo_three.mem demo_three.free_head [4096, 4128, 4208, 64] ∧ ValidSize 24 ∧
      (∃ x ∈ [4096, 4128, 4208, 64], 24 ≤ demo_three.mem x) ∧
      (∃ L1 m L2 h1, Takes (worst_fit_malloc demo_env) demo_three [4096, 4128, 4208, 64] 24
          L1 m L2 h1 ∧
        Takes (my_malloc demo_env) demo_three [4096, 4128, 4208, 64] 24 L1 m L2 h1 ∧
        (∀ x ∈ [4096, 4128, 4208, 64], 24 ≤ demo_three.mem x →
          demo_three.mem x ≤ demo_three.mem m) ∧
        (∀ x ∈ L1, 24 ≤ demo_three.mem x → demo_three.mem x < demo_three.mem m)) ∧
      (my_malloc demo_env 6 24 demo_three).toOption.map Prod.fst = some (4128 + 16) :=
  ⟨⟨by decide, by decide, by decide⟩, by decide, by decide,
    C3_worst_fit_selects demo_env demo_three [4096, 4128, 4208, 64] 24
      ⟨by decide, by decide, by decide⟩ (by decide) (by decide),
    by decide⟩

/-! # C4 -/

/-- C4: on every well-formed free list and for every valid size, if some free
slot has `slot.size >= size` then `first_fit_malloc` detaches and returns the
first slot in list order whose size is at least `size`: every slot before it
is smaller than `size`. -/
theorem C4_first_fit_selects (env : Env) (h : simple_heap_t) (L : List Nat) (size : Nat)
    (hfl : FreeList h.mem h.free_head L) (hv : ValidSize size)
    (hex : ∃ x ∈ L, size ≤ h.mem x) :
    ∃ L1 m L2 h1, Takes (first_fit_malloc env) h L size L1 m L2 h1 ∧
      size ≤ h.mem m ∧ ∀ x ∈ L1, h.mem x < size := by
  have _ := hv
  obtain ⟨L1, m, L2, h1, ht, hp⟩ := allocate_takes env Policy.first_fit h L size hfl hex
  exact ⟨L1, m, L2, h1, ht, hp.1, hp.2⟩

/-- C4 on the free list of sizes 64, 16, 32 in this order: a request of 24
gets the 64-byte slot at the head, not the 32-byte slot behind it. -/
theorem C4_first_fit_selects_witness :
    FreeList demo_three_ff.mem demo_three_ff.free_head [4096, 4176, 4208, 64] ∧
      ValidSize 24 ∧
      (∃ x ∈ [4096, 4176, 4208, 64], 24 ≤ demo_three_ff.mem x) ∧
      (∃ L1 m L2 h1, Takes (first_fit_malloc demo_env) demo_three_ff
          [4096, 4176, 4208, 64] 24 L1 m L2 h1 ∧
        24 ≤ demo_three_ff.mem m ∧ ∀ x ∈ L1, demo_three_ff.mem x < 24) ∧
      demo_three_ff.mem 4096 = 64 ∧
      (first_fit_malloc demo_env 6 24 demo_three_ff).toOption.map Prod.fst =
        some (4096 + 16) :=
  ⟨⟨by decide, by decide, by decide⟩, by decide, by decide,
    C4_first_fit_selects demo_env demo_three_ff [4096, 4176, 4208, 64] 24
      ⟨by decide, by decide, by decide⟩ (by decide) (by decide),
    by decide, by decide⟩

/-! # C5 -/

/-- C5: under each policy, when the allocation for `s` takes a free slot of
size `S`: if `S - s > header_size`, the free list afterwards is one new slot at
`returned pointer + s`, of size `S - s - header_size`, followed by the other
slots; if `S - s <= header_size` it is just the other slots.  Either way the
taken slot records the size `s`. -/
theorem C5_split (env : Env) (pol : Policy) (h : simple_heap_t) (L : List Nat) (size : Nat)
    (hfl : FreeList h.mem h.free_head L) (hv : ValidSize size)
    (hex : ∃ x ∈ L, Eligible pol h.mem size x) :
    ∃ L1 m L2 h1 ptr, L = L1 ++ m :: L2 ∧ Picks pol h.mem size L1 m L2 ∧
      (∀ fuel, L.length + 2 ≤ fuel → allocate env pol fuel size h = Except.ok (ptr, h1)) ∧
      ptr = m + header_size ∧
      (h.mem m - size > header_size →
        IsList h1.mem h1.free_head ((ptr + size) :: (L1 ++ L2)) ∧
        h1.free_head = ptr + size ∧
        h1.mem (ptr + size) = h.mem m - size - header_size) ∧
      (h.mem m - size ≤ header_size → IsList h1.mem h1.free_head (L1 ++ L2)) ∧
      h1.mem m = size ∧ (∀ x ∈ L1 ++ L2, h1.mem x = h.mem x) := by
  have _ := hv
  obtain ⟨L1, m, L2, h1, ht, hp⟩ := allocate_takes env pol h L size hfl hex
  refine ⟨L1, m, L2, h1, m + header_size, ht.split, hp, ht.returns, rfl, ?_, ?_,
    ht.slot_size, ht.others⟩
  · intro hc
    have hd := ht.detached
    rw [if_pos hc] at hd
    exact ⟨hd, hd.1, ht.rest_size hc⟩
  · intro hc
    have hd := ht.detached
    rw [if_neg (by omega)] at hd
    exact hd

/-- C5 on the free list of sizes 16, 64, 32 with a request of 24 under worst
fit, where `64 - 24 > 16` and the remainder has size 24. -/
theorem C5_split_witness :
    FreeList demo_three.mem demo_three.free_head [4096, 4128, 4208, 64] ∧ ValidSize 24 ∧
      (∃ x ∈ [4096, 4128, 4208, 64], Eligible Policy.worst_fit demo_three.mem 24 x) ∧
      (∃ L1 m L2 h1 ptr, [4096, 4128, 4208, 64] = L1 ++ m :: L2 ∧
        Picks Policy.worst_fit demo_three.mem 24 L1 m L2 ∧
        (∀ fuel, [4096, 4128, 4208, 64].length + 2 ≤ fuel →
          allocate demo_env Policy.worst_fit fuel 24 demo_three = Except.ok (ptr, h1)) ∧
        ptr = m + header_size ∧
        (demo_three.mem m - 24 > header_size →
          IsList h1.mem h1.free_head ((ptr + 24) :: (L1 ++ L2)) ∧
          h1.free_head = ptr + 24 ∧
          h1.mem (ptr + 24) = demo_three.mem m - 24 - header_size) ∧
        (demo_three.mem m - 24 ≤ header_size → IsList h1.mem h1.free_head (L1 ++ L2)) ∧
        h1.mem m = 24 ∧ (∀ x ∈ L1 ++ L2, h1.mem x = demo_three.mem x)) ∧
      (allocate demo_env Policy.worst_fit 6 24 demo_three).toOption.map
        (fun r => (r.1, r.2.free_head, r.2.mem r.2.free_head)) = some (4144, 4168, 24) :=
  ⟨⟨by decide, by decide, by decide⟩, by decide,
    ⟨4128, by decide, by decide, by decide⟩,
    C5_split demo_env Policy.worst_fit demo_three [4096, 4128, 4208, 64] 24
      ⟨by decide, by decide, by decide⟩ (by decide) ⟨4128, by decide, by decide, by decide⟩,
    by decide⟩

/-! # C6 -/

/-- C6: in every reachable state and for every valid size, under each policy:
if no free slot is large enough, the allocation maps exactly one 4096-byte
page, formats it as a single free slot of size `4096 - header_size` at the head
of the free list, and the retry takes a slot and returns without mapping
another page; if a slot is large enough, no page is mapped.  So the call
returns, with at most one page mapped. -/
theorem C6_one_page (env : Env) (hs : env.Sound) (pol : Policy) (s : Session)
    (hr : Reachable env pol s) (size : Nat) (hv : ValidSize size) :
    ∃ L N, PageUse env pol s size L N := by
  obtain ⟨FL, hinv⟩ := reachable_inv env hs pol s hr
  have hdummy : ¬ size ≤ s.heap.mem env.dummy := by
    rw [hinv.dummy_size]; have := hv.1; omega
  have hfit : (∃ x ∈ FL ++ [env.dummy], size ≤ s.heap.mem x) →
      ∃ ptr h1, (∀ fuel, FL.length + 5 ≤ fuel →
        allocate env pol fuel size s.heap = Except.ok (ptr, h1)) ∧
        h1.mmap_calls = s.heap.mmap_calls := by
    rintro ⟨x, hx, hxs⟩
    have hex : ∃ x ∈ FL, size ≤ s.heap.mem x := by
      rcases List.mem_append.1 hx with hx | hx
      · exact ⟨x, hx, hxs⟩
      · simp only [List.mem_singleton] at hx
        subst hx
        exact absurd hxs hdummy
    obtain ⟨L1, m, L3, h1, _, _, _, a4, a5, _⟩ :=
      allocate_found env pol s FL hinv size hv (FL.length + 5) (by omega) hex
    exact ⟨m + 16, h1, fun fuel hf => allocate_mono_le env pol _ fuel size s.heap _ hf a4, a5⟩
  have hgrow : (∀ x ∈ FL ++ [env.dummy], s.heap.mem x < size) →
      ∃ hg ptr h1, new_region env s.heap = Except.ok hg ∧
        hg.mmap_calls = s.heap.mmap_calls + 1 ∧
        hg.free_head = env.mmap_from_system s.heap.mmap_calls ∧
        hg.mem hg.free_head = buffer_size - header_size ∧
        IsList hg.mem hg.free_head (env.mmap_from_system s.heap.mmap_calls :: (FL ++ [env.dummy])) ∧
        (∀ x ∈ FL ++ [env.dummy], hg.mem x = s.heap.mem x) ∧
        (∀ fuel, FL.length + 5 ≤ fuel →
          allocate env pol fuel size s.heap = allocate env pol (fuel - 1) size hg ∧
          allocate env pol (fuel - 1) size hg = Except.ok (ptr, h1)) ∧
        ptr = env.mmap_from_system s.heap.mmap_calls + header_size ∧
        h1.mmap_calls = s.heap.mmap_calls + 1 := by
    intro hno
    have hno1 : ∀ x ∈ FL, s.heap.mem x < size := fun x hx => hno x (List.mem_append_left _ hx)
    obtain ⟨hg, h2, rp, g1, g2, g3, g4, g5, g6, g7, g8, g9, g10, _⟩ :=
      allocate_grow env hs pol s FL hinv size hv (FL.length + 5) (le_refl _) hno1
    obtain ⟨hg1, e1, _, _, _, _, e6, _⟩ := inv_grow env hs s FL hinv
    rw [g1] at e1
    injection e1 with e1
    subst e1
    refine ⟨hg, env.mmap_from_system s.heap.mmap_calls + 16, h2, g1, g4, g3, ?_, ?_, e6, ?_,
      rfl, g10⟩
    · rw [g3, g5]; rfl
    · have hl : IsList hg.mem hg.free_head
          (env.mmap_from_system s.heap.mmap_calls :: (FL ++ [env.dummy])) := g6.linked
      exact hl
    · intro fuel hf
      obtain ⟨hg2, h3, rp2, k1, _, _, _, _, _, k7, _⟩ :=
        allocate_grow env hs pol s FL hinv size hv fuel hf hno1
      rw [g1] at k1
      injection k1 with k1
      subst k1
      exact ⟨k7, allocate_mono_le env pol _ (fuel - 1) size hg _ (by omega) g9⟩
  refine ⟨FL ++ [env.dummy], FL.length + 5, hinv.linked, ?_, hfit, hgrow⟩
  by_cases hex : ∃ x ∈ FL ++ [env.dummy], size ≤ s.heap.mem x
  · obtain ⟨ptr, h1, a, b⟩ := hfit hex
    exact ⟨ptr, h1, a, by omega⟩
  · have hno : ∀ x ∈ FL ++ [env.dummy], s.heap.mem x < size := by
      intro x hx
      by_contra hc
      exact hex ⟨x, hx, by omega⟩
    obtain ⟨hg, ptr, h1, _, _, _, _, _, _, a, _, b⟩ := hgrow hno
    refine ⟨ptr, h1, ?_, by omega⟩
    intro fuel hf
    rw [(a fuel hf).1, (a fuel hf).2]

/-- C6 at a concrete state: two 24-byte slots are free and 4000 bytes are
requested, so a second page is mapped and the object lies at its start. -/
theorem C6_one_page_witness :
    demo_env.Sound ∧ Reachable demo_env Policy.best_fit (demo_s3 Policy.best_fit) ∧
      ValidSize 4000 ∧
      (∃ L N, PageUse demo_env Policy.best_fit (demo_s3 Policy.best_fit) 4000 L N) ∧
      (demo_s3 Policy.best_fit).heap.mmap_calls = 1 ∧
      (allocate demo_env Policy.best_fit 8 4000 (demo_s3 Policy.best_fit).heap).toOption.map
        (fun r => (r.1, r.2.mmap_calls)) = some (8192 + 16, 2) :=
  ⟨demo_env_sound, demo_s3_reachable _, by decide,
    C6_one_page demo_env demo_env_sound _ _ (demo_s3_reachable _) 4000 (by decide),
    by decide, by decide⟩

theorem inv_live_not_free (env : Env) (s : Session) (FL : List Nat) (hinv : Inv env s FL) :
    ∀ o ∈ s.live, o.1 - 16 ∉ FL ++ [env.dummy] := by
  intro o ho hx
  have := hinv.free_live_apart _ hx o ho
  unfold Apart at this
  simp only at this
  omega

/-! # C7 -/

/-- C7: for every pointer `p` returned by an allocation and not yet released,
`my_free(p)` makes the slot whose header lies exactly `header_size` bytes
before `p` the new head of the free list, with the former free list behind it
unchanged: same slots, same order, same sizes.  The released slot keeps its
recorded size, nothing is merged, and the list grows by exactly one entry. -/
theorem C7_release (env : Env) (hs : env.Sound) (pol : Policy) (s : Session)
    (hr : Reachable env pol s) (p size : Nat) (hl : (p, size) ∈ s.live) :
    ∃ L h1, IsList s.heap.mem s.heap.free_head L ∧
      my_free s.heap p = Except.ok h1 ∧
      (p - header_size) + header_size = p ∧
      h1.free_head = p - header_size ∧
      IsList h1.mem h1.free_head ((p - header_size) :: L) ∧
      (∀ x ∈ L, h1.mem x = s.heap.mem x) ∧
      h1.mem (p - header_size) = s.heap.mem (p - header_size) ∧
      s.heap.mem (p - header_size) = size ∧
      ((p - header_size) :: L).length = L.length + 1 ∧
      h1.mmap_calls = s.heap.mmap_calls := by
  obtain ⟨FL, hinv⟩ := reachable_inv env hs pol s hr
  obtain ⟨e, hinv1⟩ := inv_free env hs s FL hinv (p, size) hl
  obtain ⟨a1, a2, a3, _⟩ := hinv.live_hdr (p, size) hl
  simp only at e hinv1 a1 a2 a3
  unfold header_size
  refine ⟨FL ++ [env.dummy], _, hinv.linked, e, by omega, rfl, hinv1.linked, ?_, ?_, a2,
    by simp, rfl⟩
  · intro x hx
    have := hinv.free_live_apart x hx (p, size) hl
    unfold Apart at this
    simp only at this
    exact store_other _ _ _ _ (by omega)
  · exact store_other _ _ _ _ (by omega)

/-- C7 at a concrete state: releasing the 24-byte object at 4112 puts the slot
at 4096 in front of the free list 4136, dummy. -/
theorem C7_release_witness :
    demo_env.Sound ∧ Reachable demo_env Policy.first_fit (demo_s1 Policy.first_fit) ∧
      (4112, 24) ∈ (demo_s1 Policy.first_fit).live ∧
      (∃ L h1, IsList (demo_s1 Policy.first_fit).heap.mem
          (demo_s1 Policy.first_fit).heap.free_head L ∧
        my_free (demo_s1 Policy.first_fit).heap 4112 = Except.ok h1 ∧
        (4112 - header_size) + header_size = 4112 ∧
        h1.free_head = 4112 - header_size ∧
        IsList h1.mem h1.free_head ((4112 - header_size) :: L) ∧
        (∀ x ∈ L, h1.mem x = (demo_s1 Policy.first_fit).heap.mem x) ∧
        h1.mem (4112 - header_size) =
          (demo_s1 Policy.first_fit).heap.mem (4112 - header_size) ∧
        (demo_s1 Policy.first_fit).heap.mem (4112 - header_size) = 24 ∧
        ((4112 - header_size) :: L).length = L.length + 1 ∧
        h1.mmap_calls = (demo_s1 Policy.first_fit).heap.mmap_calls) ∧
      IsList (demo_s1 Policy.first_fit).heap.mem (demo_s1 Policy.first_fit).heap.free_head
        [4136, 64] :=
  ⟨demo_env_sound, demo_s1_reachable _, by decide,
    C7_release demo_env demo_env_sound _ _ (demo_s1_reachable _) 4112 24 (by decide),
    by decide⟩

/-! # C8 -/

/-- C8, as amended: for every prior state, after `my_initialize()` the free
list holds exactly one entry, the dummy slot of `simple_heap`, of size zero and
with the none-marker as its link; no slot of nonzero size is reachable from
the free-list head. -/
theorem C8_initialize (env : Env) (hd : env.dummy ≠ NULL) (h : simple_heap_t) :
    ( my_initialize env h).free_head = env.dummy ∧
      IsList ( my_initialize env h).mem ( my_initialize env h).free_head [env.dummy] ∧
      ( my_initialize env h).mem env.dummy = 0 ∧
      ( my_initialize env h).mem (env.dummy + 8) = NULL ∧
      (∀ L, IsList ( my_initialize env h).mem ( my_initialize env h).free_head L →
        ∀ x ∈ L, ( my_initialize env h).mem x = 0) ∧
      ( my_initialize env h).mmap_calls = h.mmap_calls := by
  have hl : IsList ( my_initialize env h).mem ( my_initialize env h).free_head [env.dummy] :=
    ⟨rfl, hd, store_same _ _ _⟩
  have hz : ( my_initialize env h).mem env.dummy = 0 := by
    show store _ _ _ env.dummy = 0
    rw [store_other _ _ _ _ (by omega), store_same]
  refine ⟨rfl, hl, hz, store_same _ _ _, ?_, rfl⟩
  intro L hL x hx
  rw [IsList_unique _ _ _ _ hL hl] at hx
  simp only [List.mem_singleton] at hx
  rw [hx]
  exact hz

/-- C8 at a concrete prior state with arbitrary memory contents. -/
theorem C8_initialize_witness :
    demo_env.dummy ≠ NULL ∧
      ( my_initialize demo_env demo_boot).free_head = demo_env.dummy ∧
      IsList ( my_initialize demo_env demo_boot).mem ( my_initialize demo_env demo_boot).free_head
        [demo_env.dummy] ∧
      ( my_initialize demo_env demo_boot).mem demo_env.dummy = 0 ∧
      ( my_initialize demo_env demo_boot).mem (demo_env.dummy + 8) = NULL ∧
      (∀ L, IsList ( my_initialize demo_env demo_boot).mem
          ( my_initialize demo_env demo_boot).free_head L →
        ∀ x ∈ L, ( my_initialize demo_env demo_boot).mem x = 0) ∧
      ( my_initialize demo_env demo_boot).mmap_calls = demo_boot.mmap_calls :=
  ⟨by decide, C8_initialize demo_env (by decide) demo_boot⟩

/-- C8 as stated fails: after `my_initialize()` the free-list head is not the
none-marker but the address of the dummy slot, so the list from the head is
not empty. -/
theorem C8_counterexample :
    ( my_initialize demo_env demo_boot).free_head ≠ NULL ∧
      ¬ IsList ( my_initialize demo_env demo_boot).mem
        ( my_initialize demo_env demo_boot).free_head [] ∧
      IsList ( my_initialize demo_env demo_boot).mem
        ( my_initialize demo_env demo_boot).free_head [64] := by
  refine ⟨by decide, by decide, by decide⟩

theorem inv_live_nodup (env : Env) (s : Session) (FL : List Nat) (hinv : Inv env s FL) :
    (s.live.map Prod.fst).Nodup := by
  have h1 : ((live_blocks s.live).map Prod.fst).Nodup := by
    unfold List.Nodup
    rw [List.pairwise_map]
    refine List.Pairwise.imp ?_ hinv.live_apart
    intro a b hab e
    unfold Apart at hab
    omega
  have h2 : (live_blocks s.live).map Prod.fst = (s.live.map Prod.fst).map (fun p => p - 16) := by
    simp [live_blocks, List.map_map, header_size, Function.comp_def]
  rw [h2] at h1
  exact List.Nodup.of_map _ h1

/-! # C10 -/

/-- C10: in every reachable state, for every valid size and each policy, the
allocation returns the address right after the header of the slot its scan
chose (in the state itself, or after one page was mapped); after the call
that slot is not on the free list, its size field is the requested size, a
multiple of 8, and its link is the none-marker.  So every live object of a
reachable state has a size that is a multiple of 8 and a none link. -/
theorem C10_returned_object (env : Env) (hs : env.Sound) (pol : Policy) (s : Session)
    (hr : Reachable env pol s) (size : Nat) (hv : ValidSize size) :
    (∃ N, ∀ fuel, N ≤ fuel → ∃ ptr h1 m prev hsel L1,
      allocate env pol fuel size s.heap = Except.ok (ptr, h1) ∧
      (hsel = s.heap ∨ new_region env s.heap = Except.ok hsel) ∧
      (∃ f, scan pol hsel.mem size f hsel.free_head = some (m, prev)) ∧
      m ≠ NULL ∧ ptr = m + header_size ∧
      IsList h1.mem h1.free_head L1 ∧ m ∉ L1 ∧
      h1.mem m = size ∧ h1.mem m % 8 = 0 ∧ h1.mem (m + 8) = NULL) ∧
    (∀ o ∈ s.live, header_size ≤ o.1 ∧ s.heap.mem (o.1 - header_size) = o.2 ∧
      s.heap.mem (o.1 - header_size) % 8 = 0 ∧
      s.heap.mem (o.1 - header_size + 8) = NULL) := by
  obtain ⟨FL, hinv⟩ := reachable_inv env hs pol s hr
  constructor
  · refine ⟨FL.length + 5, ?_⟩
    intro fuel hf
    by_cases hex : ∃ x ∈ FL, size ≤ s.heap.mem x
    · obtain ⟨L1, m, L3, h1, a1, _, a3, a4, _, a6, a7, _, _, a10⟩ :=
        allocate_found env pol s FL hinv size hv fuel (by omega) hex
      have hnot := inv_live_not_free env _ _ a10 (m + 16, size) (by simp)
      refine ⟨m + 16, h1, m, _, s.heap, _, a4, Or.inl rfl, ⟨_, a3⟩, ?_, rfl, a10.linked, ?_, a6,
        ?_, a7⟩
      · exact IsSeg_ne_null _ _ _ _ hinv.linked m (by rw [a1]; simp)
      · simpa using hnot
      · rw [a6]; exact hv.2.2
    · have hno : ∀ x ∈ FL, s.heap.mem x < size := by
        intro x hx
        by_contra hc
        exact hex ⟨x, hx, by omega⟩
      obtain ⟨hg, h2, rp, g1, _, g3, _, _, _, g7, g8, g9, _, g11, g12, _, _, g15⟩ :=
        allocate_grow env hs pol s FL hinv size hv fuel hf hno
      have hnot := inv_live_not_free env _ _ g15
        (env.mmap_from_system s.heap.mmap_calls + 16, size) (by simp)
      refine ⟨_, h2, env.mmap_from_system s.heap.mmap_calls, NULL, hg, _, (by rw [g7, g9]; rfl),
        Or.inr g1, ⟨_, g8⟩, hs.page_ne _, rfl, g15.linked, ?_, g11, ?_, g12⟩
      · simpa using hnot
      · rw [g11]; exact hv.2.2
  · intro o ho
    obtain ⟨a1, a2, a3, a4⟩ := hinv.live_hdr o ho
    unfold header_size
    refine ⟨a1, a2, ?_, a3⟩
    rw [a2]
    exact a4.2.2

/-- C10 at a concrete state, with a request of 24 bytes under worst fit. -/
theorem C10_returned_object_witness :
    demo_env.Sound ∧ Reachable demo_env Policy.worst_fit (demo_s3 Policy.worst_fit) ∧
      ValidSize 24 ∧
      ((∃ N, ∀ fuel, N ≤ fuel → ∃ ptr h1 m prev hsel L1,
        allocate demo_env Policy.worst_fit fuel 24 (demo_s3 Policy.worst_fit).heap =
          Except.ok (ptr, h1) ∧
        (hsel = (demo_s3 Policy.worst_fit).heap ∨
          new_region demo_env (demo_s3 Policy.worst_fit).heap = Except.ok hsel) ∧
        (∃ f, scan Policy.worst_fit hsel.mem 24 f hsel.free_head = some (m, prev)) ∧
        m ≠ NULL ∧ ptr = m + header_size ∧
        IsList h1.mem h1.free_head L1 ∧ m ∉ L1 ∧
        h1.mem m = 24 ∧ h1.mem m % 8 = 0 ∧ h1.mem (m + 8) = NULL) ∧
      (∀ o ∈ (demo_s3 Policy.worst_fit).live, header_size ≤ o.1 ∧
        (demo_s3 Policy.worst_fit).heap.mem (o.1 - header_size) = o.2 ∧
        (demo_s3 Policy.worst_fit).heap.mem (o.1 - header_size) % 8 = 0 ∧
        (demo_s3 Policy.worst_fit).heap.mem (o.1 - header_size + 8) = NULL)) ∧
      (allocate demo_env Policy.worst_fit 8 24 (demo_s3 Policy.worst_fit).heap).toOption.map
        (fun r => (r.1, r.2.mem 4096, r.2.mem 4104, r.2.free_head)) =
          some (4096 + 16, 24, NULL, 8152) :=
  ⟨demo_env_sound, demo_s3_reachable _, by decide,
    C10_returned_object demo_env demo_env_sound _ _ (demo_s3_reachable _) 24 (by decide),
    by decide⟩

/-! # C11 -/

/-- A memory whose link at `m` leads back to `m` holds no list from `m`. -/
theorem no_list_of_self_loop (mem : Nat → Nat) (m : Nat) (hm : m ≠ NULL)
    (hloop : mem (m + 8) = m) : ∀ L, ¬ IsList mem m L := by
  intro L
  induction L with
  | nil => exact fun h => hm h
  | cons a A ih =>
    rintro ⟨e, _, h3⟩
    subst e
    rw [hloop] at h3
    exact ih h3

/-- C11, as amended: for every free list `L` and every slot `m` that is not on
`L` (its header overlaps no header of `L`) and whose next link is the
none-marker, `add_to_free_list(m)` yields the free list `m :: L`: `m` is the
new head, `m.next` is the former head, and no other slot's size or link
changes; only the link cell of `m` is written. -/
theorem C11_add_to_free_list (h : simple_heap_t) (L : List Nat) (m : Nat)
    (hl : IsList h.mem h.free_head L) (hm : m ≠ NULL)
    (hnext : h.mem (m + 8) = NULL)
    (hoff : ∀ x ∈ L, x + header_size ≤ m ∨ m + header_size ≤ x) :
    ∃ h1, add_to_free_list h m = Except.ok h1 ∧
      h1.free_head = m ∧ h1.mem (m + 8) = h.free_head ∧
      IsList h1.mem h1.free_head (m :: L) ∧
      (∀ x ∈ L, h1.mem x = h.mem x ∧ h1.mem (x + 8) = h.mem (x + 8)) ∧
      h1.mem m = h.mem m ∧
      (∀ a, a ≠ m + 8 → h1.mem a = h.mem a) ∧
      h1.mmap_calls = h.mmap_calls := by
  unfold header_size at hoff
  have hnot : m ∉ L := by
    intro hx
    have := hoff m hx
    omega
  refine ⟨_, add_to_free_list_ok h m hnext, rfl, store_same _ _ _,
    IsList_push h.mem h.free_head m L hl hm hnot, ?_, ?_, ?_, rfl⟩
  · intro x hx
    have := hoff x hx
    exact ⟨store_other _ _ _ _ (by omega), store_other _ _ _ _ (by omega)⟩
  · exact store_other _ _ _ _ (by omega)
  · intro a ha
    exact store_other _ _ _ _ ha

/-- C11 on the free list of sizes 16, 64, 32: a slot at 8192 with a none link
is put in front. -/
theorem C11_add_to_free_list_witness :
    IsList demo_loose.mem demo_loose.free_head
        [4096, 4128, 4208, 64] ∧
      (8192 : Nat) ≠ NULL ∧
      demo_loose.mem (8192 + 8) = NULL ∧
      (∀ x ∈ [4096, 4128, 4208, 64], x + header_size ≤ 8192 ∨ 8192 + header_size ≤ x) ∧
      ∃ h1, add_to_free_list demo_loose 8192 = Except.ok h1 ∧
        h1.free_head = 8192 ∧ h1.mem (8192 + 8) = 4096 ∧
        IsList h1.mem h1.free_head (8192 :: [4096, 4128, 4208, 64]) ∧
        (∀ x ∈ [4096, 4128, 4208, 64],
          h1.mem x = demo_loose.mem x ∧
          h1.mem (x + 8) = demo_loose.mem (x + 8)) ∧
        h1.mem 8192 = demo_loose.mem 8192 ∧
        (∀ a, a ≠ 8192 + 8 → h1.mem a = demo_loose.mem a) ∧
        h1.mmap_calls = demo_loose.mmap_calls :=
  ⟨by decide, by decide, by decide, by decide,
    C11_add_to_free_list demo_loose [4096, 4128, 4208, 64] 8192
      (by decide) (by decide) (by decide) (by decide)⟩

/-- C11 as stated fails for the slot that ends the list, whose next link is
the none-marker: right after `my_initialize` the list is the dummy slot alone,
`add_to_free_list(&dummy)` passes its assertion and links the dummy slot to
itself, so that no list at all starts from the new head. -/
theorem C11_counterexample :
    IsList ( my_initialize demo_env demo_boot).mem ( my_initialize demo_env demo_boot).free_head
        [demo_env.dummy] ∧
      demo_env.dummy ≠ NULL ∧
      ( my_initialize demo_env demo_boot).mem (demo_env.dummy + 8) = NULL ∧
      ∃ h1, add_to_free_list ( my_initialize demo_env demo_boot) demo_env.dummy = Except.ok h1 ∧
        h1.mem (demo_env.dummy + 8) = demo_env.dummy ∧
        ¬ IsList h1.mem h1.free_head [demo_env.dummy, demo_env.dummy] ∧
        ∀ L, ¬ IsList h1.mem h1.free_head L := by
  refine ⟨by decide, by decide, by decide, _,
    add_to_free_list_ok ( my_initialize demo_env demo_boot) demo_env.dummy (by decide),
    by decide, by decide, ?_⟩
  exact no_list_of_self_loop _ _ (by decide) (by decide)

/-! # C12 -/

theorem HeadersApart.nodup {L : List Nat} (h : HeadersApart L) : L.Nodup := by
  refine List.Pairwise.imp ?_ h
  intro a b hab e
  unfold header_size at hab
  omega

theorem HeadersApart.sep {L : List Nat} (h : HeadersApart L) :
    ∀ x ∈ L, ∀ y ∈ L, x ≠ y → x + 16 ≤ y ∨ y + 16 ≤ x := by
  intro x hx y hy hxy
  have hsym : Symmetric (fun a b : Nat => a + header_size ≤ b ∨ b + header_size ≤ a) := by
    intro a b hab
    omega
  exact List.Pairwise.forall hsym h hx hy hxy

/-- C12: for every duplicate-free free list (slots whose headers do not
overlap), every slot `m` on it and `prev` the immediate predecessor of `m` (the
none-marker when `m` is the head), `remove_from_free_list(m, prev)` yields the
list with `m` erased: the other slots keep their order and their sizes, and
`m.next` is the none-marker afterwards. -/
theorem C12_remove_from_free_list (h : simple_heap_t) (L1 L2 : List Nat) (m prev : Nat)
    (hl : IsList h.mem h.free_head (L1 ++ m :: L2))
    (hsep : HeadersApart (L1 ++ m :: L2))
    (hprev : prev = L1.getLastD NULL) :
    IsList (remove_from_free_list h m prev).mem (remove_from_free_list h m prev).free_head
        ((L1 ++ m :: L2).erase m) ∧
      (L1 ++ m :: L2).erase m = L1 ++ L2 ∧
      (remove_from_free_list h m prev).mem (m + 8) = NULL ∧
      (∀ x ∈ L1 ++ L2, (remove_from_free_list h m prev).mem x = h.mem x) ∧
      (remove_from_free_list h m prev).mem m = h.mem m ∧
      (remove_from_free_list h m prev).mmap_calls = h.mmap_calls := by
  have hnd := hsep.nodup
  have hs := hsep.sep
  have hm1 : m ∉ L1 := by
    intro hx
    have := List.nodup_append.1 hnd
    exact this.2.2 hx (List.mem_cons_self _ _)
  have herase : (L1 ++ m :: L2).erase m = L1 ++ L2 := by
    rw [List.erase_append_right _ hm1, List.erase_cons_head]
  obtain ⟨r1, r2, r3, r4⟩ := remove_from_free_list_spec h L1 L2 m prev hl hnd hprev
  have hmL : m ∈ L1 ++ m :: L2 := by simp
  have hsub : ∀ y ∈ L1 ++ L2, y ∈ L1 ++ m :: L2 := by
    intro y hy
    rcases List.mem_append.1 hy with hy | hy
    · exact List.mem_append_left _ hy
    · exact List.mem_append_right _ (List.mem_cons_of_mem _ hy)
  have hne : ∀ y ∈ L1 ++ L2, y ≠ m := by
    intro y hy e
    subst e
    exact (List.nodup_cons.1 (List.nodup_middle.1 hnd)).1 hy
  refine ⟨by rw [herase]; exact r1, herase, r2, ?_, ?_, r3⟩
  · intro x hx
    have h1 := hs x (hsub x hx) m hmL (hne x hx)
    refine r4 x (by omega) ?_
    intro y hy
    by_cases e : x = y
    · omega
    · have := hs x (hsub x hx) y (List.mem_append_left _ hy) e
      omega
  · refine r4 m (by omega) ?_
    intro y hy
    have := hs m hmL y (List.mem_append_left _ hy) (fun e => hm1 (e ▸ hy))
    omega

/-- C12 on the free list of sizes 16, 64, 32: the 64-byte slot at 4128 is
removed, with the slot at 4096 as its predecessor. -/
theorem C12_remove_from_free_list_witness :
    IsList demo_three.mem demo_three.free_head ([4096] ++ 4128 :: [4208, 64]) ∧
      HeadersApart ([4096] ++ 4128 :: [4208, 64]) ∧
      (4096 : Nat) = [4096].getLastD NULL ∧
      (IsList (remove_from_free_list demo_three 4128 4096).mem
          (remove_from_free_list demo_three 4128 4096).free_head
          (([4096] ++ 4128 :: [4208, 64]).erase 4128) ∧
        ([4096] ++ 4128 :: [4208, 64]).erase 4128 = [4096] ++ [4208, 64] ∧
        (remove_from_free_list demo_three 4128 4096).mem (4128 + 8) = NULL ∧
        (∀ x ∈ [4096] ++ [4208, 64],
          (remove_from_free_list demo_three 4128 4096).mem x = demo_three.mem x) ∧
        (remove_from_free_list demo_three 4128 4096).mem 4128 = demo_three.mem 4128 ∧
        (remove_from_free_list demo_three 4128 4096).mmap_calls = demo_three.mmap_calls) :=
  ⟨by decide, by decide, by decide,
    C12_remove_from_free_list demo_three [4096] [4208, 64] 4128 4096
      (by decide) (by decide) (by decide)⟩

/-- A segment through at least one slot starts at a non-null address. -/
theorem IsSeg_start_ne_null (mem : Nat → Nat) (A : List Nat) (d p q : Nat)
    (h : IsSeg mem p (A ++ [d]) q) : p ≠ NULL := by
  cases A with
  | nil =>
    obtain ⟨e, hd, _⟩ := h
    rw [e]; exact hd
  | cons a A =>
    obtain ⟨e, ha, _⟩ := h
    rw [e]; exact ha

/-- Every slot of a list but the last has a non-null link. -/
theorem IsSeg_next_ne_null (mem : Nat → Nat) (A : List Nat) (d p q : Nat)
    (h : IsSeg mem p (A ++ [d]) q) : ∀ x ∈ A, mem (x + 8) ≠ NULL := by
  induction A generalizing p with
  | nil => simp
  | cons a A ih =>
    obtain ⟨_, _, h3⟩ := h
    intro x hx
    rcases List.mem_cons.1 hx with rfl | hx
    · exact IsSeg_start_ne_null mem A d _ q h3
    · exact ih _ h3 x hx

theorem add_to_free_list_assert (h : simple_heap_t) (m : Nat) (hn : h.mem (m + 8) ≠ NULL) :
    add_to_free_list h m = Except.error Fault.assert_failed := by
  simp [add_to_free_list, hn]

/-! # C13 -/

/-- C13, as amended: a release of a pointer whose slot is already on the free
list is detected.  In every reachable state, for every pointer `p` whose slot
is on the free list (the dummy slot apart), the next link of the slot is not
the none-marker, so `my_free(p)` fails the assertion of `add_to_free_list` and
links nothing. -/
theorem C13_double_release (env : Env) (hs : env.Sound) (pol : Policy) (s : Session)
    (hr : Reachable env pol s) :
    ∃ FL, IsList s.heap.mem s.heap.free_head (FL ++ [env.dummy]) ∧
      ∀ p, p - header_size ∈ FL →
        s.heap.mem (p - header_size + 8) ≠ NULL ∧
        my_free s.heap p = Except.error Fault.assert_failed := by
  obtain ⟨FL, hinv⟩ := reachable_inv env hs pol s hr
  refine ⟨FL, hinv.linked, ?_⟩
  intro p hp
  have hn := IsSeg_next_ne_null _ _ _ _ _ hinv.linked _ hp
  exact ⟨hn, add_to_free_list_assert s.heap _ hn⟩

/-- C13 at a concrete state: the object at 4112 was released and its slot
4096 heads the free list; a second release fails the assertion. -/
theorem C13_double_release_witness :
    demo_env.Sound ∧ Reachable demo_env Policy.worst_fit (demo_s3 Policy.worst_fit) ∧
      IsList (demo_s3 Policy.worst_fit).heap.mem (demo_s3 Policy.worst_fit).heap.free_head
        [4096, 8152, 64] ∧
      ∃ FL, IsList (demo_s3 Policy.worst_fit).heap.mem
          (demo_s3 Policy.worst_fit).heap.free_head (FL ++ [demo_env.dummy]) ∧
        ∀ p, p - header_size ∈ FL →
          (demo_s3 Policy.worst_fit).heap.mem (p - header_size + 8) ≠ NULL ∧
          my_free (demo_s3 Policy.worst_fit).heap p = Except.error Fault.assert_failed :=
  ⟨demo_env_sound, demo_s3_reachable _, by decide,
    C13_double_release demo_env demo_env_sound _ _ (demo_s3_reachable _)⟩

/-- C13 as stated fails: in the reachable state where the object at 4112 has
been released, and is on the free list as the slot 4096, `my_free(4112)` does
not complete; the assertion of `add_to_free_list` fails. -/
theorem C13_counterexample :
    Reachable demo_env Policy.worst_fit (demo_s3 Policy.worst_fit) ∧
      (4112, 24) ∈ (demo_s2 Policy.worst_fit).live ∧
      (4112, 24) ∉ (demo_s3 Policy.worst_fit).live ∧
      IsList (demo_s3 Policy.worst_fit).heap.mem (demo_s3 Policy.worst_fit).heap.free_head
        [4112 - header_size, 8152, 64] ∧
      my_free (demo_s3 Policy.worst_fit).heap 4112 = Except.error Fault.assert_failed := by
  refine ⟨demo_s3_reachable _, by decide, by decide, by decide, ?_⟩
  exact add_to_free_list_assert _ _ (by decide)

/-- A list in memory has no slot twice: the links are acyclic. -/
theorem IsList_nodup (mem : Nat → Nat) (L : List Nat) (p : Nat) (h : IsList mem p L) :
    L.Nodup := by
  induction L generalizing p with
  | nil => exact List.nodup_nil
  | cons a A ih =>
    obtain ⟨_, _, h3⟩ := h
    refine List.nodup_cons.2 ⟨?_, ih _ h3⟩
    intro ha
    obtain ⟨B, C, e⟩ := List.append_of_mem ha
    have h4 : IsSeg mem (mem (a + 8)) (B ++ a :: C) NULL := by rw [← e]; exact h3
    rw [IsSeg_append] at h4
    obtain ⟨r, _, _, _, h5⟩ := h4
    have := IsList_unique mem A C _ h3 h5
    have hlen := congrArg List.length e
    rw [this] at hlen
    simp at hlen
    omega

/-- C15: in every reachable state every slot on the free list has a size that
is a multiple of 8 and at most `4096 - header_size`, hence below the bound
5000 that the best-fit scan starts from; so whenever some slot is large
enough for a request, the best-fit scan selects a slot, one of least size
among the slots that are large enough. -/
theorem C15_free_sizes (env : Env) (hs : env.Sound) (pol : Policy) (s : Session)
    (hr : Reachable env pol s) :
    ∃ L, IsList s.heap.mem s.heap.free_head L ∧
      (∀ x ∈ L, s.heap.mem x % 8 = 0 ∧ s.heap.mem x ≤ buffer_size - header_size ∧
        s.heap.mem x < 5000) ∧
      (∀ size x, x ∈ L → size ≤ s.heap.mem x → ∀ fuel, L.length < fuel →
        ∃ m prev, best_fit_scan s.heap.mem size fuel NULL NULL s.heap.free_head NULL 5000 =
            some (m, prev) ∧
          m ≠ NULL ∧ m ∈ L ∧ size ≤ s.heap.mem m ∧
          ∀ y ∈ L, size ≤ s.heap.mem y → s.heap.mem m ≤ s.heap.mem y) := by
  obtain ⟨FL, hinv⟩ := reachable_inv env hs pol s hr
  have hsz : ∀ x ∈ FL ++ [env.dummy], s.heap.mem x % 8 = 0 ∧ s.heap.mem x ≤ 4080 := by
    intro x hx
    rcases List.mem_append.1 hx with hx | hx
    · have := hinv.free_size x hx
      exact ⟨this.1, this.2.2⟩
    · simp only [List.mem_singleton] at hx
      rw [hx, hinv.dummy_size]
      omega
  refine ⟨FL ++ [env.dummy], hinv.linked, ?_, ?_⟩
  · intro x hx
    have := hsz x hx
    unfold buffer_size header_size
    omega
  · intro size x hx hxs fuel hf
    obtain ⟨r, rp, hscan, hres⟩ := scan_spec Policy.best_fit s.heap.mem size
      (FL ++ [env.dummy]) s.heap.free_head fuel hinv.linked hf
    rcases hres with ⟨_, hnone⟩ | ⟨hrn, L1, L2, e, _, p1, _, p3, p4⟩
    · exfalso
      have := hsz x hx
      exact hnone x hx ⟨hxs, by omega⟩
    · refine ⟨r, rp, hscan, hrn, by rw [e]; simp, p1, ?_⟩
      intro y hy hys
      rw [e] at hy
      rcases List.mem_append.1 hy with hy | hy
      · exact Nat.le_of_lt (p3 y hy hys)
      · rcases List.mem_cons.1 hy with rfl | hy
        · exact le_refl _
        · exact p4 y hy hys

/-- C15 at a concrete state reached under best fit, whose free list holds two
24-byte slots and the dummy slot. -/
theorem C15_free_sizes_witness :
    demo_env.Sound ∧ Reachable demo_env Policy.best_fit (demo_s3 Policy.best_fit) ∧
      IsList (demo_s3 Policy.best_fit).heap.mem (demo_s3 Policy.best_fit).heap.free_head
        [4096, 8152, 64] ∧
      ∃ L, IsList (demo_s3 Policy.best_fit).heap.mem
          (demo_s3 Policy.best_fit).heap.free_head L ∧
        (∀ x ∈ L, (demo_s3 Policy.best_fit).heap.mem x % 8 = 0 ∧
          (demo_s3 Policy.best_fit).heap.mem x ≤ buffer_size - header_size ∧
          (demo_s3 Policy.best_fit).heap.mem x < 5000) ∧
        (∀ size x, x ∈ L → size ≤ (demo_s3 Policy.best_fit).heap.mem x →
          ∀ fuel, L.length < fuel →
          ∃ m prev, best_fit_scan (demo_s3 Policy.best_fit).heap.mem size fuel NULL NULL
              (demo_s3 Policy.best_fit).heap.free_head NULL 5000 = some (m, prev) ∧
            m ≠ NULL ∧ m ∈ L ∧ size ≤ (demo_s3 Policy.best_fit).heap.mem m ∧
            ∀ y ∈ L, size ≤ (demo_s3 Policy.best_fit).heap.mem y →
              (demo_s3 Policy.best_fit).heap.mem m ≤ (demo_s3 Policy.best_fit).heap.mem y) :=
  ⟨demo_env_sound, demo_s3_reachable _, by decide,
    C15_free_sizes demo_env demo_env_sound _ _ (demo_s3_reachable _)⟩

/-- The assertion for the slot of a fresh page holds in every state: its link
was set to the none-marker just before the call. -/
theorem new_region_ok (env : Env) (h : simple_heap_t) : ∃ h1, new_region env h = Except.ok h1 :=
  ⟨_, add_to_free_list_ok _ _ (store_same _ _ _)⟩

/-- The assertion for the split remainder holds in every state: its link was
set to the none-marker just before the call. -/
theorem take_slot_ok (h : simple_heap_t) (size m prev : Nat) :
    ∃ r, take_slot h size m prev = Except.ok r := by
  unfold take_slot
  simp only
  split
  · rw [add_to_free_list_ok _ _ (store_same _ _ _)]
    exact ⟨_, rfl⟩
  · exact ⟨_, rfl⟩

/-- No allocation, in any state and with any fuel, ends in a failed assertion. -/
theorem allocate_no_assert (env : Env) (pol : Policy) (fuel size : Nat) (h : simple_heap_t) :
    allocate env pol fuel size h ≠ Except.error Fault.assert_failed := by
  induction fuel generalizing h with
  | zero =>
    rw [allocate_zero]
    intro e
    cases e
  | succ n ih =>
    rw [allocate_succ]
    cases hsc : scan pol h.mem size n h.free_head with
    | none =>
      intro e
      cases e
    | some mp =>
      obtain ⟨m, p⟩ := mp
      simp only
      by_cases hm : m = NULL
      · rw [if_pos hm]
        obtain ⟨h1, hnew⟩ := new_region_ok env h
        rw [hnew]
        exact ih h1
      · rw [if_neg hm]
        obtain ⟨r, hr⟩ := take_slot_ok h size m p
        rw [hr]
        intro e
        cases e

/-! # C16 -/

/-- C16: in every execution from `my_initialize` that respects the contract,
the assertion of `add_to_free_list` holds at each of its call sites: for the
slot of a fresh page and for the split remainder (in any state), and for the
slot that `my_free` passes for a live pointer.  So no allocation ends in a
failed assertion, every release of a live pointer returns, and every
allocation of a valid size returns. -/
theorem C16_assertion_holds (env : Env) (hs : env.Sound) (pol : Policy) (s : Session)
    (hr : Reachable env pol s) :
    (∀ h, ∃ h1, new_region env h = Except.ok h1) ∧
      (∀ h size m prev, ∃ r, take_slot h size m prev = Except.ok r) ∧
      (∀ size fuel, allocate env pol fuel size s.heap ≠ Except.error Fault.assert_failed) ∧
      (∀ o ∈ s.live, s.heap.mem (o.1 - header_size + 8) = NULL ∧
        ∃ h1, my_free s.heap o.1 = Except.ok h1) ∧
      (∀ size, ValidSize size → ∃ N, ∀ fuel, N ≤ fuel →
        ∃ r, allocate env pol fuel size s.heap = Except.ok r) := by
  obtain ⟨FL, hinv⟩ := reachable_inv env hs pol s hr
  refine ⟨new_region_ok env, take_slot_ok, fun size fuel => allocate_no_assert env pol fuel size _,
    ?_, ?_⟩
  · intro o ho
    have h3 := (hinv.live_hdr o ho).2.2.1
    exact ⟨h3, _, (inv_free env hs s FL hinv o ho).1⟩
  · intro size hv
    refine ⟨FL.length + 5, ?_⟩
    intro fuel hf
    obtain ⟨ptr, h1, e⟩ := allocate_total env hs pol s FL hinv size hv fuel hf
    exact ⟨_, e⟩

/-- C16 at a concrete state with one live object. -/
theorem C16_assertion_holds_witness :
    demo_env.Sound ∧ Reachable demo_env Policy.first_fit (demo_s3 Policy.first_fit) ∧
      (demo_s3 Policy.first_fit).live = [(4152, 4000)] ∧
      ((∀ h, ∃ h1, new_region demo_env h = Except.ok h1) ∧
        (∀ h size m prev, ∃ r, take_slot h size m prev = Except.ok r) ∧
        (∀ size fuel, allocate demo_env Policy.first_fit fuel size
          (demo_s3 Policy.first_fit).heap ≠ Except.error Fault.assert_failed) ∧
        (∀ o ∈ (demo_s3 Policy.first_fit).live,
          (demo_s3 Policy.first_fit).heap.mem (o.1 - header_size + 8) = NULL ∧
          ∃ h1, my_free (demo_s3 Policy.first_fit).heap o.1 = Except.ok h1) ∧
        (∀ size, ValidSize size → ∃ N, ∀ fuel, N ≤ fuel →
          ∃ r, allocate demo_env Policy.first_fit fuel size (demo_s3 Policy.first_fit).heap =
            Except.ok r)) :=
  ⟨demo_env_sound, demo_s3_reachable _, by decide,
    C16_assertion_holds demo_env demo_env_sound _ _ (demo_s3_reachable _)⟩

/-! # C17 -/

/-- C17: under first fit and under best fit, in every reachable state and for
every valid size `s`: when `p = allocate(s)` is followed at once by
`release(p)`, the next `allocate(s)` returns the same address `p`, maps no
page, splits off no remainder, and leaves the free list exactly as it was just
before the release: same head, same slots in the same order, same sizes. -/
theorem C17_round_trip (env : Env) (hs : env.Sound) (pol : Policy)
    (hpol : pol = Policy.first_fit ∨ pol = Policy.best_fit) (s : Session)
    (hr : Reachable env pol s) (size : Nat) (hv : ValidSize size) (fuel p : Nat)
    (h1 : simple_heap_t) (ha : allocate env pol fuel size s.heap = Except.ok (p, h1)) :
    ∃ h2 h3 L N, my_free h1 p = Except.ok h2 ∧
      IsList h1.mem h1.free_head L ∧
      (∀ f, N ≤ f → allocate env pol f size h2 = Except.ok (p, h3)) ∧
      h3.mmap_calls = h1.mmap_calls ∧
      h3.free_head = h1.free_head ∧
      IsList h3.mem h3.free_head L ∧
      (∀ x ∈ L, h3.mem x = h1.mem x) := by
  obtain ⟨FL, hinv⟩ := reachable_inv env hs pol s hr
  obtain ⟨FL1, hinv1⟩ := allocate_inv env hs pol s FL hinv size hv fuel p h1 ha
  obtain ⟨e2, hinv2⟩ := inv_free env hs _ FL1 hinv1 (p, size) (List.mem_cons_self _ _)
  simp only [List.erase_cons_head] at e2 hinv2
  obtain ⟨b1, b2, _, _⟩ := hinv1.live_hdr (p, size) (List.mem_cons_self _ _)
  simp only at b1 b2
  generalize hh2 : (⟨store h1.mem (p - 16 + 8) h1.free_head, p - 16, h1.mmap_calls⟩ :
    simple_heap_t) = h2 at e2 hinv2
  have hsame2 : ∀ x, x ≠ p - 16 + 8 → h2.mem x = h1.mem x := by
    intro x hx
    rw [← hh2]
    exact store_other _ _ _ _ hx
  have hcalls2 : h2.mmap_calls = h1.mmap_calls := by rw [← hh2]
  have hsz2 : h2.mem (p - 16) = size := by
    rw [hsame2 _ (by omega)]; exact b2
  obtain ⟨L1, m, L3, h3, a1, a2, _, a4, a5, _, _, _, a9, a10⟩ :=
    allocate_found env pol ⟨h2, s.live⟩ ((p - 16) :: FL1) hinv2 size hv (FL1.length + 4)
      (by simp) ⟨p - 16, by simp, by simp only; omega⟩
  simp only at a2 a4 a5 a9 a10
  have hL1 : L1 = [] ∧ m = p - 16 ∧ L3 = FL1 := by
    cases L1 with
    | nil =>
      simp only [List.nil_append, List.cons.injEq] at a1
      exact ⟨rfl, a1.1.symm, a1.2.symm⟩
    | cons b B =>
      exfalso
      simp only [List.cons_append, List.cons.injEq] at a1
      have hb : b = p - 16 := a1.1.symm
      have hsz := a2.size_le
      rcases hpol with rfl | rfl
      · have := a2.2 b (by simp)
        rw [hb] at this
        omega
      · have := a2.2.2.1 b (by simp) (by rw [hb]; omega)
        rw [hb] at this
        omega
  obtain ⟨rfl, rfl, rfl⟩ := hL1
  have hnorem : ¬ 16 < h2.mem (p - 16) - size := by rw [hsz2]; omega
  rw [if_neg hnorem] at a10
  simp only [List.nil_append] at a9 a10
  have hp : p - 16 + 16 = p := by omega
  rw [hp] at a4 a10
  have hl3 : IsList h3.mem h3.free_head (L3 ++ [env.dummy]) := a10.linked
  have hl1 : IsList h1.mem h1.free_head (L3 ++ [env.dummy]) := hinv1.linked
  refine ⟨h2, h3, L3 ++ [env.dummy], L3.length + 4, ?_, hl1, ?_, ?_, ?_, hl3, ?_⟩
  · unfold my_free header_size at e2 ⊢
    exact e2
  · intro f hf
    exact allocate_mono_le env pol _ f size h2 _ hf a4
  · rw [a5, hcalls2]
  · rw [IsSeg_head _ _ _ _ hl3, IsSeg_head _ _ _ _ hl1]
  · intro x hx
    rcases List.mem_append.1 hx with hx | hx
    · rw [a9 x hx]
      have := hinv1.free_live_apart x (List.mem_append_left _ hx) (p, size)
        (List.mem_cons_self _ _)
      unfold Apart at this
      simp only at this
      exact hsame2 x (by omega)
    · simp only [List.mem_singleton] at hx
      rw [hx]
      have e3 : h3.mem env.dummy = 0 := a10.dummy_size
      have e1 : h1.mem env.dummy = 0 := hinv1.dummy_size
      rw [e3, e1]

/-- C17 at a concrete state under first fit: `allocate(24)` splits the slot at
4136 and returns 4152; after `release(4152)` the next `allocate(24)` returns
4152 again and the free list is 4176, dummy as before the release. -/
theorem C17_round_trip_witness :
    demo_env.Sound ∧ (Policy.first_fit = Policy.first_fit ∨ Policy.first_fit = Policy.best_fit) ∧
      Reachable demo_env Policy.first_fit (demo_s1 Policy.first_fit) ∧ ValidSize 24 ∧
      allocate demo_env Policy.first_fit 10 24 (demo_s1 Policy.first_fit).heap =
        Except.ok (4152, (demo_s4 Policy.first_fit).heap) ∧
      IsList (demo_s4 Policy.first_fit).heap.mem (demo_s4 Policy.first_fit).heap.free_head
        [4176, 64] ∧
      ∃ h2 h3 L N, my_free (demo_s4 Policy.first_fit).heap 4152 = Except.ok h2 ∧
        IsList (demo_s4 Policy.first_fit).heap.mem (demo_s4 Policy.first_fit).heap.free_head L ∧
        (∀ f, N ≤ f → allocate demo_env Policy.first_fit f 24 h2 = Except.ok (4152, h3)) ∧
        h3.mmap_calls = (demo_s4 Policy.first_fit).heap.mmap_calls ∧
        h3.free_head = (demo_s4 Policy.first_fit).heap.free_head ∧
        IsList h3.mem h3.free_head L ∧
        (∀ x ∈ L, h3.mem x = (demo_s4 Policy.first_fit).heap.mem x) :=
  ⟨demo_env_sound, Or.inl rfl, demo_s1_reachable _, by decide, rfl, by decide,
    C17_round_trip demo_env demo_env_sound Policy.first_fit (Or.inl rfl) _
      (demo_s1_reachable _) 24 (by decide) 10 4152 (demo_s4 Policy.first_fit).heap rfl⟩

theorem first_fit_scan_fits (mem : Nat → Nat) (size fuel a b r rp : Nat)
    (h : first_fit_scan mem size fuel a b = some (r, rp)) (hr : r ≠ NULL) : size ≤ mem r := by
  induction fuel generalizing a b with
  | zero => simp [first_fit_scan] at h
  | succ n ih =>
    rw [first_fit_scan] at h
    by_cases hc : a ≠ NULL ∧ mem a < size
    · rw [if_pos hc] at h
      exact ih _ _ h
    · rw [if_neg hc] at h
      injection h with h
      injection h with e1 e2
      subst e1
      by_contra hlt
      exact hc ⟨hr, by omega⟩

theorem best_fit_scan_fits (mem : Nat → Nat) (size fuel a b c d e r rp : Nat)
    (h : best_fit_scan mem size fuel a b c d e = some (r, rp))
    (ha : a ≠ NULL → size ≤ mem a) (hr : r ≠ NULL) : size ≤ mem r := by
  induction fuel generalizing a b c d e with
  | zero => simp [best_fit_scan] at h
  | succ n ih =>
    rw [best_fit_scan] at h
    by_cases hc : c ≠ NULL
    · rw [if_pos hc] at h
      by_cases hd : mem c ≥ size ∧ mem c < e
      · rw [if_pos hd] at h
        exact ih _ _ _ _ _ h (fun _ => hd.1)
      · rw [if_neg hd] at h
        exact ih _ _ _ _ _ h ha
    · rw [if_neg hc] at h
      injection h with h
      injection h with e1 e2
      subst e1
      exact ha hr

theorem worst_fit_scan_fits (mem : Nat → Nat) (size fuel a b c d e r rp : Nat)
    (h : worst_fit_scan mem size fuel a b c d e = some (r, rp))
    (ha : a ≠ NULL → size ≤ mem a) (hr : r ≠ NULL) : size ≤ mem r := by
  induction fuel generalizing a b c d e with
  | zero => simp [worst_fit_scan] at h
  | succ n ih =>
    rw [worst_fit_scan] at h
    by_cases hc : c ≠ NULL
    · rw [if_pos hc] at h
      by_cases hd : mem c ≥ size ∧ mem c > e
      · rw [if_pos hd] at h
        exact ih _ _ _ _ _ h (fun _ => hd.1)
      · rw [if_neg hd] at h
        exact ih _ _ _ _ _ h ha
    · rw [if_neg hc] at h
      injection h with h
      injection h with e1 e2
      subst e1
      exact ha hr

/-- In any memory, a slot a scan selects is large enough for the request. -/
theorem scan_fits (pol : Policy) (mem : Nat → Nat) (size fuel head r rp : Nat)
    (h : scan pol mem size fuel head = some (r, rp)) (hr : r ≠ NULL) : size ≤ mem r := by
  cases pol
  · exact first_fit_scan_fits _ _ _ _ _ _ _ h hr
  · exact best_fit_scan_fits _ _ _ _ _ _ _ _ _ _ h (fun hc => absurd rfl hc) hr
  · exact worst_fit_scan_fits _ _ _ _ _ _ _ _ _ _ h (fun hc => absurd rfl hc) hr

/-! # C18 -/

/-- The last slot of a list has the none-marker as its link. -/
theorem IsList_last_next (mem : Nat → Nat) (A : List Nat) (d p : Nat)
    (h : IsList mem p (A ++ [d])) : mem (d + 8) = NULL := by
  unfold IsList at h
  rw [IsSeg_append] at h
  obtain ⟨r, _, _, _, h3⟩ := h
  exact h3

/-! # C19 -/

/-- C19: in every reachable state the zero-size dummy slot of `simple_heap` is
on the free list exactly once, as its last element; no scan for a request of
at least 8 bytes selects it and no allocation returns it, whatever the policy,
and no live object is the dummy slot.  Hence every other slot on the free list
has a next link that is not the none-marker. -/
theorem C19_dummy_last (env : Env) (hs : env.Sound) (pol : Policy) (s : Session)
    (hr : Reachable env pol s) :
    ∃ FL, IsList s.heap.mem s.heap.free_head (FL ++ [env.dummy]) ∧
      env.dummy ∉ FL ∧ (FL ++ [env.dummy]).count env.dummy = 1 ∧
      s.heap.mem env.dummy = 0 ∧ s.heap.mem (env.dummy + 8) = NULL ∧
      (∀ x ∈ FL, s.heap.mem (x + 8) ≠ NULL) ∧
      (∀ pol1 size fuel m prev, 8 ≤ size →
        scan pol1 s.heap.mem size fuel s.heap.free_head = some (m, prev) → m ≠ env.dummy) ∧
      (∀ pol1 size fuel ptr h1, ValidSize size →
        allocate env pol1 fuel size s.heap = Except.ok (ptr, h1) →
        ptr ≠ env.dummy + header_size) ∧
      (∀ o ∈ s.live, o.1 ≠ env.dummy + header_size) := by
  obtain ⟨FL, hinv⟩ := reachable_inv env hs pol s hr
  have hnd : (FL ++ [env.dummy]).Nodup := IsList_nodup _ _ _ hinv.linked
  have hnot : env.dummy ∉ FL := by
    intro hx
    exact (List.nodup_append.1 hnd).2.2 hx (List.mem_singleton_self _)
  refine ⟨FL, hinv.linked, hnot, List.count_eq_one_of_mem hnd (by simp), hinv.dummy_size,
    IsList_last_next _ _ _ _ hinv.linked, IsSeg_next_ne_null _ _ _ _ _ hinv.linked, ?_, ?_, ?_⟩
  · intro pol1 size fuel m prev hsz hscan e
    subst e
    have := scan_fits pol1 _ _ _ _ _ _ hscan hs.dummy_ne
    rw [hinv.dummy_size] at this
    omega
  · intro pol1 size fuel ptr h1 hv ha
    unfold header_size
    rcases allocate_cases env hs pol1 s FL hinv size hv fuel ptr h1 ha with
      ⟨L1, m, L3, e, _, hp, _⟩ | ⟨_, hp, _⟩
    · intro hc
      have : m = env.dummy := by omega
      apply hnot
      rw [e, ← this]
      simp
    · have := hs.dummy_disj s.heap.mmap_calls
      omega
  · intro o ho
    have h1 := inv_live_not_free env s FL hinv o ho
    have h2 := (hinv.live_hdr o ho).1
    unfold header_size
    intro hc
    apply h1
    rw [hc]
    simp

/-- C19 at a concrete state: the free list is 4096, 8152, dummy. -/
theorem C19_dummy_last_witness :
    demo_env.Sound ∧ Reachable demo_env Policy.worst_fit (demo_s3 Policy.worst_fit) ∧
      IsList (demo_s3 Policy.worst_fit).heap.mem (demo_s3 Policy.worst_fit).heap.free_head
        ([4096, 8152] ++ [demo_env.dummy]) ∧
      ∃ FL, IsList (demo_s3 Policy.worst_fit).heap.mem
          (demo_s3 Policy.worst_fit).heap.free_head (FL ++ [demo_env.dummy]) ∧
        demo_env.dummy ∉ FL ∧ (FL ++ [demo_env.dummy]).count demo_env.dummy = 1 ∧
        (demo_s3 Policy.worst_fit).heap.mem demo_env.dummy = 0 ∧
        (demo_s3 Policy.worst_fit).heap.mem (demo_env.dummy + 8) = NULL ∧
        (∀ x ∈ FL, (demo_s3 Policy.worst_fit).heap.mem (x + 8) ≠ NULL) ∧
        (∀ pol1 size fuel m prev, 8 ≤ size →
          scan pol1 (demo_s3 Policy.worst_fit).heap.mem size fuel
            (demo_s3 Policy.worst_fit).heap.free_head = some (m, prev) → m ≠ demo_env.dummy) ∧
        (∀ pol1 size fuel ptr h1, ValidSize size →
          allocate demo_env pol1 fuel size (demo_s3 Policy.worst_fit).heap = Except.ok (ptr, h1) →
          ptr ≠ demo_env.dummy + header_size) ∧
        (∀ o ∈ (demo_s3 Policy.worst_fit).live, o.1 ≠ demo_env.dummy + header_size) :=
  ⟨demo_env_sound, demo_s3_reachable _, by decide,
    C19_dummy_last demo_env demo_env_sound _ _ (demo_s3_reachable _)⟩

theorem created_slots_succ (env : Env) (pol : Policy) (fuel size : Nat) (h : simple_heap_t) :
    created_slots env pol (fuel + 1) size h =
      match scan pol h.mem size fuel h.free_head with
      | none => []
      | some (metadata, _) =>
        if metadata = NULL then
          match new_region env h with
          | Except.error _ => []
          | Except.ok h1 =>
            env.mmap_from_system h.mmap_calls :: created_slots env pol fuel size h1
        else if size_t_sub (h.mem metadata) size > header_size then
          [metadata + header_size + size]
        else
          [] := rfl

/-- More fuel does not change the slots a returning call formats. -/
theorem created_slots_mono (env : Env) (pol : Policy) (fuel size : Nat) (h : simple_heap_t)
    (r : Nat × simple_heap_t) (hr : allocate env pol fuel size h = Except.ok r) :
    created_slots env pol (fuel + 1) size h = created_slots env pol fuel size h := by
  induction fuel generalizing h with
  | zero => rw [allocate_zero] at hr; cases hr
  | succ n ih =>
    rw [allocate_succ] at hr
    rw [created_slots_succ env pol (n + 1), created_slots_succ env pol n]
    cases hsc : scan pol h.mem size n h.free_head with
    | none => rw [hsc] at hr; cases hr
    | some mp =>
      obtain ⟨m, p⟩ := mp
      rw [hsc] at hr
      rw [scan_mono pol _ _ _ _ _ hsc]
      simp only at hr ⊢
      by_cases hm : m = NULL
      · rw [if_pos hm] at hr
        simp only [if_pos hm]
        cases hnew : new_region env h with
        | error e => rfl
        | ok h1 =>
          rw [hnew] at hr
          simp only at hr ⊢
          rw [ih h1 hr]
      · simp only [if_neg hm]

theorem created_slots_mono_le (env : Env) (pol : Policy) (fuel fuel1 size : Nat)
    (h : simple_heap_t) (r : Nat × simple_heap_t) (hle : fuel ≤ fuel1)
    (hr : allocate env pol fuel size h = Except.ok r) :
    created_slots env pol fuel1 size h = created_slots env pol fuel size h := by
  induction hle with
  | refl => rfl
  | step hle ih =>
    rw [created_slots_mono env pol _ size h r (allocate_mono_le env pol _ _ size h r hle hr)]
    exact ih

/-- The slots formatted when the scan selects a slot: the remainder, if any. -/
theorem created_slots_of_scan (env : Env) (pol : Policy) (fuel size : Nat) (h : simple_heap_t)
    (m prev : Nat) (hscan : scan pol h.mem size fuel h.free_head = some (m, prev))
    (hm : m ≠ NULL) (hfit : size ≤ h.mem m) (hty : h.mem m < size_t_mod) :
    created_slots env pol (fuel + 1) size h =
      if 16 < h.mem m - size then [m + 16 + size] else [] := by
  rw [created_slots_succ, hscan]
  simp only [hm, if_false, size_t_sub_of_le _ _ hfit hty, header_size, gt_iff_lt]

/-- The slots formatted when the scan selects nothing: the slot of the page,
then those of the retry. -/
theorem created_slots_of_scan_null (env : Env) (pol : Policy) (fuel size : Nat)
    (h h1 : simple_heap_t) (rp : Nat)
    (hscan : scan pol h.mem size fuel h.free_head = some (NULL, rp))
    (hnew : new_region env h = Except.ok h1) :
    created_slots env pol (fuel + 1) size h =
      env.mmap_from_system h.mmap_calls :: created_slots env pol fuel size h1 := by
  rw [created_slots_succ, hscan]
  simp only [if_true, hnew]

theorem live_header_cons (p size x : Nat) (live : List (Nat × Nat)) :
    (∃ o ∈ (p + 16, size) :: live, o.1 - 16 = x) ↔ (x = p ∨ ∃ o ∈ live, o.1 - 16 = x) := by
  constructor
  · rintro ⟨o, ho, e⟩
    rcases List.mem_cons.1 ho with rfl | ho
    · left
      simp only at e
      omega
    · exact Or.inr ⟨o, ho, e⟩
  · rintro (e | ⟨o, ho, e⟩)
    · exact ⟨(p + 16, size), List.mem_cons_self _ _, by simp only; omega⟩
    · exact ⟨o, List.mem_cons_of_mem _ ho, e⟩

/-- One allocation keeps the invariant and the account of the slots: those on
the ledger are the slots on the free list and the headers of the live objects. -/
theorem ledger_malloc (env : Env) (hs : env.Sound) (pol : Policy) (s : Session)
    (FL slots : List Nat) (hinv : Inv env s FL)
    (hcov : ∀ x, x ∈ slots ↔ (x ∈ FL ++ [env.dummy] ∨ ∃ o ∈ s.live, o.1 - 16 = x))
    (size : Nat) (hv : ValidSize size) (fuel ptr : Nat) (h1 : simple_heap_t)
    (hr : allocate env pol fuel size s.heap = Except.ok (ptr, h1)) :
    ∃ FL1, Inv env ⟨h1, (ptr, size) :: s.live⟩ FL1 ∧
      ∀ x, x ∈ created_slots env pol fuel size s.heap ++ slots ↔
        (x ∈ FL1 ++ [env.dummy] ∨ ∃ o ∈ (ptr, size) :: s.live, o.1 - 16 = x) := by
  have hN : fuel ≤ max fuel (FL.length + 5) := le_max_left _ _
  have hN5 : FL.length + 5 ≤ max fuel (FL.length + 5) := le_max_right _ _
  generalize max fuel (FL.length + 5) = N at hN hN5
  have hbig := allocate_mono_le env pol fuel N size s.heap _ hN hr
  have hcr := created_slots_mono_le env pol fuel N size s.heap _ hN hr
  rw [← hcr]
  obtain ⟨f, rfl⟩ : ∃ f, N = f + 1 := ⟨N - 1, by omega⟩
  by_cases hex : ∃ x ∈ FL, size ≤ s.heap.mem x
  · obtain ⟨L1, m, L3, h2, a1, a2, a3, a4, _, _, _, _, _, a10⟩ :=
      allocate_found env pol s FL hinv size hv (f + 1) (by omega) hex
    rw [hbig] at a4
    injection a4 with a4
    injection a4 with e1 e2
    subst e1 e2
    have hmFL : m ∈ FL := by rw [a1]; simp
    have hmn : m ≠ NULL :=
      IsSeg_ne_null _ _ _ _ hinv.linked m (List.mem_append_left _ hmFL)
    have hty : s.heap.mem m < size_t_mod := by
      have := (hinv.free_size m hmFL).2.2
      unfold size_t_mod
      omega
    have hc := created_slots_of_scan env pol f size s.heap m _ a3 hmn a2.size_le hty
    rw [hc]
    refine ⟨_, a10, ?_⟩
    intro x
    rw [live_header_cons, List.mem_append, hcov x, a1]
    simp only [List.mem_append, List.mem_cons, List.mem_singleton]
    tauto
  · have hno : ∀ x ∈ FL, s.heap.mem x < size := by
      intro x hx
      by_contra hc
      exact hex ⟨x, hx, by omega⟩
    obtain ⟨hg, h2, rp, g1, g2, _, _, g5, _, g7, g8, g9, _, _, _, _, _, g15⟩ :=
      allocate_grow env hs pol s FL hinv size hv (f + 1) hN5 hno
    rw [g7, g9] at hbig
    injection hbig with a4
    injection a4 with e1 e2
    subst e1 e2
    obtain ⟨f1, rfl⟩ : ∃ f1, f = f1 + 1 := ⟨f - 1, by omega⟩
    simp only [Nat.add_sub_cancel] at g2 g8
    have hc1 := created_slots_of_scan_null env pol (f1 + 1) size s.heap hg rp g2 g1
    have hc2 := created_slots_of_scan env pol f1 size hg _ NULL g8 (hs.page_ne _)
      (by rw [g5]; have := hv.2.1; omega) (by rw [g5]; unfold size_t_mod; omega)
    have hbig2 : 16 < hg.mem (env.mmap_from_system s.heap.mmap_calls) - size := by
      rw [g5]; have := hv.2.1; omega
    rw [if_pos hbig2] at hc2
    rw [hc1, hc2]
    refine ⟨_, g15, ?_⟩
    intro x
    rw [live_header_cons, List.mem_append, hcov x]
    simp only [List.mem_append, List.mem_cons, List.mem_singleton, List.not_mem_nil, or_false]
    tauto

/-- Every state with its ledger satisfies the invariant, and the ledger holds
exactly the slots on the free list and the headers of the live objects. -/
theorem ledger_inv (env : Env) (hs : env.Sound) (pol : Policy) (s : Session)
    (slots : List Nat) (hl : Ledger env pol s slots) :
    ∃ FL, Inv env s FL ∧
      ∀ x, x ∈ slots ↔ (x ∈ FL ++ [env.dummy] ∨ ∃ o ∈ s.live, o.1 - 16 = x) := by
  induction hl with
  | init h0 _ =>
    refine ⟨[], inv_init env hs h0, ?_⟩
    intro x
    simp
  | malloc s slots fuel size ptr h1 _ hv hr ih =>
    obtain ⟨FL, hinv, hcov⟩ := ih
    exact ledger_malloc env hs pol s FL slots hinv hcov size hv fuel ptr h1 hr
  | free s slots ptr size h1 _ hmem hr ih =>
    obtain ⟨FL, hinv, hcov⟩ := ih
    obtain ⟨e, hinv1⟩ := inv_free env hs s FL hinv (ptr, size) hmem
    simp only at e hinv1
    rw [e] at hr
    injection hr with hr
    subst hr
    refine ⟨_, hinv1, ?_⟩
    intro x
    rw [hcov x]
    have hkey : (∃ o ∈ s.live, o.1 - 16 = x) ↔
        (x = ptr - 16 ∨ ∃ o ∈ s.live.erase (ptr, size), o.1 - 16 = x) := by
      constructor
      · rintro ⟨o, ho, e1⟩
        by_cases hne : o = (ptr, size)
        · left
          rw [hne] at e1
          exact e1.symm
        · exact Or.inr ⟨o, (List.mem_erase_of_ne hne).2 ho, e1⟩
      · rintro (e1 | ⟨o, ho, e1⟩)
        · exact ⟨(ptr, size), hmem, e1.symm⟩
        · exact ⟨o, List.mem_of_mem_erase ho, e1⟩
    rw [hkey]
    simp only [List.mem_append, List.mem_cons, List.mem_singleton]
    tauto

theorem Ledger.reachable (env : Env) (pol : Policy) (s : Session) (slots : List Nat)
    (hl : Ledger env pol s slots) : Reachable env pol s := by
  induction hl with
  | init h0 hz => exact Reachable.init h0 hz
  | malloc s slots fuel size ptr h1 _ hv hr ih => exact Reachable.malloc s fuel size ptr h1 ih hv hr
  | free s slots ptr size h1 _ hmem hr ih => exact Reachable.free s ptr size h1 ih hmem hr

/-- Every reachable state has a ledger. -/
theorem Reachable.ledger (env : Env) (pol : Policy) (s : Session)
    (hr : Reachable env pol s) : ∃ slots, Ledger env pol s slots := by
  induction hr with
  | init h0 hz => exact ⟨_, Ledger.init h0 hz⟩
  | malloc s fuel size ptr h1 _ hv hr ih =>
    obtain ⟨slots, hl⟩ := ih
    exact ⟨_, Ledger.malloc s slots fuel size ptr h1 hl hv hr⟩
  | free s ptr size h1 _ hmem hr ih =>
    obtain ⟨slots, hl⟩ := ih
    exact ⟨_, Ledger.free s slots ptr size h1 hl hmem hr⟩

theorem Session.malloc_ledger (env : Env) (pol : Policy) (fuel size : Nat) (s : Session)
    (slots : List Nat) (hs : Ledger env pol s slots) (hv : ValidSize size)
    (hok : (allocate env pol fuel size s.heap).toBool = true) :
    Ledger env pol (Session.malloc env pol fuel size s)
      (created_slots env pol fuel size s.heap ++ slots) := by
  unfold Session.malloc
  cases h : allocate env pol fuel size s.heap with
  | error e => rw [h] at hok; cases hok
  | ok r =>
    obtain ⟨ptr, h1⟩ := r
    exact Ledger.malloc s slots fuel size ptr h1 hs hv h

theorem Session.free_ledger (env : Env) (pol : Policy) (o : Nat × Nat) (s : Session)
    (slots : List Nat) (hs : Ledger env pol s slots) (hl : o ∈ s.live)
    (hok : (my_free s.heap o.1).toBool = true) :
    Ledger env pol (Session.free o s) slots := by
  unfold Session.free
  cases h : my_free s.heap o.1 with
  | error e => rw [h] at hok; cases hok
  | ok h1 => exact Ledger.free s slots o.1 o.2 h1 hs hl h

/-- The ledger of the concrete session `demo_s3`: the page slot 4096, the
remainders 4136 and 8152, and the dummy slot 64. -/
theorem demo_s3_ledger (pol : Policy) :
    Ledger demo_env pol (demo_s3 pol) [8152, 4096, 4136, 64] := by
  have h0 : Ledger demo_env pol demo_init [64] := Ledger.init demo_boot rfl
  have h1 : Ledger demo_env pol (demo_s1 pol) [4096, 4136, 64] := by
    have := Session.malloc_ledger demo_env pol 10 24 demo_init [64] h0 (by decide)
      (by cases pol <;> decide)
    have e : created_slots demo_env pol 10 24 demo_init.heap ++ [64] = [4096, 4136, 64] := by
      cases pol <;> decide
    rw [e] at this
    exact this
  have h2 : Ledger demo_env pol (demo_s2 pol) [8152, 4096, 4136, 64] := by
    have := Session.malloc_ledger demo_env pol 10 4000 (demo_s1 pol) _ h1 (by decide)
      (by cases pol <;> decide)
    have e : created_slots demo_env pol 10 4000 (demo_s1 pol).heap ++ [4096, 4136, 64] =
        [8152, 4096, 4136, 64] := by
      cases pol <;> decide
    rw [e] at this
    exact this
  exact Session.free_ledger demo_env pol (4112, 24) (demo_s2 pol) _ h2
    (by cases pol <;> decide) (by cases pol <;> decide)

/-! # C9 -/

/-- C9: in every reachable state, under each policy, the free list is acyclic
(the links lead from the head through finitely many slots to the none-marker),
no slot is on it more than once, no object is live twice, and no slot is both
on the free list and a live object.  The state has a ledger of the slots
formatted so far, and for every such ledger each of its slots is either on the
free list or the header of a live object, never both and never neither;
conversely the free list and the live objects hold ledger slots only. -/
theorem C9_free_xor_live (env : Env) (hs : env.Sound) (pol : Policy) (s : Session)
    (hr : Reachable env pol s) :
    ∃ L, IsList s.heap.mem s.heap.free_head L ∧ L.Nodup ∧
      (s.live.map Prod.fst).Nodup ∧
      (∀ o ∈ s.live, o.1 - header_size ∉ L) ∧
      (∃ slots, Ledger env pol s slots) ∧
      (∀ slots, Ledger env pol s slots →
        (∀ x ∈ slots, Xor' (x ∈ L) (∃ o ∈ s.live, o.1 - header_size = x)) ∧
        (∀ x ∈ L, x ∈ slots) ∧
        (∀ o ∈ s.live, o.1 - header_size ∈ slots)) := by
  obtain ⟨FL, hinv⟩ := reachable_inv env hs pol s hr
  have hnot := inv_live_not_free env s FL hinv
  refine ⟨FL ++ [env.dummy], hinv.linked, free_blocks_nodup _ _ hinv.free_apart,
    inv_live_nodup env s FL hinv, hnot, Reachable.ledger env pol s hr, ?_⟩
  intro slots hl
  obtain ⟨FL1, hinv1, hcov⟩ := ledger_inv env hs pol s slots hl
  have e : FL1 ++ [env.dummy] = FL ++ [env.dummy] :=
    IsList_unique _ _ _ _ hinv1.linked hinv.linked
  rw [e] at hcov
  unfold header_size
  refine ⟨?_, ?_, ?_⟩
  · intro x hx
    rcases (hcov x).1 hx with h1 | ⟨o, ho, e1⟩
    · left
      refine ⟨h1, ?_⟩
      rintro ⟨o, ho, e1⟩
      exact hnot o ho (by rw [e1]; exact h1)
    · right
      refine ⟨⟨o, ho, e1⟩, ?_⟩
      intro h1
      exact hnot o ho (by rw [e1]; exact h1)
  · intro x hx
    exact (hcov x).2 (Or.inl hx)
  · intro o ho
    exact (hcov _).2 (Or.inr ⟨o, ho, rfl⟩)

/-- C9 at a concrete state: of the four slots formatted so far, 4136 is the
header of the live object at 4152 and 4096, 8152 and the dummy slot 64 are on
the free list. -/
theorem C9_free_xor_live_witness :
    demo_env.Sound ∧ Reachable demo_env Policy.first_fit (demo_s3 Policy.first_fit) ∧
      (∃ L, IsList (demo_s3 Policy.first_fit).heap.mem
          (demo_s3 Policy.first_fit).heap.free_head L ∧ L.Nodup ∧
        ((demo_s3 Policy.first_fit).live.map Prod.fst).Nodup ∧
        (∀ o ∈ (demo_s3 Policy.first_fit).live, o.1 - header_size ∉ L) ∧
        (∃ slots, Ledger demo_env Policy.first_fit (demo_s3 Policy.first_fit) slots) ∧
        (∀ slots, Ledger demo_env Policy.first_fit (demo_s3 Policy.first_fit) slots →
          (∀ x ∈ slots, Xor' (x ∈ L)
            (∃ o ∈ (demo_s3 Policy.first_fit).live, o.1 - header_size = x)) ∧
          (∀ x ∈ L, x ∈ slots) ∧
          (∀ o ∈ (demo_s3 Policy.first_fit).live, o.1 - header_size ∈ slots))) ∧
      Ledger demo_env Policy.first_fit (demo_s3 Policy.first_fit) [8152, 4096, 4136, 64] ∧
      (demo_s3 Policy.first_fit).live = [(4152, 4000)] ∧
      IsList (demo_s3 Policy.first_fit).heap.mem (demo_s3 Policy.first_fit).heap.free_head
        [4096, 8152, 64] :=
  ⟨demo_env_sound, demo_s3_reachable _,
    C9_free_xor_live demo_env demo_env_sound _ _ (demo_s3_reachable _),
    demo_s3_ledger _, by decide, by decide⟩

end RealMalloc
